import Mathlib

/-!
# ast-rewrite: a shallow embedding of `Rewrite` (rewrite.go)

The Go program walks a `go/ast` tree, hands every node to a callback
(`Rewriter`), stores the callback's answer back into the slot the node came
from, and splices `ExpandedBlockStmt` answers into statement lists.

Modelling decisions

* `Node` is the Go interface `ast.Node`: `Node.nil` is the nil interface (and,
  inside a pointer-typed field, the nil pointer); `Node.typedNil k` is a nil
  pointer of type `*k` wrapped in an interface; `Node.other` is any node type
  the dispatcher has no case for.  Every other constructor is a non-nil
  pointer to the `go/ast` struct of the same name, with its child fields in
  the order of the struct declaration (the Go fields `Type` and `List` are
  written `Type_` and `List_`).  Fields of a node that hold no child
  (positions, tokens, names, literal text, flags) are gathered in `Attr`.
  Alias fields of `go/ast` (`Ident.Obj`, `File.Scope`, `File.Imports`,
  `File.Unresolved`, `File.Comments`, `Package.Scope`, `Package.Imports`) are
  never touched by `Rewrite` and are left out.
* The tree is mutated in place by the Go code.  Here every function returns
  the new value of what it mutates.
* A callback is a function with a private state `σ` (a Go closure); a pure
  callback leaves the state alone.
* A Go panic is `Outcome.panic`; `Rewrite` recurses on what the callback
  returned, so the model is driven by a recursion budget and
  `Outcome.outOfFuel` says the budget was too small.
* `Package.Files` is a map; its values are listed in the order in which the
  `range` loop of that run yields them.
-/

namespace AstRewrite

/-! ## Data model -/

/-- Go `token.Pos`. -/
abbrev Pos := Nat

/-- Go `token.Token`. -/
abbrev Token := Nat

/-- Go `token.DEFINE`. -/
def DEFINE : Token := 47

/-- The fields of a node that hold no child: its positions in declaration
order, its token (`Tok`, `Op`, `Kind`, `Dir`), its text (`Name`, `Value`,
`Text`) and its flag (`Slice3`, `Incomplete`, `Implicit`).  The zero value of
a Go struct has the default `Attr`. -/
structure Attr where
  pos : List Pos := []
  tok : Token := 0
  text : String := ""
  flag : Bool := false
deriving DecidableEq, Repr, Inhabited

/-- The pointer types the dispatcher has a case for: the dynamic type of a
non-nil `ast.Node` handled by `Rewrite`. -/
inductive Kind where
  | Comment | CommentGroup | Field | FieldList
  | BadExpr | Ident | Ellipsis | BasicLit | FuncLit | CompositeLit | ParenExpr
  | SelectorExpr | IndexExpr | SliceExpr | TypeAssertExpr | CallExpr | StarExpr
  | UnaryExpr | BinaryExpr | KeyValueExpr
  | ArrayType | StructType | FuncType | InterfaceType | MapType | ChanType
  | BadStmt | DeclStmt | EmptyStmt | LabeledStmt | ExprStmt | SendStmt
  | IncDecStmt | AssignStmt | GoStmt | DeferStmt | ReturnStmt | BranchStmt
  | BlockStmt | ExpandedBlockStmt | IfStmt | CaseClause | SwitchStmt
  | TypeSwitchStmt | CommClause | SelectStmt | ForStmt | RangeStmt
  | ImportSpec | ValueSpec | TypeSpec | BadDecl | GenDecl | FuncDecl
  | File | Package
deriving DecidableEq, Repr, Inhabited

/-- The interfaces of `go/ast` that a slot can be typed with. -/
inductive Iface where
  | Expr | Stmt | Decl | Spec
deriving DecidableEq, Repr, Inhabited

/-- Values of the Go interface `ast.Node`. -/
inductive Node where
  | nil
  | typedNil (k : Kind)
  | other (a : Attr) (impl : List Iface)
  -- Comments and fields
  | Comment (a : Attr)
  | CommentGroup (a : Attr) (List_ : List Node)
  | Field (a : Attr) (Doc : Node) (Names : List Node) (Type_ : Node) (Tag : Node) (Comment : Node)
  | FieldList (a : Attr) (List_ : List Node)
  -- Expressions
  | BadExpr (a : Attr)
  | Ident (a : Attr)
  | Ellipsis (a : Attr) (Elt : Node)
  | BasicLit (a : Attr)
  | FuncLit (a : Attr) (Type_ : Node) (Body : Node)
  | CompositeLit (a : Attr) (Type_ : Node) (Elts : List Node)
  | ParenExpr (a : Attr) (X : Node)
  | SelectorExpr (a : Attr) (X : Node) (Sel : Node)
  | IndexExpr (a : Attr) (X : Node) (Index : Node)
  | SliceExpr (a : Attr) (X : Node) (Low : Node) (High : Node) (Max : Node)
  | TypeAssertExpr (a : Attr) (X : Node) (Type_ : Node)
  | CallExpr (a : Attr) (Fun : Node) (Args : List Node)
  | StarExpr (a : Attr) (X : Node)
  | UnaryExpr (a : Attr) (X : Node)
  | BinaryExpr (a : Attr) (X : Node) (Y : Node)
  | KeyValueExpr (a : Attr) (Key : Node) (Value : Node)
  -- Types
  | ArrayType (a : Attr) (Len : Node) (Elt : Node)
  | StructType (a : Attr) (Fields : Node)
  | FuncType (a : Attr) (Params : Node) (Results : Node)
  | InterfaceType (a : Attr) (Methods : Node)
  | MapType (a : Attr) (Key : Node) (Value : Node)
  | ChanType (a : Attr) (Value : Node)
  -- Statements
  | BadStmt (a : Attr)
  | DeclStmt (a : Attr) (Decl : Node)
  | EmptyStmt (a : Attr)
  | LabeledStmt (a : Attr) (Label : Node) (Stmt : Node)
  | ExprStmt (a : Attr) (X : Node)
  | SendStmt (a : Attr) (Chan : Node) (Value : Node)
  | IncDecStmt (a : Attr) (X : Node)
  | AssignStmt (a : Attr) (Lhs : List Node) (Rhs : List Node)
  | GoStmt (a : Attr) (Call : Node)
  | DeferStmt (a : Attr) (Call : Node)
  | ReturnStmt (a : Attr) (Results : List Node)
  | BranchStmt (a : Attr) (Label : Node)
  | BlockStmt (a : Attr) (List_ : List Node)
  | ExpandedBlockStmt (a : Attr) (List_ : List Node)
  | IfStmt (a : Attr) (Init : Node) (Cond : Node) (Body : Node) (Else : Node)
  | CaseClause (a : Attr) (List_ : List Node) (Body : List Node)
  | SwitchStmt (a : Attr) (Init : Node) (Tag : Node) (Body : Node)
  | TypeSwitchStmt (a : Attr) (Init : Node) (Assign : Node) (Body : Node)
  | CommClause (a : Attr) (Comm : Node) (Body : List Node)
  | SelectStmt (a : Attr) (Body : Node)
  | ForStmt (a : Attr) (Init : Node) (Cond : Node) (Post : Node) (Body : Node)
  | RangeStmt (a : Attr) (Key : Node) (Value : Node) (X : Node) (Body : Node)
  -- Declarations
  | ImportSpec (a : Attr) (Doc : Node) (Name : Node) (Path : Node) (Comment : Node)
  | ValueSpec (a : Attr) (Doc : Node) (Names : List Node) (Type_ : Node) (Values : List Node) (Comment : Node)
  | TypeSpec (a : Attr) (Doc : Node) (Name : Node) (Type_ : Node) (Comment : Node)
  | BadDecl (a : Attr)
  | GenDecl (a : Attr) (Doc : Node) (Specs : List Node)
  | FuncDecl (a : Attr) (Doc : Node) (Recv : Node) (Name : Node) (Type_ : Node) (Body : Node)
  -- Files and packages
  | File (a : Attr) (Doc : Node) (Name : Node) (Decls : List Node)
  | Package (a : Attr) (Files : List Node)
deriving Repr, Inhabited

/-- Membership of a pointer type in the method set of an interface:
`*ExpandedBlockStmt` embeds `BlockStmt` and so is a `Stmt`. -/
def Kind.implements : Kind → Iface → Bool
  | .BadExpr, .Expr | .Ident, .Expr | .Ellipsis, .Expr | .BasicLit, .Expr
  | .FuncLit, .Expr | .CompositeLit, .Expr | .ParenExpr, .Expr
  | .SelectorExpr, .Expr | .IndexExpr, .Expr | .SliceExpr, .Expr
  | .TypeAssertExpr, .Expr | .CallExpr, .Expr | .StarExpr, .Expr
  | .UnaryExpr, .Expr | .BinaryExpr, .Expr | .KeyValueExpr, .Expr
  | .ArrayType, .Expr | .StructType, .Expr | .FuncType, .Expr
  | .InterfaceType, .Expr | .MapType, .Expr | .ChanType, .Expr => true
  | .BadStmt, .Stmt | .DeclStmt, .Stmt | .EmptyStmt, .Stmt | .LabeledStmt, .Stmt
  | .ExprStmt, .Stmt | .SendStmt, .Stmt | .IncDecStmt, .Stmt | .AssignStmt, .Stmt
  | .GoStmt, .Stmt | .DeferStmt, .Stmt | .ReturnStmt, .Stmt | .BranchStmt, .Stmt
  | .BlockStmt, .Stmt | .ExpandedBlockStmt, .Stmt | .IfStmt, .Stmt
  | .CaseClause, .Stmt | .SwitchStmt, .Stmt | .TypeSwitchStmt, .Stmt
  | .CommClause, .Stmt | .SelectStmt, .Stmt | .ForStmt, .Stmt
  | .RangeStmt, .Stmt => true
  | .BadDecl, .Decl | .GenDecl, .Decl | .FuncDecl, .Decl => true
  | .ImportSpec, .Spec | .ValueSpec, .Spec | .TypeSpec, .Spec => true
  | _, _ => false

/-- Dynamic type of a non-nil pointer to a struct (`none` for the nil
interface, a typed nil and an unhandled node type). -/
def Node.kind : Node → Option Kind
  | .nil => none
  | .typedNil _ => none
  | .other _ _ => none
  | .Comment _ => some .Comment
  | .CommentGroup _ _ => some .CommentGroup
  | .Field _ _ _ _ _ _ => some .Field
  | .FieldList _ _ => some .FieldList
  | .BadExpr _ => some .BadExpr
  | .Ident _ => some .Ident
  | .Ellipsis _ _ => some .Ellipsis
  | .BasicLit _ => some .BasicLit
  | .FuncLit _ _ _ => some .FuncLit
  | .CompositeLit _ _ _ => some .CompositeLit
  | .ParenExpr _ _ => some .ParenExpr
  | .SelectorExpr _ _ _ => some .SelectorExpr
  | .IndexExpr _ _ _ => some .IndexExpr
  | .SliceExpr _ _ _ _ _ => some .SliceExpr
  | .TypeAssertExpr _ _ _ => some .TypeAssertExpr
  | .CallExpr _ _ _ => some .CallExpr
  | .StarExpr _ _ => some .StarExpr
  | .UnaryExpr _ _ => some .UnaryExpr
  | .BinaryExpr _ _ _ => some .BinaryExpr
  | .KeyValueExpr _ _ _ => some .KeyValueExpr
  | .ArrayType _ _ _ => some .ArrayType
  | .StructType _ _ => some .StructType
  | .FuncType _ _ _ => some .FuncType
  | .InterfaceType _ _ => some .InterfaceType
  | .MapType _ _ _ => some .MapType
  | .ChanType _ _ => some .ChanType
  | .BadStmt _ => some .BadStmt
  | .DeclStmt _ _ => some .DeclStmt
  | .EmptyStmt _ => some .EmptyStmt
  | .LabeledStmt _ _ _ => some .LabeledStmt
  | .ExprStmt _ _ => some .ExprStmt
  | .SendStmt _ _ _ => some .SendStmt
  | .IncDecStmt _ _ => some .IncDecStmt
  | .AssignStmt _ _ _ => some .AssignStmt
  | .GoStmt _ _ => some .GoStmt
  | .DeferStmt _ _ => some .DeferStmt
  | .ReturnStmt _ _ => some .ReturnStmt
  | .BranchStmt _ _ => some .BranchStmt
  | .BlockStmt _ _ => some .BlockStmt
  | .ExpandedBlockStmt _ _ => some .ExpandedBlockStmt
  | .IfStmt _ _ _ _ _ => some .IfStmt
  | .CaseClause _ _ _ => some .CaseClause
  | .SwitchStmt _ _ _ _ => some .SwitchStmt
  | .TypeSwitchStmt _ _ _ _ => some .TypeSwitchStmt
  | .CommClause _ _ _ => some .CommClause
  | .SelectStmt _ _ => some .SelectStmt
  | .ForStmt _ _ _ _ _ => some .ForStmt
  | .RangeStmt _ _ _ _ _ => some .RangeStmt
  | .ImportSpec _ _ _ _ _ => some .ImportSpec
  | .ValueSpec _ _ _ _ _ _ => some .ValueSpec
  | .TypeSpec _ _ _ _ _ => some .TypeSpec
  | .BadDecl _ => some .BadDecl
  | .GenDecl _ _ _ => some .GenDecl
  | .FuncDecl _ _ _ _ _ _ => some .FuncDecl
  | .File _ _ _ _ => some .File
  | .Package _ _ => some .Package

/-- Comparison with the nil interface, `x == nil`. -/
def Node.isNil : Node → Bool
  | .nil => true
  | _ => false

/-- Test `_, ok := x.(*ExpandedBlockStmt)` on a non-nil pointer. -/
def Node.isExpanded : Node → Bool
  | .ExpandedBlockStmt _ _ => true
  | _ => false

/-! ## Outcomes and the callback -/

/-- The three run-time panics of the program. -/
inductive Panic where
  /-- A failed type assertion `x.(T)`. -/
  | typeAssertion
  /-- A field access through a nil pointer. -/
  | nilDereference
  /-- The default branch of the dispatcher, `panic("Rewrite")`. -/
  | unexpectedNode
deriving DecidableEq, Repr, Inhabited

/-- Result of running a piece of the program. -/
inductive Outcome (α : Type) where
  | done (a : α)
  | panic (p : Panic)
  | outOfFuel
deriving Repr, Inhabited

/-- A computation over the callback's state `σ`. -/
def Run (σ α : Type) : Type := σ → Outcome (α × σ)

/-- Return a value, state unchanged. -/
def Run.pure {σ α : Type} (a : α) : Run σ α := fun s => .done (a, s)

/-- Sequencing: a panic, or the exhaustion of the budget, ends the run. -/
def Run.bind {σ α β : Type} (x : Run σ α) (f : α → Run σ β) : Run σ β := fun s =>
  match x s with
  | .done (a, s1) => f a s1
  | .panic p => .panic p
  | .outOfFuel => .outOfFuel

/-- A Go panic. -/
def Run.fail {σ α : Type} (p : Panic) : Run σ α := fun _ => .panic p

/-- The monad of runs, for the `do` blocks below. -/
instance (σ : Type) : Monad (Run σ) where
  pure := Run.pure
  bind := Run.bind

/-- Go `type Rewriter func(Node) (n Node, continueRewriting bool)`, a closure
over a state of type `σ`. -/
def Rewriter (σ : Type) : Type := Node → σ → (Node × Bool) × σ

/-- Calling the callback inside a run. -/
def Rewriter.call {σ : Type} (r : Rewriter σ) (n : Node) : Run σ (Node × Bool) :=
  fun s => .done (r n s)

/-! ## Type assertions -/

/-- The dynamic type of `x` implements the interface `i` (false for the nil
interface). -/
def Node.implements (x : Node) (i : Iface) : Bool :=
  match x with
  | .nil => false
  | .typedNil k => k.implements i
  | .other _ impl => impl.contains i
  | x =>
    match x.kind with
    | some k => k.implements i
    | none => false

/-- The dynamic type of `x` is the pointer type `*k`. -/
def Node.hasType (x : Node) (k : Kind) : Bool :=
  match x with
  | .typedNil k1 => k1 == k
  | x => x.kind == some k

/-- The pointer held by an interface value whose dynamic type is a pointer
type: the nil pointer for a typed nil. -/
def Node.ptrValue : Node → Node
  | .typedNil _ => .nil
  | x => x

/-- Go `x.(I)` for an interface type `I`: the operand must be non-nil and its
dynamic type must implement `I`. -/
def assertIface {σ : Type} (i : Iface) (x : Node) : Run σ Node :=
  if x.implements i then Run.pure x else Run.fail .typeAssertion

/-- Go `x.(*K)` for a pointer type `*K`: the dynamic type must be `*K`; the
result is the pointer. -/
def assertPtr {σ : Type} (k : Kind) (x : Node) : Run σ Node :=
  if x.hasType k then Run.pure x.ptrValue else Run.fail .typeAssertion

/-- Conversion of a field of type `*K` to the interface `Node` in a call
`Rewrite(p, r)`: a nil pointer becomes a typed nil. -/
def ptrToNode (k : Kind) (p : Node) : Node :=
  match p with
  | .nil => .typedNil k
  | p => p

/-! ## Slot rewriters (rewrite.go, lines 284-352)

Each takes the recursive call `rw` (that is `fun n => Rewrite(n, r)`) and the
content of the slot, and returns the new content. -/

/-- Shape of `rewriteIdent`, `rewriteBlockStmt`, `rewriteCommentGroup` and
`rewriteFieldList`: `if *p != nil { *p = Rewrite(*p, r).(*K) }`. -/
def rewritePtr {σ : Type} (k : Kind) (rw : Node → Run σ Node) (p : Node) : Run σ Node :=
  if p.isNil then Run.pure p
  else do
    let n ← rw p
    assertPtr k n

/-- Shape of `rewriteExpr` and `rewriteStmt`:
`if *x != nil { *x = Rewrite(*x, r).(I) }`. -/
def rewriteIface {σ : Type} (i : Iface) (rw : Node → Run σ Node) (x : Node) : Run σ Node :=
  if x.isNil then Run.pure x
  else do
    let n ← rw x
    assertIface i n

/-- Shape of `p = Rewrite(p, r).(*K)` on a field of type `*K`, no nil test. -/
def rewriteReqPtr {σ : Type} (k : Kind) (rw : Node → Run σ Node) (p : Node) : Run σ Node := do
  let n ← rw (ptrToNode k p)
  assertPtr k n

/-- Shape of `x = Rewrite(x, r).(I)` on a field of interface type `I`, no nil
test. -/
def rewriteReqIface {σ : Type} (i : Iface) (rw : Node → Run σ Node) (x : Node) : Run σ Node := do
  let n ← rw x
  assertIface i n

/-- A `for i := range list` loop that stores `f list[i]` into `list[i]`. -/
def rewriteEach {σ : Type} (f : Node → Run σ Node) : List Node → Run σ (List Node)
  | [] => Run.pure []
  | x :: rest => do
    let y ← f x
    let ys ← rewriteEach f rest
    Run.pure (y :: ys)

/-- Go `rewriteIdent`. -/
def rewriteIdent {σ : Type} (rw : Node → Run σ Node) (ident : Node) : Run σ Node :=
  rewritePtr .Ident rw ident

/-- Go `rewriteIdentList`. -/
def rewriteIdentList {σ : Type} (rw : Node → Run σ Node) (list : List Node) : Run σ (List Node) :=
  rewriteEach (rewriteIdent rw) list

/-- Go `rewriteExpr`. -/
def rewriteExpr {σ : Type} (rw : Node → Run σ Node) (expr : Node) : Run σ Node :=
  rewriteIface .Expr rw expr

/-- Go `rewriteExprList`. -/
def rewriteExprList {σ : Type} (rw : Node → Run σ Node) (list : List Node) : Run σ (List Node) :=
  rewriteEach (rewriteExpr rw) list

/-- Go `rewriteStmt`. -/
def rewriteStmt {σ : Type} (rw : Node → Run σ Node) (stmt : Node) : Run σ Node :=
  rewriteIface .Stmt rw stmt

/-- Go `rewriteBlockStmt`. -/
def rewriteBlockStmt {σ : Type} (rw : Node → Run σ Node) (stmt : Node) : Run σ Node :=
  rewritePtr .BlockStmt rw stmt

/-- Go `rewriteCommentGroup`. -/
def rewriteCommentGroup {σ : Type} (rw : Node → Run σ Node) (comment : Node) : Run σ Node :=
  rewritePtr .CommentGroup rw comment

/-- Go `rewriteFieldList`. -/
def rewriteFieldList {σ : Type} (rw : Node → Run σ Node) (list : Node) : Run σ Node :=
  rewritePtr .FieldList rw list

/-- Go `rewriteDeclList`. -/
def rewriteDeclList {σ : Type} (rw : Node → Run σ Node) (list : List Node) : Run σ (List Node) :=
  rewriteEach (rewriteReqIface .Decl rw) list

/-- The loop of Go `rewriteStmtList`, with the slice `l` cut at the cursor:
`front` is `l[:i]` and the list argument is `l[i:]`.  One turn rewrites `l[i]`
in place; if it now holds an `*ExpandedBlockStmt`, `l` becomes
`l[:i] ++ stmt.List ++ l[i+1:]` and the cursor moves by `len(stmt.List)`,
otherwise the cursor moves by one.  A nil `*ExpandedBlockStmt` stored in the
slot is dereferenced by `stmt.List`. -/
def rewriteStmtListLoop {σ : Type} (rw : Node → Run σ Node) (front : List Node) :
    List Node → Run σ (List Node)
  | [] => Run.pure front
  | st :: rest => do
    let st1 ← rewriteStmt rw st
    match st1 with
    | .ExpandedBlockStmt _ sub => rewriteStmtListLoop rw (front ++ sub) rest
    | .typedNil .ExpandedBlockStmt => Run.fail .nilDereference
    | _ => rewriteStmtListLoop rw (front ++ [st1]) rest

/-- Go `rewriteStmtList`: the loop started with the cursor at 0. -/
def rewriteStmtList {σ : Type} (rw : Node → Run σ Node) (list : List Node) : Run σ (List Node) :=
  rewriteStmtListLoop rw [] list

/-! ## The dispatcher (rewrite.go, lines 26-282) -/

/-- The kinds whose case in the type switch of `Rewrite` has an empty body, so
that a nil pointer of that type is not dereferenced. -/
def Kind.hasEmptyCase : Kind → Bool
  | .Comment | .BadExpr | .Ident | .BasicLit | .BadStmt | .EmptyStmt | .BadDecl => true
  | _ => false

/-- The type switch of `Rewrite`: the children of `node` are rewritten slot by
slot in the order of the source, and the node with its new children is
returned. -/
def rewriteChildren {σ : Type} (rw : Node → Run σ Node) (node : Node) : Run σ Node :=
  match node with
  -- Comments and fields
  | .Comment a => Run.pure (.Comment a)
  | .CommentGroup a list => do
    let list ← rewriteEach (rewriteReqPtr .Comment rw) list
    Run.pure (.CommentGroup a list)
  | .Field a doc names type tag comment => do
    let doc ← rewriteCommentGroup rw doc
    let names ← rewriteIdentList rw names
    let type ← rewriteExpr rw type
    let tag ← rewritePtr .BasicLit rw tag
    let comment ← rewriteCommentGroup rw comment
    Run.pure (.Field a doc names type tag comment)
  | .FieldList a list => do
    let list ← rewriteEach (rewriteReqPtr .Field rw) list
    Run.pure (.FieldList a list)
  -- Expressions
  | .BadExpr a => Run.pure (.BadExpr a)
  | .Ident a => Run.pure (.Ident a)
  | .BasicLit a => Run.pure (.BasicLit a)
  | .Ellipsis a elt => do
    let elt ← rewriteExpr rw elt
    Run.pure (.Ellipsis a elt)
  | .FuncLit a type body => do
    let type ← rewriteReqPtr .FuncType rw type
    let body ← rewriteBlockStmt rw body
    Run.pure (.FuncLit a type body)
  | .CompositeLit a type elts => do
    let type ← rewriteExpr rw type
    let elts ← rewriteExprList rw elts
    Run.pure (.CompositeLit a type elts)
  | .ParenExpr a x => do
    let x ← rewriteExpr rw x
    Run.pure (.ParenExpr a x)
  | .SelectorExpr a x sel => do
    let x ← rewriteExpr rw x
    let sel ← rewriteIdent rw sel
    Run.pure (.SelectorExpr a x sel)
  | .IndexExpr a x index => do
    let x ← rewriteExpr rw x
    let index ← rewriteExpr rw index
    Run.pure (.IndexExpr a x index)
  | .SliceExpr a x low high max => do
    let x ← rewriteExpr rw x
    let low ← rewriteExpr rw low
    let high ← rewriteExpr rw high
    let max ← rewriteExpr rw max
    Run.pure (.SliceExpr a x low high max)
  | .TypeAssertExpr a x type => do
    let x ← rewriteExpr rw x
    let type ← rewriteExpr rw type
    Run.pure (.TypeAssertExpr a x type)
  | .CallExpr a fn args => do
    let fn ← rewriteExpr rw fn
    let args ← rewriteExprList rw args
    Run.pure (.CallExpr a fn args)
  | .StarExpr a x => do
    let x ← rewriteExpr rw x
    Run.pure (.StarExpr a x)
  | .UnaryExpr a x => do
    let x ← rewriteExpr rw x
    Run.pure (.UnaryExpr a x)
  | .BinaryExpr a x y => do
    let x ← rewriteExpr rw x
    let y ← rewriteExpr rw y
    Run.pure (.BinaryExpr a x y)
  | .KeyValueExpr a key value => do
    let key ← rewriteExpr rw key
    let value ← rewriteExpr rw value
    Run.pure (.KeyValueExpr a key value)
  -- Types
  | .ArrayType a len elt => do
    let len ← rewriteExpr rw len
    let elt ← rewriteExpr rw elt
    Run.pure (.ArrayType a len elt)
  | .StructType a fields => do
    let fields ← rewriteFieldList rw fields
    Run.pure (.StructType a fields)
  | .FuncType a params results => do
    let params ← rewriteFieldList rw params
    let results ← rewriteFieldList rw results
    Run.pure (.FuncType a params results)
  | .InterfaceType a methods => do
    let methods ← rewriteFieldList rw methods
    Run.pure (.InterfaceType a methods)
  | .MapType a key value => do
    let value ← rewriteExpr rw value
    let key ← rewriteExpr rw key
    Run.pure (.MapType a key value)
  | .ChanType a value => do
    let value ← rewriteExpr rw value
    Run.pure (.ChanType a value)
  -- Statements
  | .BadStmt a => Run.pure (.BadStmt a)
  | .DeclStmt a decl => do
    let decl ← rewriteReqIface .Decl rw decl
    Run.pure (.DeclStmt a decl)
  | .EmptyStmt a => Run.pure (.EmptyStmt a)
  | .LabeledStmt a label stmt => do
    let label ← rewriteIdent rw label
    let stmt ← rewriteStmt rw stmt
    Run.pure (.LabeledStmt a label stmt)
  | .ExprStmt a x => do
    let x ← rewriteExpr rw x
    Run.pure (.ExprStmt a x)
  | .SendStmt a chan value => do
    let chan ← rewriteExpr rw chan
    let value ← rewriteExpr rw value
    Run.pure (.SendStmt a chan value)
  | .IncDecStmt a x => do
    let x ← rewriteExpr rw x
    Run.pure (.IncDecStmt a x)
  | .AssignStmt a lhs rhs => do
    let lhs ← rewriteExprList rw lhs
    let rhs ← rewriteExprList rw rhs
    Run.pure (.AssignStmt a lhs rhs)
  | .GoStmt a call => do
    let call ← rewriteReqPtr .CallExpr rw call
    Run.pure (.GoStmt a call)
  | .DeferStmt a call => do
    let call ← rewriteReqPtr .CallExpr rw call
    Run.pure (.DeferStmt a call)
  | .ReturnStmt a results => do
    let results ← rewriteExprList rw results
    Run.pure (.ReturnStmt a results)
  | .BranchStmt a label => do
    let label ← rewriteIdent rw label
    Run.pure (.BranchStmt a label)
  | .BlockStmt a list => do
    let list ← rewriteStmtList rw list
    Run.pure (.BlockStmt a list)
  | .ExpandedBlockStmt a list => do
    let list ← rewriteStmtList rw list
    Run.pure (.ExpandedBlockStmt a list)
  | .IfStmt a init cond body els => do
    let init ← rewriteStmt rw init
    let cond ← rewriteExpr rw cond
    let body ← rewriteBlockStmt rw body
    let els ← rewriteStmt rw els
    Run.pure (.IfStmt a init cond body els)
  | .CaseClause a list body => do
    let list ← rewriteExprList rw list
    let body ← rewriteStmtList rw body
    Run.pure (.CaseClause a list body)
  | .SwitchStmt a init tag body => do
    let init ← rewriteStmt rw init
    let tag ← rewriteExpr rw tag
    let body ← rewriteBlockStmt rw body
    Run.pure (.SwitchStmt a init tag body)
  | .TypeSwitchStmt a init assign body => do
    let init ← rewriteStmt rw init
    let assign ← rewriteStmt rw assign
    let body ← rewriteBlockStmt rw body
    Run.pure (.TypeSwitchStmt a init assign body)
  | .CommClause a comm body => do
    let comm ← rewriteStmt rw comm
    let body ← rewriteStmtList rw body
    Run.pure (.CommClause a comm body)
  | .SelectStmt a body => do
    let body ← rewriteBlockStmt rw body
    Run.pure (.SelectStmt a body)
  | .ForStmt a init cond post body => do
    let init ← rewriteStmt rw init
    let cond ← rewriteExpr rw cond
    let post ← rewriteStmt rw post
    let body ← rewriteBlockStmt rw body
    Run.pure (.ForStmt a init cond post body)
  | .RangeStmt a key value x body => do
    let key ← rewriteExpr rw key
    let value ← rewriteExpr rw value
    let x ← rewriteExpr rw x
    let body ← rewriteBlockStmt rw body
    Run.pure (.RangeStmt a key value x body)
  -- Declarations
  | .ImportSpec a doc name path comment => do
    let doc ← rewriteCommentGroup rw doc
    let name ← rewriteIdent rw name
    let path ← rewriteReqPtr .BasicLit rw path
    let comment ← rewriteCommentGroup rw comment
    Run.pure (.ImportSpec a doc name path comment)
  | .ValueSpec a doc names type values comment => do
    let doc ← rewriteCommentGroup rw doc
    let names ← rewriteIdentList rw names
    let type ← rewriteExpr rw type
    let values ← rewriteExprList rw values
    let comment ← rewriteCommentGroup rw comment
    Run.pure (.ValueSpec a doc names type values comment)
  | .TypeSpec a doc name type comment => do
    let doc ← rewriteCommentGroup rw doc
    let name ← rewriteIdent rw name
    let type ← rewriteExpr rw type
    let comment ← rewriteCommentGroup rw comment
    Run.pure (.TypeSpec a doc name type comment)
  | .BadDecl a => Run.pure (.BadDecl a)
  | .GenDecl a doc specs => do
    let doc ← rewriteCommentGroup rw doc
    let specs ← rewriteEach (rewriteReqIface .Spec rw) specs
    Run.pure (.GenDecl a doc specs)
  | .FuncDecl a doc recv name type body => do
    let doc ← rewriteCommentGroup rw doc
    let recv ← rewriteFieldList rw recv
    let name ← rewriteIdent rw name
    let type ← rewriteReqPtr .FuncType rw type
    let body ← rewriteBlockStmt rw body
    Run.pure (.FuncDecl a doc recv name type body)
  -- Files and packages
  | .File a doc name decls => do
    let doc ← rewriteCommentGroup rw doc
    let name ← rewriteIdent rw name
    let decls ← rewriteDeclList rw decls
    Run.pure (.File a doc name decls)
  | .Package a files => do
    let files ← rewriteEach (rewriteReqPtr .File rw) files
    Run.pure (.Package a files)
  -- a nil pointer of a handled type: the case is entered, its body
  -- dereferences the pointer unless it is empty
  | .typedNil k =>
    if k.hasEmptyCase then Run.pure (.typedNil k) else Run.fail .nilDereference
  -- default
  | .nil => Run.fail .unexpectedNode
  | .other _ _ => Run.fail .unexpectedNode

/-- Go `Rewrite(node, r)`, with a budget for the depth of the recursion.  The
callback is asked first; unless it says not to continue, the children of the
node it returned are rewritten, the callback is called once more with nil and
the node is returned. -/
def Rewrite {σ : Type} (r : Rewriter σ) : Nat → Node → Run σ Node
  | 0, _ => fun _ => .outOfFuel
  | fuel + 1, node => do
    let (node, continueRewriting) ← r.call node
    if !continueRewriting then
      Run.pure node
    else do
      let node ← rewriteChildren (Rewrite r fuel) node
      let _ ← r.call .nil
      Run.pure node

/-- The dynamic type is `*ExpandedBlockStmt` (a sentinel or a nil pointer of
that type). -/
def Node.isExpandedType (x : Node) : Bool :=
  x.hasType .ExpandedBlockStmt

/-- What the splice of `rewriteStmtList` puts in the place of a rewritten
element: the statements of a sentinel, the element itself otherwise. -/
def spliced : Node → List Node
  | .ExpandedBlockStmt _ sub => sub
  | y => [y]

/-! ## A uniform view of the child slots

The type switch of `Rewrite` is a list of calls of slot rewriters.  The
definitions below name the four ways a single slot is rewritten and the three
kinds of slot, and list the slots of every node type; `rewriteChildren` is
proved equal to the traversal of that list. -/

/-- How a single slot is rewritten: with or without a nil test, and with an
assertion to a pointer type or to an interface type. -/
inductive Shape where
  /-- Go `if *p != nil { *p = Rewrite(*p, r).(*K) }`. -/
  | ptr (k : Kind)
  /-- Go `if *x != nil { *x = Rewrite(*x, r).(I) }`. -/
  | iface (i : Iface)
  /-- Go `p = Rewrite(p, r).(*K)`. -/
  | reqPtr (k : Kind)
  /-- Go `x = Rewrite(x, r).(I)`. -/
  | reqIface (i : Iface)
deriving DecidableEq, Repr, Inhabited

/-- The slot rewriter of a shape. -/
def rewriteOne {σ : Type} (sh : Shape) (rw : Node → Run σ Node) (v : Node) : Run σ Node :=
  match sh with
  | .ptr k => rewritePtr k rw v
  | .iface i => rewriteIface i rw v
  | .reqPtr k => rewriteReqPtr k rw v
  | .reqIface i => rewriteReqIface i rw v

/-- The type assertion of the shape succeeds on `y`. -/
def Shape.accepts (sh : Shape) (y : Node) : Bool :=
  match sh with
  | .ptr k => y.hasType k
  | .reqPtr k => y.hasType k
  | .iface i => y.implements i
  | .reqIface i => y.implements i

/-- What is stored in the slot when the assertion has succeeded on `y`. -/
def Shape.stored (sh : Shape) (y : Node) : Node :=
  match sh with
  | .ptr _ => y.ptrValue
  | .reqPtr _ => y.ptrValue
  | .iface _ => y
  | .reqIface _ => y

/-- The node handed to `Rewrite` for a slot holding `v`, if any. -/
def Shape.arg (sh : Shape) (v : Node) : Option Node :=
  match sh with
  | .ptr _ => if v.isNil then none else some v
  | .iface _ => if v.isNil then none else some v
  | .reqPtr k => some (ptrToNode k v)
  | .reqIface _ => some v

/-- The content `v` of a slot is what the static type of the slot allows in a
tree without typed nils: a node of the type of the slot, or nil where the
source tests for nil. -/
def Shape.holds (sh : Shape) (v : Node) : Bool :=
  match sh with
  | .ptr k => v.isNil || v.kind == some k
  | .reqPtr k => v.kind == some k
  | .iface i => v.isNil || (v.kind.isSome && v.implements i)
  | .reqIface i => v.kind.isSome && v.implements i

/-- A child slot with its content: a single slot, a list rewritten element by
element, or a statement list (rewritten by `rewriteStmtList`). -/
inductive Slot where
  | one (sh : Shape) (v : Node)
  | each (sh : Shape) (l : List Node)
  | stmts (l : List Node)
deriving Repr, Inhabited

/-- Rewriting of one slot. -/
def rewriteSlot {σ : Type} (rw : Node → Run σ Node) : Slot → Run σ Slot
  | .one sh v => do
    let v ← rewriteOne sh rw v
    Run.pure (.one sh v)
  | .each sh l => do
    let l ← rewriteEach (rewriteOne sh rw) l
    Run.pure (.each sh l)
  | .stmts l => do
    let l ← rewriteStmtList rw l
    Run.pure (.stmts l)

/-- Rewriting of the slots of a node, first to last. -/
def rewriteSlots {σ : Type} (rw : Node → Run σ Node) : List Slot → Run σ (List Slot)
  | [] => Run.pure []
  | x :: rest => do
    let y ← rewriteSlot rw x
    let ys ← rewriteSlots rw rest
    Run.pure (y :: ys)

/-- The nodes handed to `Rewrite` when the slot is rewritten, in order. -/
def Slot.args : Slot → List Node
  | .one sh v => (sh.arg v).toList
  | .each sh l => l.filterMap sh.arg
  | .stmts l => l.filterMap (Shape.iface .Stmt).arg

/-- The single slots and list elements of a slot with their shapes. -/
def Slot.elems : Slot → List (Shape × Node)
  | .one sh v => [(sh, v)]
  | .each sh l => l.map (fun v => (sh, v))
  | .stmts l => l.map (fun v => (Shape.iface .Stmt, v))

/-- The content of a slot as a list of nodes. -/
def Slot.contents : Slot → List Node
  | .one _ v => [v]
  | .each _ l => l
  | .stmts l => l

/-- What a single slot holds after its rewriting, when `g c` is what `Rewrite`
returns for the argument `c`. -/
def Shape.fill (sh : Shape) (g : Node → Node) (v : Node) : Node :=
  match sh.arg v with
  | none => v
  | some c => sh.stored (g c)

/-- What a slot holds after its rewriting, when `g c` is what `Rewrite` returns
for the argument `c`. -/
def Slot.fill (g : Node → Node) : Slot → Slot
  | .one sh v => .one sh (sh.fill g v)
  | .each sh l => .each sh (l.map (sh.fill g))
  | .stmts l => .stmts ((l.map (fun v => spliced ((Shape.iface .Stmt).fill g v))).flatten)

/-- The pointer types that child slots are declared with in `go/ast`. -/
def slotKinds : List Kind :=
  [.Comment, .CommentGroup, .Field, .FieldList, .Ident, .BasicLit, .FuncType, .CallExpr,
    .BlockStmt, .File]

/-- The shape is one that a child slot of some node type has. -/
def Shape.declared : Shape → Bool
  | .ptr k => slotKinds.contains k
  | .reqPtr k => slotKinds.contains k
  | .iface .Expr => true
  | .iface .Stmt => true
  | .reqIface .Decl => true
  | .reqIface .Spec => true
  | _ => false

/-- The content of the slot is allowed by its static type. -/
def Slot.ok : Slot → Bool
  | .one sh v => sh.holds v
  | .each sh l => l.all sh.holds
  | .stmts l => l.all (Shape.iface .Stmt).holds

/-- Content of a single slot. -/
def Slot.node : Slot → Node
  | .one _ v => v
  | _ => .nil

/-- Content of a list slot. -/
def Slot.list : Slot → List Node
  | .each _ l => l
  | .stmts l => l
  | _ => []

/-- Content of the `i`-th slot of a list of slots, a single slot. -/
def slotNode (sl : List Slot) (i : Nat) : Node :=
  match sl[i]? with
  | some x => x.node
  | none => .nil

/-- Content of the `i`-th slot of a list of slots, a list slot. -/
def slotList (sl : List Slot) (i : Nat) : List Node :=
  match sl[i]? with
  | some x => x.list
  | none => []

/-- The child slots of a node in the order in which the type switch of
`Rewrite` rewrites them, each with the way it is rewritten. -/
def Node.slots : Node → List Slot
  | .Comment _ => []
  | .CommentGroup _ list => [.each (.reqPtr .Comment) list]
  | .Field _ doc names type tag comment => [.one (.ptr .CommentGroup) doc, .each (.ptr .Ident) names, .one (.iface .Expr) type, .one (.ptr .BasicLit) tag, .one (.ptr .CommentGroup) comment]
  | .FieldList _ list => [.each (.reqPtr .Field) list]
  | .BadExpr _ => []
  | .Ident _ => []
  | .Ellipsis _ elt => [.one (.iface .Expr) elt]
  | .BasicLit _ => []
  | .FuncLit _ type body => [.one (.reqPtr .FuncType) type, .one (.ptr .BlockStmt) body]
  | .CompositeLit _ type elts => [.one (.iface .Expr) type, .each (.iface .Expr) elts]
  | .ParenExpr _ x => [.one (.iface .Expr) x]
  | .SelectorExpr _ x sel => [.one (.iface .Expr) x, .one (.ptr .Ident) sel]
  | .IndexExpr _ x index => [.one (.iface .Expr) x, .one (.iface .Expr) index]
  | .SliceExpr _ x low high max => [.one (.iface .Expr) x, .one (.iface .Expr) low, .one (.iface .Expr) high, .one (.iface .Expr) max]
  | .TypeAssertExpr _ x type => [.one (.iface .Expr) x, .one (.iface .Expr) type]
  | .CallExpr _ fn args => [.one (.iface .Expr) fn, .each (.iface .Expr) args]
  | .StarExpr _ x => [.one (.iface .Expr) x]
  | .UnaryExpr _ x => [.one (.iface .Expr) x]
  | .BinaryExpr _ x y => [.one (.iface .Expr) x, .one (.iface .Expr) y]
  | .KeyValueExpr _ key value => [.one (.iface .Expr) key, .one (.iface .Expr) value]
  | .ArrayType _ len elt => [.one (.iface .Expr) len, .one (.iface .Expr) elt]
  | .StructType _ fields => [.one (.ptr .FieldList) fields]
  | .FuncType _ params results => [.one (.ptr .FieldList) params, .one (.ptr .FieldList) results]
  | .InterfaceType _ methods => [.one (.ptr .FieldList) methods]
  | .MapType _ key value => [.one (.iface .Expr) value, .one (.iface .Expr) key]
  | .ChanType _ value => [.one (.iface .Expr) value]
  | .BadStmt _ => []
  | .DeclStmt _ decl => [.one (.reqIface .Decl) decl]
  | .EmptyStmt _ => []
  | .LabeledStmt _ label stmt => [.one (.ptr .Ident) label, .one (.iface .Stmt) stmt]
  | .ExprStmt _ x => [.one (.iface .Expr) x]
  | .SendStmt _ chan value => [.one (.iface .Expr) chan, .one (.iface .Expr) value]
  | .IncDecStmt _ x => [.one (.iface .Expr) x]
  | .AssignStmt _ lhs rhs => [.each (.iface .Expr) lhs, .each (.iface .Expr) rhs]
  | .GoStmt _ call => [.one (.reqPtr .CallExpr) call]
  | .DeferStmt _ call => [.one (.reqPtr .CallExpr) call]
  | .ReturnStmt _ results => [.each (.iface .Expr) results]
  | .BranchStmt _ label => [.one (.ptr .Ident) label]
  | .BlockStmt _ list => [.stmts list]
  | .ExpandedBlockStmt _ list => [.stmts list]
  | .IfStmt _ init cond body els => [.one (.iface .Stmt) init, .one (.iface .Expr) cond, .one (.ptr .BlockStmt) body, .one (.iface .Stmt) els]
  | .CaseClause _ list body => [.each (.iface .Expr) list, .stmts body]
  | .SwitchStmt _ init tag body => [.one (.iface .Stmt) init, .one (.iface .Expr) tag, .one (.ptr .BlockStmt) body]
  | .TypeSwitchStmt _ init assign body => [.one (.iface .Stmt) init, .one (.iface .Stmt) assign, .one (.ptr .BlockStmt) body]
  | .CommClause _ comm body => [.one (.iface .Stmt) comm, .stmts body]
  | .SelectStmt _ body => [.one (.ptr .BlockStmt) body]
  | .ForStmt _ init cond post body => [.one (.iface .Stmt) init, .one (.iface .Expr) cond, .one (.iface .Stmt) post, .one (.ptr .BlockStmt) body]
  | .RangeStmt _ key value x body => [.one (.iface .Expr) key, .one (.iface .Expr) value, .one (.iface .Expr) x, .one (.ptr .BlockStmt) body]
  | .ImportSpec _ doc name path comment => [.one (.ptr .CommentGroup) doc, .one (.ptr .Ident) name, .one (.reqPtr .BasicLit) path, .one (.ptr .CommentGroup) comment]
  | .ValueSpec _ doc names type values comment => [.one (.ptr .CommentGroup) doc, .each (.ptr .Ident) names, .one (.iface .Expr) type, .each (.iface .Expr) values, .one (.ptr .CommentGroup) comment]
  | .TypeSpec _ doc name type comment => [.one (.ptr .CommentGroup) doc, .one (.ptr .Ident) name, .one (.iface .Expr) type, .one (.ptr .CommentGroup) comment]
  | .BadDecl _ => []
  | .GenDecl _ doc specs => [.one (.ptr .CommentGroup) doc, .each (.reqIface .Spec) specs]
  | .FuncDecl _ doc recv name type body => [.one (.ptr .CommentGroup) doc, .one (.ptr .FieldList) recv, .one (.ptr .Ident) name, .one (.reqPtr .FuncType) type, .one (.ptr .BlockStmt) body]
  | .File _ doc name decls => [.one (.ptr .CommentGroup) doc, .one (.ptr .Ident) name, .each (.reqIface .Decl) decls]
  | .Package _ files => [.each (.reqPtr .File) files]
  | .nil => []
  | .typedNil _ => []
  | .other _ _ => []

/-- The node with the content of its child slots replaced, the new contents
being given in the order of `Node.slots`. -/
def Node.withSlots (node : Node) (sl : List Slot) : Node :=
  match node with
  | .CommentGroup a _ => .CommentGroup a (slotList sl 0)
  | .Field a _ _ _ _ _ => .Field a (slotNode sl 0) (slotList sl 1) (slotNode sl 2) (slotNode sl 3) (slotNode sl 4)
  | .FieldList a _ => .FieldList a (slotList sl 0)
  | .Ellipsis a _ => .Ellipsis a (slotNode sl 0)
  | .FuncLit a _ _ => .FuncLit a (slotNode sl 0) (slotNode sl 1)
  | .CompositeLit a _ _ => .CompositeLit a (slotNode sl 0) (slotList sl 1)
  | .ParenExpr a _ => .ParenExpr a (slotNode sl 0)
  | .SelectorExpr a _ _ => .SelectorExpr a (slotNode sl 0) (slotNode sl 1)
  | .IndexExpr a _ _ => .IndexExpr a (slotNode sl 0) (slotNode sl 1)
  | .SliceExpr a _ _ _ _ => .SliceExpr a (slotNode sl 0) (slotNode sl 1) (slotNode sl 2) (slotNode sl 3)
  | .TypeAssertExpr a _ _ => .TypeAssertExpr a (slotNode sl 0) (slotNode sl 1)
  | .CallExpr a _ _ => .CallExpr a (slotNode sl 0) (slotList sl 1)
  | .StarExpr a _ => .StarExpr a (slotNode sl 0)
  | .UnaryExpr a _ => .UnaryExpr a (slotNode sl 0)
  | .BinaryExpr a _ _ => .BinaryExpr a (slotNode sl 0) (slotNode sl 1)
  | .KeyValueExpr a _ _ => .KeyValueExpr a (slotNode sl 0) (slotNode sl 1)
  | .ArrayType a _ _ => .ArrayType a (slotNode sl 0) (slotNode sl 1)
  | .StructType a _ => .StructType a (slotNode sl 0)
  | .FuncType a _ _ => .FuncType a (slotNode sl 0) (slotNode sl 1)
  | .InterfaceType a _ => .InterfaceType a (slotNode sl 0)
  | .MapType a _ _ => .MapType a (slotNode sl 1) (slotNode sl 0)
  | .ChanType a _ => .ChanType a (slotNode sl 0)
  | .DeclStmt a _ => .DeclStmt a (slotNode sl 0)
  | .LabeledStmt a _ _ => .LabeledStmt a (slotNode sl 0) (slotNode sl 1)
  | .ExprStmt a _ => .ExprStmt a (slotNode sl 0)
  | .SendStmt a _ _ => .SendStmt a (slotNode sl 0) (slotNode sl 1)
  | .IncDecStmt a _ => .IncDecStmt a (slotNode sl 0)
  | .AssignStmt a _ _ => .AssignStmt a (slotList sl 0) (slotList sl 1)
  | .GoStmt a _ => .GoStmt a (slotNode sl 0)
  | .DeferStmt a _ => .DeferStmt a (slotNode sl 0)
  | .ReturnStmt a _ => .ReturnStmt a (slotList sl 0)
  | .BranchStmt a _ => .BranchStmt a (slotNode sl 0)
  | .BlockStmt a _ => .BlockStmt a (slotList sl 0)
  | .ExpandedBlockStmt a _ => .ExpandedBlockStmt a (slotList sl 0)
  | .IfStmt a _ _ _ _ => .IfStmt a (slotNode sl 0) (slotNode sl 1) (slotNode sl 2) (slotNode sl 3)
  | .CaseClause a _ _ => .CaseClause a (slotList sl 0) (slotList sl 1)
  | .SwitchStmt a _ _ _ => .SwitchStmt a (slotNode sl 0) (slotNode sl 1) (slotNode sl 2)
  | .TypeSwitchStmt a _ _ _ => .TypeSwitchStmt a (slotNode sl 0) (slotNode sl 1) (slotNode sl 2)
  | .CommClause a _ _ => .CommClause a (slotNode sl 0) (slotList sl 1)
  | .SelectStmt a _ => .SelectStmt a (slotNode sl 0)
  | .ForStmt a _ _ _ _ => .ForStmt a (slotNode sl 0) (slotNode sl 1) (slotNode sl 2) (slotNode sl 3)
  | .RangeStmt a _ _ _ _ => .RangeStmt a (slotNode sl 0) (slotNode sl 1) (slotNode sl 2) (slotNode sl 3)
  | .ImportSpec a _ _ _ _ => .ImportSpec a (slotNode sl 0) (slotNode sl 1) (slotNode sl 2) (slotNode sl 3)
  | .ValueSpec a _ _ _ _ _ => .ValueSpec a (slotNode sl 0) (slotList sl 1) (slotNode sl 2) (slotList sl 3) (slotNode sl 4)
  | .TypeSpec a _ _ _ _ => .TypeSpec a (slotNode sl 0) (slotNode sl 1) (slotNode sl 2) (slotNode sl 3)
  | .GenDecl a _ _ => .GenDecl a (slotNode sl 0) (slotList sl 1)
  | .FuncDecl a _ _ _ _ _ => .FuncDecl a (slotNode sl 0) (slotNode sl 1) (slotNode sl 2) (slotNode sl 3) (slotNode sl 4)
  | .File a _ _ _ => .File a (slotNode sl 0) (slotNode sl 1) (slotList sl 2)
  | .Package a _ => .Package a (slotList sl 0)
  | node => node

mutual
/-- The non-nil nodes of a tree, the root first, the children in the order in
which `Rewrite` takes their slots. -/
def Node.subnodes : Node → List Node
  | .nil => []
  | .typedNil k => [.typedNil k]
  | .other a impl => [.other a impl]
  | .Comment a => [.Comment a]
  | .CommentGroup a list => .CommentGroup a list :: (subnodesList list)
  | .Field a doc names type tag comment => .Field a doc names type tag comment :: (doc.subnodes ++ subnodesList names ++ type.subnodes ++ tag.subnodes ++ comment.subnodes)
  | .FieldList a list => .FieldList a list :: (subnodesList list)
  | .BadExpr a => [.BadExpr a]
  | .Ident a => [.Ident a]
  | .Ellipsis a elt => .Ellipsis a elt :: (elt.subnodes)
  | .BasicLit a => [.BasicLit a]
  | .FuncLit a type body => .FuncLit a type body :: (type.subnodes ++ body.subnodes)
  | .CompositeLit a type elts => .CompositeLit a type elts :: (type.subnodes ++ subnodesList elts)
  | .ParenExpr a x => .ParenExpr a x :: (x.subnodes)
  | .SelectorExpr a x sel => .SelectorExpr a x sel :: (x.subnodes ++ sel.subnodes)
  | .IndexExpr a x index => .IndexExpr a x index :: (x.subnodes ++ index.subnodes)
  | .SliceExpr a x low high max => .SliceExpr a x low high max :: (x.subnodes ++ low.subnodes ++ high.subnodes ++ max.subnodes)
  | .TypeAssertExpr a x type => .TypeAssertExpr a x type :: (x.subnodes ++ type.subnodes)
  | .CallExpr a fn args => .CallExpr a fn args :: (fn.subnodes ++ subnodesList args)
  | .StarExpr a x => .StarExpr a x :: (x.subnodes)
  | .UnaryExpr a x => .UnaryExpr a x :: (x.subnodes)
  | .BinaryExpr a x y => .BinaryExpr a x y :: (x.subnodes ++ y.subnodes)
  | .KeyValueExpr a key value => .KeyValueExpr a key value :: (key.subnodes ++ value.subnodes)
  | .ArrayType a len elt => .ArrayType a len elt :: (len.subnodes ++ elt.subnodes)
  | .StructType a fields => .StructType a fields :: (fields.subnodes)
  | .FuncType a params results => .FuncType a params results :: (params.subnodes ++ results.subnodes)
  | .InterfaceType a methods => .InterfaceType a methods :: (methods.subnodes)
  | .MapType a key value => .MapType a key value :: (value.subnodes ++ key.subnodes)
  | .ChanType a value => .ChanType a value :: (value.subnodes)
  | .BadStmt a => [.BadStmt a]
  | .DeclStmt a decl => .DeclStmt a decl :: (decl.subnodes)
  | .EmptyStmt a => [.EmptyStmt a]
  | .LabeledStmt a label stmt => .LabeledStmt a label stmt :: (label.subnodes ++ stmt.subnodes)
  | .ExprStmt a x => .ExprStmt a x :: (x.subnodes)
  | .SendStmt a chan value => .SendStmt a chan value :: (chan.subnodes ++ value.subnodes)
  | .IncDecStmt a x => .IncDecStmt a x :: (x.subnodes)
  | .AssignStmt a lhs rhs => .AssignStmt a lhs rhs :: (subnodesList lhs ++ subnodesList rhs)
  | .GoStmt a call => .GoStmt a call :: (call.subnodes)
  | .DeferStmt a call => .DeferStmt a call :: (call.subnodes)
  | .ReturnStmt a results => .ReturnStmt a results :: (subnodesList results)
  | .BranchStmt a label => .BranchStmt a label :: (label.subnodes)
  | .BlockStmt a list => .BlockStmt a list :: (subnodesList list)
  | .ExpandedBlockStmt a list => .ExpandedBlockStmt a list :: (subnodesList list)
  | .IfStmt a init cond body els => .IfStmt a init cond body els :: (init.subnodes ++ cond.subnodes ++ body.subnodes ++ els.subnodes)
  | .CaseClause a list body => .CaseClause a list body :: (subnodesList list ++ subnodesList body)
  | .SwitchStmt a init tag body => .SwitchStmt a init tag body :: (init.subnodes ++ tag.subnodes ++ body.subnodes)
  | .TypeSwitchStmt a init assign body => .TypeSwitchStmt a init assign body :: (init.subnodes ++ assign.subnodes ++ body.subnodes)
  | .CommClause a comm body => .CommClause a comm body :: (comm.subnodes ++ subnodesList body)
  | .SelectStmt a body => .SelectStmt a body :: (body.subnodes)
  | .ForStmt a init cond post body => .ForStmt a init cond post body :: (init.subnodes ++ cond.subnodes ++ post.subnodes ++ body.subnodes)
  | .RangeStmt a key value x body => .RangeStmt a key value x body :: (key.subnodes ++ value.subnodes ++ x.subnodes ++ body.subnodes)
  | .ImportSpec a doc name path comment => .ImportSpec a doc name path comment :: (doc.subnodes ++ name.subnodes ++ path.subnodes ++ comment.subnodes)
  | .ValueSpec a doc names type values comment => .ValueSpec a doc names type values comment :: (doc.subnodes ++ subnodesList names ++ type.subnodes ++ subnodesList values ++ comment.subnodes)
  | .TypeSpec a doc name type comment => .TypeSpec a doc name type comment :: (doc.subnodes ++ name.subnodes ++ type.subnodes ++ comment.subnodes)
  | .BadDecl a => [.BadDecl a]
  | .GenDecl a doc specs => .GenDecl a doc specs :: (doc.subnodes ++ subnodesList specs)
  | .FuncDecl a doc recv name type body => .FuncDecl a doc recv name type body :: (doc.subnodes ++ recv.subnodes ++ name.subnodes ++ type.subnodes ++ body.subnodes)
  | .File a doc name decls => .File a doc name decls :: (doc.subnodes ++ name.subnodes ++ subnodesList decls)
  | .Package a files => .Package a files :: (subnodesList files)
/-- The non-nil nodes of the trees of a list. -/
def subnodesList : List Node → List Node
  | [] => []
  | x :: rest => x.subnodes ++ subnodesList rest
end

/-- The children of a node: the nodes handed to `Rewrite` when the children of
the node are rewritten, in order. -/
def Node.children (n : Node) : List Node :=
  (n.slots.map Slot.args).flatten

/-- The node is of a handled type and the content of each of its slots is
allowed by the static type of the slot. -/
def Node.localOK (n : Node) : Bool :=
  n.kind.isSome && n.slots.all Slot.ok

/-- A tree as the Go type checker admits it and `Rewrite` can walk it: non-nil,
made of handled node types, every slot filled according to its type, no typed
nil, a node in every slot that the source rewrites without a nil test. -/
def Node.wellTyped (t : Node) : Bool :=
  t.kind.isSome && t.subnodes.all Node.localOK

/-- No `ExpandedBlockStmt` anywhere in the tree. -/
def Node.noSentinel (t : Node) : Bool :=
  t.subnodes.all (fun n => !n.isExpanded)

/-- A tree as a parser produces it. -/
def Node.parsed (t : Node) : Bool :=
  t.wellTyped && t.noSentinel

/-- Number of non-nil nodes of a tree. -/
def Node.size (t : Node) : Nat :=
  t.subnodes.length

/-! ## Callbacks of the tests and observation of the calls -/

/-- A pure callback: a Go function that reads nothing but its argument and
writes nothing. -/
def Rewriter.ofFun {σ : Type} (p : Node → Node × Bool) : Rewriter σ :=
  fun node s => (p node, s)

/-- The identity callback `func(n Node) (Node, bool) { return n, true }`. -/
def idRewriter {σ : Type} : Rewriter σ :=
  Rewriter.ofFun fun node => (node, true)

/-- The callback that never descends, `return n, false`. -/
def stopRewriter {σ : Type} : Rewriter σ :=
  Rewriter.ofFun fun node => (node, false)

/-- The loop of the callback of `ExampleRewrite` (example_test.go, lines
22-28): one `&AssignStmt{Lhs: {lhs[i]}, Tok: DEFINE, Rhs: {rhs[i]}}` per index.
It is only run on lists of equal length. -/
def expandAssign (lhs rhs : List Node) : List Node :=
  List.zipWith (fun l r => Node.AssignStmt { tok := DEFINE } [l] [r]) lhs rhs

/-- The test of the callback of `ExampleRewrite` on an assignment (line 20). -/
def isMultiDefine (a : Attr) (lhs rhs : List Node) : Bool :=
  decide (lhs.length > 1) && decide (a.tok = DEFINE) && decide (lhs.length = rhs.length)

/-- The function of the callback of `ExampleRewrite` (example_test.go, lines
18-33).  On a nil `*AssignStmt` the Go closure dereferences nil; the total
function here returns its argument. -/
def exampleStep (node : Node) : Node × Bool :=
  match node with
  | .AssignStmt a lhs rhs =>
    if isMultiDefine a lhs rhs then
      (.ExpandedBlockStmt {} (expandAssign lhs rhs), true)
    else (node, true)
  | _ => (node, true)

/-- The callback of `ExampleRewrite`. -/
def exampleRewriter {σ : Type} : Rewriter σ :=
  Rewriter.ofFun exampleStep

/-- Go `isBlank` (rewrite_test.go, lines 17-22). -/
def isBlank (expr : Node) : Bool :=
  match expr with
  | .Ident a => a.text == "_"
  | _ => false

/-- The function of the rewriter of the test case `simple_range`
(rewrite_test.go, lines 32-40).  On a nil `*RangeStmt` the Go closure
dereferences nil; the total function here returns its argument. -/
def simpleRangeStep (node : Node) : Node × Bool :=
  match node with
  | .RangeStmt a key value x body =>
    if (value.isNil || isBlank value) && isBlank key then
      (.RangeStmt a .nil .nil x body, true)
    else (node, true)
  | _ => (node, true)

/-- The rewriter of the test case `simple_range`. -/
def simple_range {σ : Type} : Rewriter σ :=
  Rewriter.ofFun simpleRangeStep

/-- One call of the callback: its argument and what it returned. -/
structure Call where
  arg : Node
  ret : Node
  cont : Bool
deriving Repr, Inhabited

/-- The callback `r` with a log of its calls added to its state: every call
appends its argument and its answer to the log and is answered by `r`. -/
def recording {σ : Type} (r : Rewriter σ) : Rewriter (σ × List Call) := fun node st =>
  let res := r node st.1
  (res.1, (res.2, st.2 ++ [{ arg := node, ret := res.1.1, cont := res.1.2 }]))

/-! ## Notions used to state the properties -/

/-- A family of properties of runs that holds of every run built from runs
having it by `pure`, a panic and sequencing. -/
structure Run.Closed {σ : Type} (Φ : (α : Type) → Run σ α → Prop) : Prop where
  pure : ∀ (α : Type) (a : α), Φ α (Run.pure a)
  fail : ∀ (α : Type) (p : Panic), Φ α (Run.fail p)
  bind : ∀ (α β : Type) (x : Run σ α) (f : α → Run σ β),
    Φ α x → (∀ a, Φ β (f a)) → Φ β (Run.bind x f)

/-- The recursive call `rw` with a log of the nodes it is called on added to
the state: every call that returns appends its argument. -/
def observed {σ : Type} (rw : Node → Run σ Node) : Node → Run (σ × List Node) Node :=
  fun node st =>
    match rw node st.1 with
    | .done (y, s) => .done (y, (s, st.2 ++ [node]))
    | .panic p => .panic p
    | .outOfFuel => .outOfFuel

/-- Well-nested logs of calls: a call answered with `continue = false` stands
alone; a call answered with `continue = true` is followed by the calls made for
the children, then by a call with nil. -/
inductive Nested : List Call → Prop where
  | empty : Nested []
  | skip (c : Call) (rest : List Call) : c.cont = false → Nested rest → Nested (c :: rest)
  | visit (c e : Call) (inner rest : List Call) : c.cont = true → e.arg = Node.nil →
      Nested inner → Nested rest → Nested (c :: (inner ++ e :: rest))

/-- The tree that `Rewrite` returns under the pure callback `p`, computed
without state: the callback's answer with every slot filled with the result
for its content (`Slot.fill`).  `rewriteFun_spec` proves that `Rewrite` returns
this tree on the trees of an invariant that the callback respects. -/
def rewriteFun (p : Node → Node × Bool) : Nat → Node → Node
  | 0, t => t
  | fuel + 1, t =>
    if (p t).2 then (p t).1.withSlots ((p t).1.slots.map (Slot.fill (rewriteFun p fuel)))
    else (p t).1

/-- The tree that `Rewrite` returns under the pure callback `p` on a tree of
measure `μ t`: `rewriteFun` with a budget above the measure. -/
def rewriteResult (p : Node → Node × Bool) (μ : Node → Nat) (t : Node) : Node :=
  rewriteFun p (μ t + 1) t

/-- The node is an assignment that the callback of `ExampleRewrite` expands. -/
def Node.isMultiDefine : Node → Bool
  | .AssignStmt a lhs rhs => AstRewrite.isMultiDefine a lhs rhs
  | _ => false

/-- A bound on the depth of the recursion of `Rewrite` under the callback of
`ExampleRewrite`: an expanded assignment costs one level more. -/
def exampleMeasure (t : Node) : Nat :=
  2 * t.size + (if t.isMultiDefine then 1 else 0)

/-- The tree that `Rewrite` returns under the callback of `ExampleRewrite`. -/
def exampleResult (t : Node) : Node :=
  rewriteResult exampleStep exampleMeasure t

/-- The content of a nullable slot after rewriting, `G` giving the result for
a node. -/
def onSlot (G : Node → Node) (x : Node) : Node :=
  if x.isNil then x else G x

/-- What one statement of a list contributes to the list after `Rewrite` under
the callback of `ExampleRewrite`, `G` giving the result of `Rewrite` for a
node: the single assignments `lhs[i] := rhs[i]` with both sides rewritten for
an expanded assignment, the rewritten statement otherwise. -/
def examplePiece (G : Node → Node) : Node → List Node
  | .nil => [.nil]
  | .AssignStmt a lhs rhs =>
    if isMultiDefine a lhs rhs then expandAssign (lhs.map (onSlot G)) (rhs.map (onSlot G))
    else [G (.AssignStmt a lhs rhs)]
  | st => [G st]

/-- What one statement of a list contributes when nothing inside it is
rewritten: the single assignments `lhs[i] := rhs[i]` for an expanded
assignment, the statement itself otherwise. -/
def plainPiece : Node → List Node
  | .AssignStmt a lhs rhs =>
    if isMultiDefine a lhs rhs then expandAssign lhs rhs else [.AssignStmt a lhs rhs]
  | st => [st]

/-- No node of the tree is an assignment that the callback of `ExampleRewrite`
expands. -/
def Node.noMultiDefine (t : Node) : Bool :=
  t.subnodes.all (fun n => !n.isMultiDefine)

/-- No node strictly inside the tree is an assignment that the callback of
`ExampleRewrite` expands. -/
def Node.flat (t : Node) : Bool :=
  t.subnodes.tail.all (fun n => !n.isMultiDefine)

/-- A callback that wraps every node in parentheses and continues. -/
def wrapRewriter {σ : Type} : Rewriter σ :=
  Rewriter.ofFun fun node => (.ParenExpr {} node, true)

/-- A callback that answers an empty statement with a sentinel carrying one
bad statement, answers a bad statement with an empty return statement, and
continues everywhere. -/
def emptyToSentinel {σ : Type} : Rewriter σ :=
  Rewriter.ofFun fun node =>
    match node with
    | .EmptyStmt _ => (.ExpandedBlockStmt {} [.BadStmt {}], true)
    | .BadStmt _ => (.ReturnStmt {} [], true)
    | _ => (node, true)

/-- A callback that answers an empty statement with a sentinel without
statements and does not descend into it, and continues everywhere else. -/
def emptyToNothing {σ : Type} : Rewriter σ :=
  Rewriter.ofFun fun node =>
    match node with
    | .EmptyStmt _ => (.ExpandedBlockStmt {} [], false)
    | _ => (node, true)

/-- A measure that decreases from every node to its children: twice the size,
plus one unless the node is a nil pointer in an interface (which has no place
in the tree and is handed to `Rewrite` for a nil pointer in a slot rewritten
without a nil test). -/
def depthBound (n : Node) : Nat :=
  2 * n.size + (match n with
    | .typedNil _ => 0
    | _ => 1)

/-- A callback that answers an identifier with an empty statement, a node of
the wrong type for every slot that can hold an identifier. -/
def identToStmt {σ : Type} : Rewriter σ :=
  Rewriter.ofFun fun node =>
    match node with
    | .Ident _ => (.EmptyStmt {}, true)
    | _ => (node, true)

/-- A callback that answers every block statement with an empty sentinel and
continues everywhere. -/
def blockToSentinel {σ : Type} : Rewriter σ :=
  Rewriter.ofFun fun node =>
    match node with
    | .BlockStmt _ _ => (.ExpandedBlockStmt {} [], true)
    | _ => (node, true)

/-- Non-termination of `Rewrite(t, r)` started in the state `s`: no budget is
enough. -/
def Diverges {σ : Type} (r : Rewriter σ) (t : Node) (s : σ) : Prop :=
  ∀ fuel : Nat, Rewrite r fuel t s = .outOfFuel

/-! ## Notions for the second group of properties -/

/-- The type switch of `Rewrite` has a case for the dynamic type of the node:
false for the nil interface, which has no dynamic type, and for a node type
outside the list of cases; true for a pointer of a listed type, nil or not. -/
def Node.handled : Node → Bool
  | .nil => false
  | .other _ _ => false
  | _ => true

/-- A family of properties of runs that holds of every run built from runs
having it by `pure`, sequencing, and the two panics that the slot rewriters
raise themselves (a failed type assertion, a nil dereference). -/
structure Run.SlotClosed {σ : Type} (Φ : (α : Type) → Run σ α → Prop) : Prop where
  pure : ∀ (α : Type) (a : α), Φ α (Run.pure a)
  typeAssertion : ∀ (α : Type), Φ α (Run.fail .typeAssertion)
  nilDereference : ∀ (α : Type), Φ α (Run.fail .nilDereference)
  bind : ∀ (α β : Type) (x : Run σ α) (f : α → Run σ β),
    Φ α x → (∀ a, Φ β (f a)) → Φ β (Run.bind x f)

/-- The run `m` beside a log: when `m` returns, `extra` has been appended to
the log. -/
def Run.logging {σ α β : Type} (m : Run σ α) (extra : List β) : Run (σ × List β) α :=
  fun st =>
    match m st.1 with
    | .done (a, s1) => .done (a, (s1, st.2 ++ extra))
    | .panic p => .panic p
    | .outOfFuel => .outOfFuel

/-- A loop `for i := range l { l[i] = f(l[i]) }` seen as a relation: started
in the state `s` on the list `l`, it ends in the state `s1` with the list `l1`.
Every element is rewritten once, in the state that its predecessor left. -/
inductive Pass {σ α : Type} (f : α → Run σ α) : List α → σ → List α → σ → Prop where
  | nil (s : σ) : Pass f [] s [] s
  | cons {x y : α} {rest ys : List α} {s s1 s2 : σ} :
      f x s = .done (y, s1) → Pass f rest s1 ys s2 → Pass f (x :: rest) s (y :: ys) s2

/-- What the rewriting of a single slot of shape `sh` makes of its content
`v`, when `R c y` says that `Rewrite` has returned `y` for `c`: a slot that is
skipped keeps its content, otherwise the slot holds what the assertion makes
of a result `y` that passes it. -/
def Shape.Rel (R : Node → Node → Prop) (sh : Shape) (v v1 : Node) : Prop :=
  match sh.arg v with
  | none => v1 = v
  | some c => ∃ y, R c y ∧ sh.accepts y = true ∧ v1 = sh.stored y

/-- What the rewriting of a slot makes of it, when `R c y` says that `Rewrite`
has returned `y` for `c`: a single slot and the elements of a list are as
`Shape.Rel` says; a statement list is the splice of the statements that its
elements were rewritten to. -/
inductive Slot.Rel (R : Node → Node → Prop) : Slot → Slot → Prop where
  | one (sh : Shape) (v v1 : Node) : sh.Rel R v v1 → Slot.Rel R (.one sh v) (.one sh v1)
  | each (sh : Shape) (l l1 : List Node) : List.Forall₂ (sh.Rel R) l l1 →
      Slot.Rel R (.each sh l) (.each sh l1)
  | stmts (l ys : List Node) : List.Forall₂ ((Shape.iface .Stmt).Rel R) l ys →
      (∀ y ∈ ys, y ≠ .typedNil .ExpandedBlockStmt) →
      Slot.Rel R (.stmts l) (.stmts ((ys.map spliced).flatten))

/-- The slot `x` with the content that `Node.withSlots` reads at position `i`
of the list `sl`. -/
def Slot.put (x : Slot) (sl : List Slot) (i : Nat) : Slot :=
  match x with
  | .one sh _ => .one sh (slotNode sl i)
  | .each sh _ => .each sh (slotList sl i)
  | .stmts _ => .stmts (slotList sl i)

/-- The slots `xs`, standing at the positions `i`, `i + 1`, ... of a node, with
the contents read from `sl`. -/
def putSlots (sl : List Slot) : Nat → List Slot → List Slot
  | _, [] => []
  | i, x :: rest => x.put sl i :: putSlots sl (i + 1) rest

/-- The fields of a node that hold no child. -/
def Node.attr : Node → Attr
  | .nil => {}
  | .typedNil _ => {}
  | .other a _ => a
  | .Comment a => a
  | .CommentGroup a _ => a
  | .Field a _ _ _ _ _ => a
  | .FieldList a _ => a
  | .BadExpr a => a
  | .Ident a => a
  | .Ellipsis a _ => a
  | .BasicLit a => a
  | .FuncLit a _ _ => a
  | .CompositeLit a _ _ => a
  | .ParenExpr a _ => a
  | .SelectorExpr a _ _ => a
  | .IndexExpr a _ _ => a
  | .SliceExpr a _ _ _ _ => a
  | .TypeAssertExpr a _ _ => a
  | .CallExpr a _ _ => a
  | .StarExpr a _ => a
  | .UnaryExpr a _ => a
  | .BinaryExpr a _ _ => a
  | .KeyValueExpr a _ _ => a
  | .ArrayType a _ _ => a
  | .StructType a _ => a
  | .FuncType a _ _ => a
  | .InterfaceType a _ => a
  | .MapType a _ _ => a
  | .ChanType a _ => a
  | .BadStmt a => a
  | .DeclStmt a _ => a
  | .EmptyStmt a => a
  | .LabeledStmt a _ _ => a
  | .ExprStmt a _ => a
  | .SendStmt a _ _ => a
  | .IncDecStmt a _ => a
  | .AssignStmt a _ _ => a
  | .GoStmt a _ => a
  | .DeferStmt a _ => a
  | .ReturnStmt a _ => a
  | .BranchStmt a _ => a
  | .BlockStmt a _ => a
  | .ExpandedBlockStmt a _ => a
  | .IfStmt a _ _ _ _ => a
  | .CaseClause a _ _ => a
  | .SwitchStmt a _ _ _ => a
  | .TypeSwitchStmt a _ _ _ => a
  | .CommClause a _ _ => a
  | .SelectStmt a _ => a
  | .ForStmt a _ _ _ _ => a
  | .RangeStmt a _ _ _ _ => a
  | .ImportSpec a _ _ _ _ => a
  | .ValueSpec a _ _ _ _ _ => a
  | .TypeSpec a _ _ _ _ => a
  | .BadDecl a => a
  | .GenDecl a _ _ => a
  | .FuncDecl a _ _ _ _ _ => a
  | .File a _ _ _ => a
  | .Package a _ => a

/-- A callback that answers an identifier with the nil interface and a basic
literal with a node of a type that the type switch does not list, and
continues everywhere. -/
def toUnhandled {σ : Type} : Rewriter σ :=
  Rewriter.ofFun fun node =>
    match node with
    | .Ident _ => (.nil, true)
    | .BasicLit a => (.other a [.Expr], true)
    | _ => (node, true)

/-- The function of a callback that answers a basic literal with the
parenthesized identifier `(x)` and continues everywhere. -/
def litToParenStep (node : Node) : Node × Bool :=
  match node with
  | .BasicLit _ => (.ParenExpr {} (.Ident { text := "x" }), true)
  | _ => (node, true)

/-- The callback of `litToParenStep`. -/
def litToParen {σ : Type} : Rewriter σ :=
  Rewriter.ofFun litToParenStep

/-- Go `for i, f := range n.Files { n.Files[i] = Rewrite(f, r).(*File) }`
(rewrite.go, case `*Package`) on the map itself.  `n.Files` is a
`map[string]*File`; `files` lists its values by increasing key, a position in
`files` standing for a key, and `order` is the sequence of keys that the
`range` statement of the run yields, which the language leaves unspecified.
Every turn stores the result for the entry under its key.  The `Files` of
`Node.Package` is this map listed in the order of `order`
(`rewriteFileMap_range`). -/
def rewriteFileMap {σ : Type} (rw : Node → Run σ Node) :
    List Nat → List Node → Run σ (List Node)
  | [], files => Run.pure files
  | i :: order, files => do
    let f ← rewriteReqPtr .File rw (files.getD i .nil)
    rewriteFileMap rw order (files.set i f)

/-- The node that `Rewrite(c, r)` returns with the budget `fuel` when it is
started in the state `s` (`c` itself when it does not return). -/
def resultAt {σ : Type} (r : Rewriter σ) (fuel : Nat) (s : σ) (c : Node) : Node :=
  match Rewrite r fuel c s with
  | .done (y, _) => y
  | _ => c

/-- No `ExpandedBlockStmt` strictly inside the tree (the root may be one). -/
def Node.noSentinelBelow (t : Node) : Bool :=
  t.subnodes.tail.all (fun n => !n.isExpanded)

/-- The slot is a statement list, rewritten by `rewriteStmtList`. -/
def Slot.isStmts : Slot → Bool
  | .stmts _ => true
  | _ => false

/-- The assignments that the callback of `ExampleRewrite` expands stand only
in statement lists: no node of the tree hands one to `Rewrite` from a slot that
is not a statement list. -/
def Node.expandsInLists (t : Node) : Bool :=
  t.subnodes.all (fun m => m.slots.all (fun x =>
    x.isStmts || x.args.all (fun c => !c.isMultiDefine)))

/-- The recursive call `rw` beside a log: a call on `c` that returns appends
`T c` to the log. -/
def traced {σ β : Type} (rw : Node → Run σ Node) (T : Node → List β) :
    Node → Run (σ × List β) Node :=
  fun c => (rw c).logging (T c)

/-- The calls of the callback that `Rewrite` makes under the pure callback `p`
on the node `t`, in order, when it returns: the call on `t`; if the callback
continues, the calls made for the children of its answer, child after child,
and the call with nil. -/
def traceFun (p : Node → Node × Bool) : Nat → Node → List Call
  | 0, _ => []
  | fuel + 1, t =>
    if (p t).2 then
      { arg := t, ret := (p t).1, cont := true } ::
        (((p t).1.children.map (traceFun p fuel)).flatten ++
          [{ arg := .nil, ret := (p .nil).1, cont := (p .nil).2 }])
    else [{ arg := t, ret := (p t).1, cont := false }]

mutual
/-- The pre-order listing of a tree as the specification words it: the node
first, then the listings of its child slots in the order in which `go/ast`
declares them (for a map type `Key`, then `Value`; for an if statement `Init`,
`Cond`, `Body`, `Else`).  To be compared with `Node.preorder`, which follows
the order of the type switch of `Rewrite`. -/
def Node.preorder : Node → List Node
  | .nil => []
  | .typedNil k => [.typedNil k]
  | .other a impl => [.other a impl]
  | .Comment a => [.Comment a]
  | .CommentGroup a list => .CommentGroup a list :: (preorderList list)
  | .Field a doc names type tag comment => .Field a doc names type tag comment :: (doc.preorder ++ preorderList names ++ type.preorder ++ tag.preorder ++ comment.preorder)
  | .FieldList a list => .FieldList a list :: (preorderList list)
  | .BadExpr a => [.BadExpr a]
  | .Ident a => [.Ident a]
  | .Ellipsis a elt => .Ellipsis a elt :: (elt.preorder)
  | .BasicLit a => [.BasicLit a]
  | .FuncLit a type body => .FuncLit a type body :: (type.preorder ++ body.preorder)
  | .CompositeLit a type elts => .CompositeLit a type elts :: (type.preorder ++ preorderList elts)
  | .ParenExpr a x => .ParenExpr a x :: (x.preorder)
  | .SelectorExpr a x sel => .SelectorExpr a x sel :: (x.preorder ++ sel.preorder)
  | .IndexExpr a x index => .IndexExpr a x index :: (x.preorder ++ index.preorder)
  | .SliceExpr a x low high max => .SliceExpr a x low high max :: (x.preorder ++ low.preorder ++ high.preorder ++ max.preorder)
  | .TypeAssertExpr a x type => .TypeAssertExpr a x type :: (x.preorder ++ type.preorder)
  | .CallExpr a fn args => .CallExpr a fn args :: (fn.preorder ++ preorderList args)
  | .StarExpr a x => .StarExpr a x :: (x.preorder)
  | .UnaryExpr a x => .UnaryExpr a x :: (x.preorder)
  | .BinaryExpr a x y => .BinaryExpr a x y :: (x.preorder ++ y.preorder)
  | .KeyValueExpr a key value => .KeyValueExpr a key value :: (key.preorder ++ value.preorder)
  | .ArrayType a len elt => .ArrayType a len elt :: (len.preorder ++ elt.preorder)
  | .StructType a fields => .StructType a fields :: (fields.preorder)
  | .FuncType a params results => .FuncType a params results :: (params.preorder ++ results.preorder)
  | .InterfaceType a methods => .InterfaceType a methods :: (methods.preorder)
  | .MapType a key value => .MapType a key value :: (key.preorder ++ value.preorder)
  | .ChanType a value => .ChanType a value :: (value.preorder)
  | .BadStmt a => [.BadStmt a]
  | .DeclStmt a decl => .DeclStmt a decl :: (decl.preorder)
  | .EmptyStmt a => [.EmptyStmt a]
  | .LabeledStmt a label stmt => .LabeledStmt a label stmt :: (label.preorder ++ stmt.preorder)
  | .ExprStmt a x => .ExprStmt a x :: (x.preorder)
  | .SendStmt a chan value => .SendStmt a chan value :: (chan.preorder ++ value.preorder)
  | .IncDecStmt a x => .IncDecStmt a x :: (x.preorder)
  | .AssignStmt a lhs rhs => .AssignStmt a lhs rhs :: (preorderList lhs ++ preorderList rhs)
  | .GoStmt a call => .GoStmt a call :: (call.preorder)
  | .DeferStmt a call => .DeferStmt a call :: (call.preorder)
  | .ReturnStmt a results => .ReturnStmt a results :: (preorderList results)
  | .BranchStmt a label => .BranchStmt a label :: (label.preorder)
  | .BlockStmt a list => .BlockStmt a list :: (preorderList list)
  | .ExpandedBlockStmt a list => .ExpandedBlockStmt a list :: (preorderList list)
  | .IfStmt a init cond body els => .IfStmt a init cond body els :: (init.preorder ++ cond.preorder ++ body.preorder ++ els.preorder)
  | .CaseClause a list body => .CaseClause a list body :: (preorderList list ++ preorderList body)
  | .SwitchStmt a init tag body => .SwitchStmt a init tag body :: (init.preorder ++ tag.preorder ++ body.preorder)
  | .TypeSwitchStmt a init assign body => .TypeSwitchStmt a init assign body :: (init.preorder ++ assign.preorder ++ body.preorder)
  | .CommClause a comm body => .CommClause a comm body :: (comm.preorder ++ preorderList body)
  | .SelectStmt a body => .SelectStmt a body :: (body.preorder)
  | .ForStmt a init cond post body => .ForStmt a init cond post body :: (init.preorder ++ cond.preorder ++ post.preorder ++ body.preorder)
  | .RangeStmt a key value x body => .RangeStmt a key value x body :: (key.preorder ++ value.preorder ++ x.preorder ++ body.preorder)
  | .ImportSpec a doc name path comment => .ImportSpec a doc name path comment :: (doc.preorder ++ name.preorder ++ path.preorder ++ comment.preorder)
  | .ValueSpec a doc names type values comment => .ValueSpec a doc names type values comment :: (doc.preorder ++ preorderList names ++ type.preorder ++ preorderList values ++ comment.preorder)
  | .TypeSpec a doc name type comment => .TypeSpec a doc name type comment :: (doc.preorder ++ name.preorder ++ type.preorder ++ comment.preorder)
  | .BadDecl a => [.BadDecl a]
  | .GenDecl a doc specs => .GenDecl a doc specs :: (doc.preorder ++ preorderList specs)
  | .FuncDecl a doc recv name type body => .FuncDecl a doc recv name type body :: (doc.preorder ++ recv.preorder ++ name.preorder ++ type.preorder ++ body.preorder)
  | .File a doc name decls => .File a doc name decls :: (doc.preorder ++ name.preorder ++ preorderList decls)
  | .Package a files => .Package a files :: (preorderList files)
/-- The pre-order listings of the trees of a list, one after the other. -/
def preorderList : List Node → List Node
  | [] => []
  | x :: rest => x.preorder ++ preorderList rest
end

/-- No map type with a key and a value in the tree. -/
def Node.noMapType (t : Node) : Bool :=
  t.subnodes.all (fun n =>
    match n with
    | .MapType _ key value => key.isNil || value.isNil
    | _ => true)

/-- A callback that answers an empty statement with a sentinel carrying one
bad statement and does not descend into it, answers a bad statement with an
empty return statement, and continues everywhere else. -/
def emptyToBad {σ : Type} : Rewriter σ :=
  Rewriter.ofFun fun node =>
    match node with
    | .EmptyStmt _ => (.ExpandedBlockStmt {} [.BadStmt {}], false)
    | .BadStmt _ => (.ReturnStmt {} [], true)
    | _ => (node, true)

/-! ## Runs -/

theorem Run.bind_eq {σ α β : Type} (x : Run σ α) (f : α → Run σ β) :
    (x >>= f) = Run.bind x f := rfl

theorem Run.pure_eq {σ α : Type} (a : α) : (pure a : Run σ α) = Run.pure a := rfl

theorem Run.pure_bind {σ α β : Type} (a : α) (f : α → Run σ β) :
    Run.bind (Run.pure a) f = f a := rfl

theorem Run.bind_assoc {σ α β γ : Type} (x : Run σ α) (f : α → Run σ β) (g : β → Run σ γ) :
    Run.bind (Run.bind x f) g = Run.bind x (fun a => Run.bind (f a) g) := by
  funext s
  unfold Run.bind
  cases x s <;> rfl

theorem Run.bind_done {σ α β : Type} {x : Run σ α} {f : α → Run σ β} {s s1 : σ} {a : α}
    (h : x s = .done (a, s1)) : Run.bind x f s = f a s1 := by
  simp [Run.bind, h]

theorem Run.bind_panic {σ α β : Type} {x : Run σ α} {f : α → Run σ β} {s : σ} {p : Panic}
    (h : x s = .panic p) : Run.bind x f s = .panic p := by
  simp [Run.bind, h]

theorem Run.bind_outOfFuel {σ α β : Type} {x : Run σ α} {f : α → Run σ β} {s : σ}
    (h : x s = .outOfFuel) : Run.bind x f s = .outOfFuel := by
  simp [Run.bind, h]

theorem Run.bind_eq_done {σ α β : Type} {x : Run σ α} {f : α → Run σ β} {s s2 : σ} {b : β} :
    Run.bind x f s = .done (b, s2) ↔ ∃ a s1, x s = .done (a, s1) ∧ f a s1 = .done (b, s2) := by
  unfold Run.bind
  cases h : x s with
  | done v =>
    obtain ⟨a, s1⟩ := v
    constructor
    · intro hf; exact ⟨a, s1, rfl, hf⟩
    · rintro ⟨a1, s3, h1, hf⟩
      cases h1; exact hf
  | panic p => simp
  | outOfFuel => simp

/-! ## The dispatcher as a traversal of the slots -/

theorem rewriteOne_ptr {σ : Type} (k : Kind) (rw : Node → Run σ Node) :
    rewriteOne (.ptr k) rw = rewritePtr k rw := rfl
theorem rewriteOne_iface {σ : Type} (i : Iface) (rw : Node → Run σ Node) :
    rewriteOne (.iface i) rw = rewriteIface i rw := rfl
theorem rewriteOne_reqPtr {σ : Type} (k : Kind) (rw : Node → Run σ Node) :
    rewriteOne (.reqPtr k) rw = rewriteReqPtr k rw := rfl
theorem rewriteOne_reqIface {σ : Type} (i : Iface) (rw : Node → Run σ Node) :
    rewriteOne (.reqIface i) rw = rewriteReqIface i rw := rfl

set_option maxHeartbeats 4000000 in
theorem rewriteChildren_eq_slots {σ : Type} (rw : Node → Run σ Node) (n : Node)
    (h : n.kind.isSome = true) :
    rewriteChildren rw n =
      Run.bind (rewriteSlots rw n.slots) (fun sl => Run.pure (n.withSlots sl)) := by
  cases n <;> first
    | (simp [Node.kind] at h; done)
    | simp only [rewriteChildren, Node.slots, rewriteSlots, rewriteSlot, Node.withSlots,
      rewriteOne_ptr, rewriteOne_iface, rewriteOne_reqPtr, rewriteOne_reqIface,
      rewriteExpr, rewriteStmt, rewriteIdent, rewriteBlockStmt, rewriteCommentGroup,
      rewriteFieldList, rewriteIdentList, rewriteExprList, rewriteDeclList, slotNode, slotList,
      Slot.node, Slot.list, Run.bind_eq, Run.pure_eq, Run.pure_bind, Run.bind_assoc,
      List.getElem?_cons_zero, List.getElem?_cons_succ] <;> rfl

/-- Every slot rewriter is: hand the argument (if any) to `rw`, assert, store. -/
theorem rewriteOne_eq {σ : Type} (sh : Shape) (rw : Node → Run σ Node) (v : Node) :
    rewriteOne sh rw v =
      match sh.arg v with
      | none => Run.pure v
      | some c => Run.bind (rw c) (fun y =>
          if sh.accepts y then Run.pure (sh.stored y) else Run.fail .typeAssertion) := by
  cases sh <;>
    simp only [rewriteOne, rewritePtr, rewriteIface, rewriteReqPtr, rewriteReqIface, Shape.arg,
      Shape.accepts, Shape.stored, assertPtr, assertIface, Run.bind_eq] <;>
    first
      | rfl
      | (cases v.isNil <;> rfl)

/-! ## Properties closed under sequencing pass from the calls to the traversal -/

theorem closed_rewriteOne {σ : Type} {Φ : (α : Type) → Run σ α → Prop} (hΦ : Run.Closed Φ)
    (sh : Shape) (rw : Node → Run σ Node) (v : Node)
    (h : ∀ c, sh.arg v = some c → Φ Node (rw c)) : Φ Node (rewriteOne sh rw v) := by
  rw [rewriteOne_eq]
  cases hc : sh.arg v with
  | none => exact hΦ.pure _ _
  | some c =>
    refine hΦ.bind _ _ _ _ (h c hc) (fun y => ?_)
    by_cases hy : sh.accepts y
    · simp only [hy, if_true]; exact hΦ.pure _ _
    · simp only [hy]; exact hΦ.fail _ _

theorem closed_rewriteEach {σ : Type} {Φ : (α : Type) → Run σ α → Prop} (hΦ : Run.Closed Φ)
    (f : Node → Run σ Node) (l : List Node) (h : ∀ v ∈ l, Φ Node (f v)) :
    Φ (List Node) (rewriteEach f l) := by
  induction l with
  | nil => exact hΦ.pure _ _
  | cons x rest ih =>
    simp only [rewriteEach, Run.bind_eq]
    refine hΦ.bind _ _ _ _ (h x (List.mem_cons_self _ _)) (fun y => ?_)
    refine hΦ.bind _ _ _ _ (ih (fun v hv => h v (List.mem_cons_of_mem _ hv))) (fun ys => ?_)
    exact hΦ.pure _ _

theorem closed_rewriteStmtListLoop {σ : Type} {Φ : (α : Type) → Run σ α → Prop}
    (hΦ : Run.Closed Φ) (rw : Node → Run σ Node) (l : List Node)
    (h : ∀ v ∈ l, ∀ c, (Shape.iface .Stmt).arg v = some c → Φ Node (rw c)) :
    ∀ front, Φ (List Node) (rewriteStmtListLoop rw front l) := by
  induction l with
  | nil => intro front; exact hΦ.pure _ _
  | cons x rest ih =>
    intro front
    simp only [rewriteStmtListLoop, Run.bind_eq]
    refine hΦ.bind _ _ _ _ ?_ (fun y => ?_)
    · exact closed_rewriteOne hΦ (.iface .Stmt) rw x (h x (List.mem_cons_self _ _))
    · have ih1 := ih (fun v hv => h v (List.mem_cons_of_mem _ hv))
      split
      · exact ih1 _
      · exact hΦ.fail _ _
      · exact ih1 _

theorem closed_rewriteSlot {σ : Type} {Φ : (α : Type) → Run σ α → Prop} (hΦ : Run.Closed Φ)
    (rw : Node → Run σ Node) (x : Slot) (h : ∀ c ∈ x.args, Φ Node (rw c)) :
    Φ Slot (rewriteSlot rw x) := by
  cases x with
  | one sh v =>
    simp only [rewriteSlot, Run.bind_eq]
    refine hΦ.bind _ _ _ _ ?_ (fun y => hΦ.pure _ _)
    exact closed_rewriteOne hΦ sh rw v (fun c hc => h c (by simp [Slot.args, hc]))
  | each sh l =>
    simp only [rewriteSlot, Run.bind_eq]
    refine hΦ.bind _ _ _ _ ?_ (fun y => hΦ.pure _ _)
    refine closed_rewriteEach hΦ _ l (fun v hv => ?_)
    exact closed_rewriteOne hΦ sh rw v
      (fun c hc => h c (by simp only [Slot.args, List.mem_filterMap]; exact ⟨v, hv, hc⟩))
  | stmts l =>
    simp only [rewriteSlot, Run.bind_eq]
    refine hΦ.bind _ _ _ _ ?_ (fun y => hΦ.pure _ _)
    refine closed_rewriteStmtListLoop hΦ rw l (fun v hv c hc => ?_) []
    exact h c (by simp only [Slot.args, List.mem_filterMap]; exact ⟨v, hv, hc⟩)

theorem closed_rewriteSlots {σ : Type} {Φ : (α : Type) → Run σ α → Prop} (hΦ : Run.Closed Φ)
    (rw : Node → Run σ Node) (sl : List Slot)
    (h : ∀ c ∈ (sl.map Slot.args).flatten, Φ Node (rw c)) :
    Φ (List Slot) (rewriteSlots rw sl) := by
  induction sl with
  | nil => exact hΦ.pure _ _
  | cons x rest ih =>
    simp only [rewriteSlots, Run.bind_eq]
    refine hΦ.bind _ _ _ _ ?_ (fun y => ?_)
    · exact closed_rewriteSlot hΦ rw x (fun c hc => h c (by simp [hc]))
    · refine hΦ.bind _ _ _ _ (ih (fun c hc => h c ?_)) (fun ys => hΦ.pure _ _)
      simp only [List.map_cons, List.flatten_cons, List.mem_append]
      exact Or.inr hc

theorem closed_rewriteChildren {σ : Type} {Φ : (α : Type) → Run σ α → Prop} (hΦ : Run.Closed Φ)
    (rw : Node → Run σ Node) (n : Node) (h : ∀ c ∈ n.children, Φ Node (rw c)) :
    Φ Node (rewriteChildren rw n) := by
  by_cases hk : n.kind.isSome = true
  · rw [rewriteChildren_eq_slots rw n hk]
    exact hΦ.bind _ _ _ _ (closed_rewriteSlots hΦ rw n.slots h) (fun sl => hΦ.pure _ _)
  · cases n <;> first
      | (exfalso; exact hk rfl)
      | (simp only [rewriteChildren]; exact hΦ.fail _ _)
      | (simp only [rewriteChildren]; split
         · exact hΦ.pure _ _
         · exact hΦ.fail _ _)

/-! ## Structure of the trees -/

theorem subnodesList_append (l1 l2 : List Node) :
    subnodesList (l1 ++ l2) = subnodesList l1 ++ subnodesList l2 := by
  induction l1 with
  | nil => simp [subnodesList]
  | cons x rest ih => simp [subnodesList, ih]

set_option maxHeartbeats 4000000 in
theorem subnodes_eq_slots (n : Node) (h : n.kind.isSome = true) :
    n.subnodes = n :: subnodesList ((n.slots.map Slot.contents).flatten) := by
  cases n <;> first
    | (simp [Node.kind] at h; done)
    | simp [Node.subnodes, Node.slots, Slot.contents, subnodesList_append, subnodesList]

set_option maxHeartbeats 4000000 in
theorem withSlots_slots (n : Node) : n.withSlots n.slots = n := by
  cases n <;> simp [Node.withSlots, Node.slots, slotNode, slotList, Slot.node, Slot.list]

set_option maxHeartbeats 4000000 in
theorem withSlots_kind (n : Node) (sl : List Slot) : (n.withSlots sl).kind = n.kind := by
  cases n <;> simp [Node.withSlots, Node.kind]

set_option maxHeartbeats 4000000 in
theorem slots_declared (n : Node) : ∀ x ∈ n.slots, ∀ e ∈ x.elems, e.1.declared = true := by
  cases n <;> simp [Node.slots, Slot.elems, Shape.declared, slotKinds]

/-! ## Slots, arguments and well-typed trees -/

theorem mem_children {n c : Node} : c ∈ n.children ↔ ∃ x ∈ n.slots, c ∈ x.args := by
  simp [Node.children, List.mem_flatten]

theorem mem_args {x : Slot} {c : Node} :
    c ∈ x.args ↔ ∃ e ∈ x.elems, e.1.arg e.2 = some c := by
  cases x <;> simp [Slot.args, Slot.elems, List.mem_filterMap]

theorem mem_children_of_elem {n c v : Node} {x : Slot} {sh : Shape} (hx : x ∈ n.slots)
    (he : (sh, v) ∈ x.elems) (hc : sh.arg v = some c) : c ∈ n.children :=
  mem_children.2 ⟨x, hx, mem_args.2 ⟨(sh, v), he, hc⟩⟩

theorem slot_ok_iff (x : Slot) : x.ok = true ↔ ∀ e ∈ x.elems, e.1.holds e.2 = true := by
  cases x <;> simp [Slot.ok, Slot.elems, List.all_eq_true]

theorem contents_eq_elems (x : Slot) : x.contents = x.elems.map Prod.snd := by
  cases x <;> simp [Slot.contents, Slot.elems]

theorem isNil_of_kind {v : Node} (h : v.kind.isSome = true) : v.isNil = false := by
  cases v <;> simp [Node.kind, Node.isNil] at h ⊢

theorem isNil_iff {v : Node} : v.isNil = true ↔ v = .nil := by
  cases v <;> simp [Node.isNil]

theorem hasType_of_kind {v : Node} (h : v.kind.isSome = true) (k : Kind) :
    v.hasType k = (v.kind == some k) := by
  cases v <;> simp [Node.kind, Node.hasType] at h ⊢

theorem implements_of_kind {v : Node} {k : Kind} (h : v.kind = some k) (i : Iface) :
    v.implements i = k.implements i := by
  cases v <;> simp [Node.kind, Node.implements] at h ⊢ <;> subst h <;> rfl

theorem ptrValue_of_kind {v : Node} (h : v.kind.isSome = true) : v.ptrValue = v := by
  cases v <;> simp [Node.kind, Node.ptrValue] at h ⊢

theorem ptrToNode_of_not_nil {v : Node} (k : Kind) (h : v.isNil = false) : ptrToNode k v = v := by
  cases v <;> simp [Node.isNil, ptrToNode] at h ⊢

theorem accepts_congr (sh : Shape) {y1 y2 : Node} (hk : y1.kind = y2.kind)
    (h1 : y1.kind.isSome = true) : sh.accepts y1 = sh.accepts y2 := by
  have h2 : y2.kind.isSome = true := hk ▸ h1
  obtain ⟨k, hk1⟩ := Option.isSome_iff_exists.1 h1
  have hk2 : y2.kind = some k := hk ▸ hk1
  cases sh <;>
    simp [Shape.accepts, hasType_of_kind h1, hasType_of_kind h2, implements_of_kind hk1,
      implements_of_kind hk2, hk]

theorem stored_of_kind (sh : Shape) {y : Node} (h : y.kind.isSome = true) : sh.stored y = y := by
  cases sh <;> simp [Shape.stored, ptrValue_of_kind h]

/-- In a slot filled according to its type, what is handed to `Rewrite` is the
content itself, a node that passes the assertion of the slot. -/
theorem arg_of_holds {sh : Shape} {v c : Node} (hh : sh.holds v = true) (hc : sh.arg v = some c) :
    c = v ∧ v.kind.isSome = true ∧ sh.accepts v = true := by
  cases sh with
  | ptr k =>
    simp only [Shape.arg] at hc
    by_cases hn : v.isNil = true
    · simp [hn] at hc
    · simp only [hn] at hc
      simp only [Shape.holds, hn, Bool.false_or, beq_iff_eq] at hh
      have hs : v.kind.isSome = true := by simp [hh]
      refine ⟨by simpa using hc.symm, hs, ?_⟩
      simp [Shape.accepts, hasType_of_kind hs, hh]
  | iface i =>
    simp only [Shape.arg] at hc
    by_cases hn : v.isNil = true
    · simp [hn] at hc
    · simp only [hn] at hc
      simp only [Shape.holds, hn, Bool.false_or, Bool.and_eq_true] at hh
      exact ⟨by simpa using hc.symm, hh.1, by simpa [Shape.accepts] using hh.2⟩
  | reqPtr k =>
    simp only [Shape.holds, beq_iff_eq] at hh
    have hs : v.kind.isSome = true := by simp [hh]
    simp only [Shape.arg, ptrToNode_of_not_nil k (isNil_of_kind hs), Option.some.injEq] at hc
    refine ⟨hc.symm, hs, ?_⟩
    simp [Shape.accepts, hasType_of_kind hs, hh]
  | reqIface i =>
    simp only [Shape.holds, Bool.and_eq_true] at hh
    simp only [Shape.arg, Option.some.injEq] at hc
    exact ⟨hc.symm, hh.1, by simpa [Shape.accepts] using hh.2⟩

theorem all_subnodesList (P : Node → Bool) (l : List Node) :
    (subnodesList l).all P = l.all (fun v => v.subnodes.all P) := by
  induction l with
  | nil => simp [subnodesList]
  | cons x rest ih => simp [subnodesList, List.all_append, ih]

theorem length_subnodes_le_of_mem {l : List Node} {v : Node} (h : v ∈ l) :
    v.subnodes.length ≤ (subnodesList l).length := by
  induction l with
  | nil => simp at h
  | cons x rest ih =>
    simp only [subnodesList, List.length_append]
    rcases List.mem_cons.1 h with rfl | h1
    · omega
    · have := ih h1; omega

theorem mem_contents_of_elem {n v : Node} {x : Slot} {sh : Shape} (hx : x ∈ n.slots)
    (he : (sh, v) ∈ x.elems) : v ∈ (n.slots.map Slot.contents).flatten := by
  simp only [List.mem_flatten, List.mem_map]
  refine ⟨x.contents, ⟨x, hx, rfl⟩, ?_⟩
  rw [contents_eq_elems]
  exact List.mem_map.2 ⟨(sh, v), he, rfl⟩

theorem self_mem_subnodes {n : Node} (h : n.kind.isSome = true) : n ∈ n.subnodes := by
  rw [subnodes_eq_slots n h]; exact List.mem_cons_self _ _

theorem all_subnodes_of_elem {n v : Node} {x : Slot} {sh : Shape} (P : Node → Bool)
    (hk : n.kind.isSome = true) (hP : n.subnodes.all P = true) (hx : x ∈ n.slots)
    (he : (sh, v) ∈ x.elems) : v.subnodes.all P = true := by
  rw [subnodes_eq_slots n hk] at hP
  simp only [List.all_cons, Bool.and_eq_true, all_subnodesList] at hP
  exact List.all_eq_true.1 hP.2 v (mem_contents_of_elem hx he)

theorem size_lt_of_elem {n v : Node} {x : Slot} {sh : Shape} (hk : n.kind.isSome = true)
    (hx : x ∈ n.slots) (he : (sh, v) ∈ x.elems) : v.size < n.size := by
  unfold Node.size
  rw [subnodes_eq_slots n hk]
  have := length_subnodes_le_of_mem (mem_contents_of_elem hx he)
  simp only [List.length_cons]
  omega

theorem localOK_root {t : Node} (h : t.wellTyped = true) : t.localOK = true := by
  simp only [Node.wellTyped, Bool.and_eq_true] at h
  exact List.all_eq_true.1 h.2 t (self_mem_subnodes h.1)

theorem holds_of_localOK {n v : Node} {x : Slot} {sh : Shape} (h : n.localOK = true)
    (hx : x ∈ n.slots) (he : (sh, v) ∈ x.elems) : sh.holds v = true := by
  simp only [Node.localOK, Bool.and_eq_true, List.all_eq_true] at h
  exact (slot_ok_iff x).1 (h.2 x hx) (sh, v) he

/-- The children of a well-typed node are its slot contents, are well typed and
are smaller. -/
theorem wellTyped_child {n c : Node} (h : n.wellTyped = true) (hc : c ∈ n.children) :
    c.wellTyped = true ∧ c.size < n.size := by
  obtain ⟨x, hx, hcx⟩ := mem_children.1 hc
  obtain ⟨⟨sh, v⟩, he, ha⟩ := mem_args.1 hcx
  have hloc := localOK_root h
  obtain ⟨rfl, hks, -⟩ := arg_of_holds (holds_of_localOK hloc hx he) ha
  simp only [Node.wellTyped, Bool.and_eq_true] at h
  refine ⟨?_, size_lt_of_elem h.1 hx he⟩
  simp only [Node.wellTyped, Bool.and_eq_true]
  exact ⟨hks, all_subnodes_of_elem _ h.1 h.2 hx he⟩

theorem noSentinel_child {n c : Node} (h : n.wellTyped = true) (hs : n.noSentinel = true)
    (hc : c ∈ n.children) : c.noSentinel = true := by
  obtain ⟨x, hx, hcx⟩ := mem_children.1 hc
  obtain ⟨⟨sh, v⟩, he, ha⟩ := mem_args.1 hcx
  obtain ⟨rfl, -, -⟩ := arg_of_holds (holds_of_localOK (localOK_root h) hx he) ha
  simp only [Node.wellTyped, Bool.and_eq_true] at h
  exact all_subnodes_of_elem _ h.1 hs hx he

theorem parsed_child {n c : Node} (h : n.parsed = true) (hc : c ∈ n.children) :
    c.parsed = true ∧ c.size < n.size := by
  simp only [Node.parsed, Bool.and_eq_true] at h ⊢
  exact ⟨⟨(wellTyped_child h.1 hc).1, noSentinel_child h.1 h.2 hc⟩, (wellTyped_child h.1 hc).2⟩

/-! ## One step of `Rewrite` -/

theorem Rewrite_zero {σ : Type} (r : Rewriter σ) (node : Node) (s : σ) :
    Rewrite r 0 node s = .outOfFuel := rfl

theorem Rewrite_stop {σ : Type} {r : Rewriter σ} {node n1 : Node} {s s1 : σ} (fuel : Nat)
    (h : r node s = ((n1, false), s1)) : Rewrite r (fuel + 1) node s = .done (n1, s1) := by
  simp [Rewrite, Run.bind_eq, Run.bind, Rewriter.call, h, Run.pure]

theorem Rewrite_cont {σ : Type} {r : Rewriter σ} {node n1 : Node} {s s1 : σ} (fuel : Nat)
    (h : r node s = ((n1, true), s1)) :
    Rewrite r (fuel + 1) node s =
      Run.bind (rewriteChildren (Rewrite r fuel) n1)
        (fun n2 => Run.bind (r.call .nil) (fun _ => Run.pure n2)) s1 := by
  simp [Rewrite, Run.bind_eq, Run.bind, Rewriter.call, h]

/-! ## Runs that leave the state alone -/

theorem rewriteOne_fill {σ : Type} (sh : Shape) (rw : Node → Run σ Node) (g : Node → Node)
    (v : Node) (s : σ)
    (h : ∀ c, sh.arg v = some c → rw c s = .done (g c, s) ∧ sh.accepts (g c) = true) :
    rewriteOne sh rw v s = .done (sh.fill g v, s) := by
  rw [rewriteOne_eq]
  unfold Shape.fill
  cases hc : sh.arg v with
  | none => rfl
  | some c =>
    obtain ⟨h1, h2⟩ := h c hc
    simp [Run.bind_done h1, h2, Run.pure]

theorem rewriteEach_fill {σ : Type} (f : Node → Run σ Node) (g : Node → Node) (l : List Node)
    (s : σ) (h : ∀ v ∈ l, f v s = .done (g v, s)) :
    rewriteEach f l s = .done (l.map g, s) := by
  induction l with
  | nil => rfl
  | cons x rest ih =>
    simp only [rewriteEach, Run.bind_eq]
    rw [Run.bind_done (h x (List.mem_cons_self _ _)),
      Run.bind_done (ih (fun v hv => h v (List.mem_cons_of_mem _ hv)))]
    rfl

/-- One turn of the loop of `rewriteStmtList`: the element at the cursor is
rewritten to `st1`, what it is spliced to goes to the front, and the loop goes
on with the next element. -/
theorem rewriteStmtListLoop_cons {σ : Type} (rw : Node → Run σ Node) (front rest : List Node)
    (x st1 : Node) (s s1 : σ) (h1 : rewriteStmt rw x s = .done (st1, s1))
    (hne : st1 ≠ .typedNil .ExpandedBlockStmt) :
    rewriteStmtListLoop rw front (x :: rest) s =
      rewriteStmtListLoop rw (front ++ spliced st1) rest s1 := by
  simp only [rewriteStmtListLoop, Run.bind_eq]
  rw [Run.bind_done h1]
  split
  · rfl
  · exact absurd rfl hne
  · rename_i h2 h3
    cases st1 <;> first
      | rfl
      | (exfalso; exact h2 _ _ rfl)

theorem not_typedNil_of_kind {y : Node} (h : y.kind.isSome = true) (k : Kind) :
    y ≠ .typedNil k := by
  intro hy; subst hy; simp [Node.kind] at h

theorem rewriteStmtListLoop_fill {σ : Type} (rw : Node → Run σ Node) (g : Node → Node)
    (l : List Node) (s : σ)
    (h : ∀ v ∈ l, ∀ c, (Shape.iface .Stmt).arg v = some c →
      rw c s = .done (g c, s) ∧ (Shape.iface .Stmt).accepts (g c) = true ∧
        (g c).kind.isSome = true) :
    ∀ front, rewriteStmtListLoop rw front l s =
      .done (front ++ (l.map (fun v => spliced ((Shape.iface .Stmt).fill g v))).flatten, s) := by
  induction l with
  | nil => intro front; simp [rewriteStmtListLoop, Run.pure]
  | cons x rest ih =>
    intro front
    have hx := h x (List.mem_cons_self _ _)
    have h1 : rewriteStmt rw x s = .done ((Shape.iface .Stmt).fill g x, s) :=
      rewriteOne_fill (.iface .Stmt) rw g x s (fun c hc => ⟨(hx c hc).1, (hx c hc).2.1⟩)
    have hne : (Shape.iface .Stmt).fill g x ≠ .typedNil .ExpandedBlockStmt := by
      unfold Shape.fill
      cases hc : (Shape.iface .Stmt).arg x with
      | none =>
        simp only [Shape.arg] at hc
        by_cases hn : x.isNil = true
        · rw [isNil_iff.1 hn]; simp
        · simp [hn] at hc
      | some c =>
        exact not_typedNil_of_kind (by simpa [Shape.stored] using (hx c hc).2.2) _
    rw [rewriteStmtListLoop_cons rw front rest x _ s s h1 hne,
      ih (fun v hv => h v (List.mem_cons_of_mem _ hv))]
    simp

theorem rewriteSlot_fill {σ : Type} (rw : Node → Run σ Node) (g : Node → Node) (x : Slot) (s : σ)
    (h : ∀ e ∈ x.elems, ∀ c, e.1.arg e.2 = some c →
      rw c s = .done (g c, s) ∧ e.1.accepts (g c) = true ∧ (g c).kind.isSome = true) :
    rewriteSlot rw x s = .done (x.fill g, s) := by
  cases x with
  | one sh v =>
    have h1 := rewriteOne_fill sh rw g v s
      (fun c hc => ⟨(h (sh, v) (by simp [Slot.elems]) c hc).1,
        (h (sh, v) (by simp [Slot.elems]) c hc).2.1⟩)
    simp only [rewriteSlot, Run.bind_eq, Run.bind_done h1]; rfl
  | each sh l =>
    have h1 := rewriteEach_fill (rewriteOne sh rw) (sh.fill g) l s (fun v hv =>
      rewriteOne_fill sh rw g v s (fun c hc =>
        ⟨(h (sh, v) (by simp only [Slot.elems, List.mem_map]; exact ⟨v, hv, rfl⟩) c hc).1,
          (h (sh, v) (by simp only [Slot.elems, List.mem_map]; exact ⟨v, hv, rfl⟩) c hc).2.1⟩))
    simp only [rewriteSlot, Run.bind_eq, Run.bind_done h1]; rfl
  | stmts l =>
    have h1 := rewriteStmtListLoop_fill rw g l s (fun v hv c hc =>
      h (Shape.iface .Stmt, v) (by simp only [Slot.elems, List.mem_map]; exact ⟨v, hv, rfl⟩) c hc) []
    simp only [rewriteSlot, rewriteStmtList, Run.bind_eq, Run.bind_done h1]; rfl

theorem rewriteSlots_fill {σ : Type} (rw : Node → Run σ Node) (g : Node → Node) (sl : List Slot)
    (s : σ)
    (h : ∀ x ∈ sl, ∀ e ∈ x.elems, ∀ c, e.1.arg e.2 = some c →
      rw c s = .done (g c, s) ∧ e.1.accepts (g c) = true ∧ (g c).kind.isSome = true) :
    rewriteSlots rw sl s = .done (sl.map (Slot.fill g), s) := by
  induction sl with
  | nil => rfl
  | cons x rest ih =>
    simp only [rewriteSlots, Run.bind_eq]
    rw [Run.bind_done (rewriteSlot_fill rw g x s (h x (List.mem_cons_self _ _))),
      Run.bind_done (ih (fun y hy => h y (List.mem_cons_of_mem _ hy)))]
    rfl

/-! ## Pure callbacks that respect the typing of the slots -/

/-- The callback `p` respects the invariant `Inv` with the measure `μ`: on a
node of the invariant its answer is a handled node with well-filled slots that
passes every assertion of a declared slot that the node passes, and if it
continues, the children of the answer are in the invariant and smaller. -/
theorem rewriteFun_spec {σ : Type} (p : Node → Node × Bool) (Inv : Node → Prop) (μ : Node → Nat)
    (hp : ∀ n, Inv n → (p n).1.localOK = true ∧
      (∀ sh : Shape, sh.declared = true → sh.accepts n = true → sh.accepts (p n).1 = true) ∧
      ((p n).2 = true → ∀ c ∈ (p n).1.children, Inv c ∧ μ c < μ n)) :
    ∀ (fuel : Nat) (t : Node) (s : σ), Inv t → μ t < fuel →
      Rewrite (Rewriter.ofFun p) fuel t s = .done (rewriteFun p fuel t, s) ∧
        (rewriteFun p fuel t).kind = (p t).1.kind := by
  intro fuel
  induction fuel with
  | zero => intro t s _ h; omega
  | succ fuel ih =>
    intro t s hI hμ
    obtain ⟨hloc, -, hch⟩ := hp t hI
    have hks : (p t).1.kind.isSome = true := by
      simp only [Node.localOK, Bool.and_eq_true] at hloc; exact hloc.1
    cases hb : (p t).2 with
    | false =>
      have hr : (Rewriter.ofFun p : Rewriter σ) t s = (((p t).1, false), s) := by
        simp only [Rewriter.ofFun]; rw [← hb]
      simp [Rewrite_stop fuel hr, rewriteFun, hb]
    | true =>
      have hr : (Rewriter.ofFun p : Rewriter σ) t s = (((p t).1, true), s) := by
        simp only [Rewriter.ofFun]; rw [← hb]
      have hsl := rewriteSlots_fill (Rewrite (Rewriter.ofFun p) fuel) (rewriteFun p fuel)
        (p t).1.slots s (by
          intro x hx e he c hc
          obtain ⟨sh, v⟩ := e
          have hcm : c ∈ (p t).1.children := mem_children_of_elem hx he hc
          obtain ⟨hIc, hμc⟩ := hch hb c hcm
          obtain ⟨h1, h2⟩ := ih c s hIc (by omega)
          obtain ⟨rfl, -, hacc⟩ := arg_of_holds (holds_of_localOK hloc hx he) hc
          obtain ⟨hlocc, haccc, -⟩ := hp c hIc
          have hksc : (p c).1.kind.isSome = true := by
            simp only [Node.localOK, Bool.and_eq_true] at hlocc; exact hlocc.1
          have hks2 : (rewriteFun p fuel c).kind.isSome = true := h2 ▸ hksc
          refine ⟨h1, ?_, hks2⟩
          rw [accepts_congr sh h2 hks2]
          exact haccc sh (slots_declared _ x hx (sh, c) he) hacc)
      rw [Rewrite_cont fuel hr, rewriteChildren_eq_slots _ _ hks, Run.bind_assoc,
        Run.bind_done hsl]
      simp [Run.pure_bind, Run.bind, Rewriter.call, Rewriter.ofFun, Run.pure, rewriteFun, hb,
        withSlots_kind]

/-! ## The result function of a pure callback -/

theorem shape_fill_congr (sh : Shape) (g1 g2 : Node → Node) (v : Node)
    (h : ∀ c, sh.arg v = some c → g1 c = g2 c) : sh.fill g1 v = sh.fill g2 v := by
  unfold Shape.fill
  cases hc : sh.arg v with
  | none => rfl
  | some c => simp [h c hc]

theorem slot_fill_congr (g1 g2 : Node → Node) (x : Slot) (h : ∀ c ∈ x.args, g1 c = g2 c) :
    x.fill g1 = x.fill g2 := by
  cases x with
  | one sh v =>
    simp only [Slot.fill]
    rw [shape_fill_congr sh g1 g2 v (fun c hc => h c (by simp [Slot.args, hc]))]
  | each sh l =>
    simp only [Slot.fill]
    congr 1
    apply List.map_congr_left
    intro v hv
    exact shape_fill_congr sh g1 g2 v
      (fun c hc => h c (by simp only [Slot.args, List.mem_filterMap]; exact ⟨v, hv, hc⟩))
  | stmts l =>
    simp only [Slot.fill]
    congr 2
    apply List.map_congr_left
    intro v hv
    rw [shape_fill_congr _ g1 g2 v
      (fun c hc => h c (by simp only [Slot.args, List.mem_filterMap]; exact ⟨v, hv, hc⟩))]

theorem slots_fill_congr (g1 g2 : Node → Node) (n : Node) (h : ∀ c ∈ n.children, g1 c = g2 c) :
    n.slots.map (Slot.fill g1) = n.slots.map (Slot.fill g2) := by
  apply List.map_congr_left
  intro x hx
  exact slot_fill_congr g1 g2 x (fun c hc => h c (mem_children.2 ⟨x, hx, hc⟩))

/-- Above the measure the budget does not matter. -/
theorem rewriteFun_stable (p : Node → Node × Bool) (Inv : Node → Prop) (μ : Node → Nat)
    (hp : ∀ n, Inv n → ((p n).2 = true → ∀ c ∈ (p n).1.children, Inv c ∧ μ c < μ n)) :
    ∀ (f1 f2 : Nat) (t : Node), Inv t → μ t < f1 → μ t < f2 →
      rewriteFun p f1 t = rewriteFun p f2 t := by
  intro f1
  induction f1 with
  | zero => intro f2 t _ h; omega
  | succ f1 ih =>
    intro f2 t hI h1 h2
    cases f2 with
    | zero => omega
    | succ f2 =>
      simp only [rewriteFun]
      cases hb : (p t).2 with
      | false => simp
      | true =>
        simp only [if_true]
        rw [slots_fill_congr (rewriteFun p f1) (rewriteFun p f2) (p t).1 (fun c hc => by
          obtain ⟨hIc, hμ⟩ := hp t hI hb c hc
          exact ih f2 c hIc (by omega) (by omega))]

theorem rewriteResult_unfold (p : Node → Node × Bool) (Inv : Node → Prop) (μ : Node → Nat)
    (hp : ∀ n, Inv n → ((p n).2 = true → ∀ c ∈ (p n).1.children, Inv c ∧ μ c < μ n))
    (t : Node) (hI : Inv t) :
    rewriteResult p μ t =
      if (p t).2 then (p t).1.withSlots ((p t).1.slots.map (Slot.fill (rewriteResult p μ)))
      else (p t).1 := by
  simp only [rewriteResult, rewriteFun]
  cases hb : (p t).2 with
  | false => simp
  | true =>
    simp only [if_true]
    rw [slots_fill_congr (rewriteFun p (μ t)) (rewriteResult p μ) (p t).1 (fun c hc => by
      obtain ⟨hIc, hμ⟩ := hp t hI hb c hc
      exact rewriteFun_stable p Inv μ hp _ _ c hIc hμ (by omega))]

theorem rewriteResult_spec {σ : Type} (p : Node → Node × Bool) (Inv : Node → Prop)
    (μ : Node → Nat)
    (hp : ∀ n, Inv n → (p n).1.localOK = true ∧
      (∀ sh : Shape, sh.declared = true → sh.accepts n = true → sh.accepts (p n).1 = true) ∧
      ((p n).2 = true → ∀ c ∈ (p n).1.children, Inv c ∧ μ c < μ n))
    (t : Node) (hI : Inv t) (fuel : Nat) (s : σ) (hf : μ t < fuel) :
    Rewrite (Rewriter.ofFun p) fuel t s = .done (rewriteResult p μ t, s) ∧
      (rewriteResult p μ t).kind = (p t).1.kind := by
  have h := rewriteFun_spec p Inv μ hp fuel t s hI hf
  have hst := rewriteFun_stable p Inv μ (fun n hn => (hp n hn).2.2) fuel (μ t + 1) t hI hf
    (by omega)
  unfold rewriteResult
  rw [← hst]
  exact h

/-! ## The identity callback -/

theorem spliced_of_not_expanded {v : Node} (h : v.isExpanded = false) : spliced v = [v] := by
  cases v <;> simp [Node.isExpanded, spliced] at h ⊢

theorem flatten_map_singleton (l : List Node) : (l.map (fun v => [v])).flatten = l := by
  induction l with
  | nil => rfl
  | cons x rest ih => simp [ih]

theorem shape_fill_id {sh : Shape} {g : Node → Node} {v : Node} (hh : sh.holds v = true)
    (h : ∀ c, sh.arg v = some c → g c = c) : sh.fill g v = v := by
  unfold Shape.fill
  cases hc : sh.arg v with
  | none => rfl
  | some c =>
    obtain ⟨rfl, hk, -⟩ := arg_of_holds hh hc
    simp [h c hc, stored_of_kind sh hk]

theorem slot_fill_id {g : Node → Node} {x : Slot} (hok : x.ok = true)
    (hne : ∀ v ∈ x.contents, v.isExpanded = false) (h : ∀ c ∈ x.args, g c = c) :
    x.fill g = x := by
  have hok1 := (slot_ok_iff x).1 hok
  cases x with
  | one sh v =>
    simp only [Slot.fill]
    rw [shape_fill_id (hok1 (sh, v) (by simp [Slot.elems]))
      (fun c hc => h c (by simp [Slot.args, hc]))]
  | each sh l =>
    simp only [Slot.fill]
    congr 1
    conv => rhs; rw [← List.map_id l]
    apply List.map_congr_left
    intro v hv
    exact shape_fill_id
      (hok1 (sh, v) (by simp only [Slot.elems, List.mem_map]; exact ⟨v, hv, rfl⟩))
      (fun c hc => h c (by simp only [Slot.args, List.mem_filterMap]; exact ⟨v, hv, hc⟩))
  | stmts l =>
    simp only [Slot.fill]
    congr 1
    conv => rhs; rw [← flatten_map_singleton l]
    congr 1
    apply List.map_congr_left
    intro v hv
    rw [shape_fill_id
      (hok1 (_, v) (by simp only [Slot.elems, List.mem_map]; exact ⟨v, hv, rfl⟩))
      (fun c hc => h c (by simp only [Slot.args, List.mem_filterMap]; exact ⟨v, hv, hc⟩))]
    exact spliced_of_not_expanded (hne v (by simpa [Slot.contents] using hv))

theorem isExpanded_of_kind_none {v : Node} (h : v.kind.isSome = false) : v.isExpanded = false := by
  cases v <;> simp [Node.kind, Node.isExpanded] at h ⊢

theorem not_expanded_of_elem {n v : Node} {x : Slot} {sh : Shape} (hk : n.kind.isSome = true)
    (hs : n.noSentinel = true) (hx : x ∈ n.slots) (he : (sh, v) ∈ x.elems) :
    v.isExpanded = false := by
  cases hv : v.kind.isSome with
  | false => exact isExpanded_of_kind_none hv
  | true =>
    have := all_subnodes_of_elem _ hk hs hx he
    simpa using List.all_eq_true.1 this v (self_mem_subnodes hv)

/-- Filling the slots of a parser-made node with results equal to its children
gives the node back. -/
theorem slots_fill_id {g : Node → Node} {n : Node} (hp : n.parsed = true)
    (h : ∀ c ∈ n.children, g c = c) : n.withSlots (n.slots.map (Slot.fill g)) = n := by
  simp only [Node.parsed, Bool.and_eq_true] at hp
  have hloc := localOK_root hp.1
  have hk : n.kind.isSome = true := by
    simp only [Node.localOK, Bool.and_eq_true] at hloc; exact hloc.1
  have : n.slots.map (Slot.fill g) = n.slots := by
    conv => rhs; rw [← List.map_id n.slots]
    apply List.map_congr_left
    intro x hx
    simp only [Node.localOK, Bool.and_eq_true, List.all_eq_true] at hloc
    refine slot_fill_id (hloc.2 x hx) (fun v hv => ?_)
      (fun c hc => h c (mem_children.2 ⟨x, hx, hc⟩))
    rw [contents_eq_elems] at hv
    obtain ⟨⟨sh, v1⟩, he, rfl⟩ := List.mem_map.1 hv
    exact not_expanded_of_elem hk hp.2 hx he
  rw [this, withSlots_slots]

theorem id_respects (n : Node) (hn : n.wellTyped = true) :
    ((fun node : Node => (node, true)) n).1.localOK = true ∧
      (∀ sh : Shape, sh.declared = true → sh.accepts n = true →
        sh.accepts ((fun node : Node => (node, true)) n).1 = true) ∧
      (((fun node : Node => (node, true)) n).2 = true →
        ∀ c ∈ ((fun node : Node => (node, true)) n).1.children,
          c.wellTyped = true ∧ c.size < n.size) :=
  ⟨localOK_root hn, fun _ _ h => h, fun _ _ hc => wellTyped_child hn hc⟩

theorem rewriteFun_id (fuel : Nat) : ∀ t : Node, t.parsed = true → t.size < fuel →
    rewriteFun (fun node => (node, true)) fuel t = t := by
  induction fuel with
  | zero => intro t _ h; omega
  | succ fuel ih =>
    intro t hp hs
    simp only [rewriteFun, if_true]
    exact slots_fill_id hp (fun c hc => ih c (parsed_child hp hc).1
      (by have := (parsed_child hp hc).2; omega))

/-! ## C2: descent gating -/

/-- C2 (descent gating).  If the callback answers `(X1, false)` on `X`, then
`Rewrite(X, r)` returns `X1` as the callback returned it, and the callback has
been called exactly once, on `X`: the log of the recording callback grows by
that single call, so no descendant of `X` or of `X1` is handed to it. -/
theorem descent_gating {σ : Type} (r : Rewriter σ) (fuel : Nat) (X X1 : Node) (s s1 : σ)
    (h : r X s = ((X1, false), s1)) :
    Rewrite r (fuel + 1) X s = .done (X1, s1) ∧
      ∀ log : List Call, Rewrite (recording r) (fuel + 1) X (s, log) =
        .done (X1, (s1, log ++ [{ arg := X, ret := X1, cont := false }])) := by
  refine ⟨Rewrite_stop fuel h, fun log => ?_⟩
  apply Rewrite_stop
  simp [recording, h]

/-- Witness of C2: a call expression with an argument, under the callback that
never descends. -/
theorem descent_gating_witness :
    Rewrite (stopRewriter : Rewriter Unit) 1
        (.CallExpr {} (.Ident { text := "f" }) [.Ident { text := "x" }]) () =
      .done (.CallExpr {} (.Ident { text := "f" }) [.Ident { text := "x" }], ()) ∧
    ∀ log : List Call, Rewrite (recording (stopRewriter : Rewriter Unit)) 1
        (.CallExpr {} (.Ident { text := "f" }) [.Ident { text := "x" }]) ((), log) =
      .done (.CallExpr {} (.Ident { text := "f" }) [.Ident { text := "x" }],
        ((), log ++ [{ arg := .CallExpr {} (.Ident { text := "f" }) [.Ident { text := "x" }],
                       ret := .CallExpr {} (.Ident { text := "f" }) [.Ident { text := "x" }],
                       cont := false }])) :=
  descent_gating stopRewriter 0 _ _ () () rfl

/-! ## C3: identity -/

/-- C3 (identity).  On a tree as a parser produces it (handled node types,
slots filled according to their types, no `ExpandedBlockStmt`), `Rewrite` with
the identity callback does not fail and returns a tree equal to the input, with
any budget above the size of the tree. -/
theorem identity_rewrite {σ : Type} (t : Node) (fuel : Nat) (s : σ) (hp : t.parsed = true)
    (hf : t.size < fuel) : Rewrite (idRewriter : Rewriter σ) fuel t s = .done (t, s) := by
  have hwt : t.wellTyped = true := by
    simp only [Node.parsed, Bool.and_eq_true] at hp; exact hp.1
  have h := (rewriteFun_spec (σ := σ) (fun node => (node, true))
    (fun n => n.wellTyped = true) Node.size id_respects fuel t s hwt hf).1
  rw [rewriteFun_id fuel t hp hf] at h
  exact h

/-- Witness of C3: the function literal `func() { x, y := 0, 1 }`. -/
theorem identity_rewrite_witness :
    Rewrite (idRewriter : Rewriter Unit) 10
      (.FuncLit {} (.FuncType {} (.FieldList {} []) .nil)
        (.BlockStmt {} [.AssignStmt { tok := DEFINE }
          [.Ident { text := "x" }, .Ident { text := "y" }]
          [.BasicLit { text := "0" }, .BasicLit { text := "1" }]])) () =
    .done (.FuncLit {} (.FuncType {} (.FieldList {} []) .nil)
        (.BlockStmt {} [.AssignStmt { tok := DEFINE }
          [.Ident { text := "x" }, .Ident { text := "y" }]
          [.BasicLit { text := "0" }, .BasicLit { text := "1" }]]), ()) :=
  identity_rewrite _ 10 () (by decide) (by decide)

/-! ## The splice of `rewriteStmtList` -/

theorem rewriteStmtListLoop_cons_typedNil {σ : Type} (rw : Node → Run σ Node)
    (front rest : List Node) (x : Node) (s s1 : σ)
    (h1 : rewriteStmt rw x s = .done (.typedNil .ExpandedBlockStmt, s1)) :
    rewriteStmtListLoop rw front (x :: rest) s = .panic .nilDereference := by
  simp only [rewriteStmtListLoop, Run.bind_eq]
  rw [Run.bind_done h1]
  rfl

theorem rewriteEach_cons_done {σ : Type} {f : Node → Run σ Node} {x : Node} {rest ys : List Node}
    {s s2 : σ} (h : rewriteEach f (x :: rest) s = .done (ys, s2)) :
    ∃ y s1 ys1, f x s = .done (y, s1) ∧ rewriteEach f rest s1 = .done (ys1, s2) ∧
      ys = y :: ys1 := by
  simp only [rewriteEach, Run.bind_eq] at h
  obtain ⟨y, s1, h1, h2⟩ := Run.bind_eq_done.1 h
  obtain ⟨ys1, s3, h3, h4⟩ := Run.bind_eq_done.1 h2
  simp only [Run.pure, Outcome.done.injEq, Prod.mk.injEq] at h4
  obtain ⟨h5, h6⟩ := h4
  subst h6
  exact ⟨y, s1, ys1, h1, h3, h5.symm⟩

theorem rewriteEach_length {σ : Type} {f : Node → Run σ Node} {l ys : List Node} {s s2 : σ}
    (h : rewriteEach f l s = .done (ys, s2)) : ys.length = l.length := by
  induction l generalizing s ys with
  | nil =>
    simp only [rewriteEach, Run.pure, Outcome.done.injEq, Prod.mk.injEq] at h
    simp [← h.1]
  | cons x rest ih =>
    obtain ⟨y, s1, ys1, -, h2, rfl⟩ := rewriteEach_cons_done h
    simp [ih h2]

/-- The loop of `rewriteStmtList` is one pass that rewrites every element once,
in order, followed by the splice of what the elements were rewritten to. -/
theorem rewriteStmtListLoop_of_each {σ : Type} (rw : Node → Run σ Node) (l : List Node) :
    ∀ (ys : List Node) (s s1 : σ), rewriteEach (rewriteStmt rw) l s = .done (ys, s1) →
      (∀ y ∈ ys, y ≠ .typedNil .ExpandedBlockStmt) →
      ∀ front, rewriteStmtListLoop rw front l s =
        .done (front ++ (ys.map spliced).flatten, s1) := by
  induction l with
  | nil =>
    intro ys s s1 h _ front
    simp only [rewriteEach, Run.pure, Outcome.done.injEq, Prod.mk.injEq] at h
    obtain ⟨rfl, rfl⟩ := h
    simp [rewriteStmtListLoop, Run.pure]
  | cons x rest ih =>
    intro ys s s1 h hne front
    obtain ⟨y, s2, ys1, h1, h2, rfl⟩ := rewriteEach_cons_done h
    rw [rewriteStmtListLoop_cons rw front rest x y s s2 h1 (hne y (List.mem_cons_self _ _)),
      ih ys1 s2 s1 h2 (fun z hz => hne z (List.mem_cons_of_mem _ hz))]
    simp

theorem rewriteStmt_observed {σ : Type} (rw : Node → Run σ Node) (x : Node) (s : σ)
    (log : List Node) :
    rewriteStmt (observed rw) x (s, log) =
      match rewriteStmt rw x s with
      | .done (y, s1) => .done (y, (s1, log ++ [x].filter (fun v => !v.isNil)))
      | .panic p => .panic p
      | .outOfFuel => .outOfFuel := by
  unfold rewriteStmt rewriteIface
  cases hx : x.isNil with
  | true => simp [Run.pure, hx]
  | false =>
    simp only [Run.bind_eq, Run.bind, observed, Bool.false_eq_true, if_false]
    cases hrw : rw x s with
    | done v =>
      obtain ⟨y, s1⟩ := v
      simp only [assertIface]
      cases hy : y.implements .Stmt <;> simp [Run.pure, Run.fail, hx]
    | panic p => rfl
    | outOfFuel => rfl

/-- The nodes that the loop of `rewriteStmtList` hands to `Rewrite` are the
non-nil elements of the list it is given, each once, in order. -/
theorem rewriteStmtListLoop_observed {σ : Type} (rw : Node → Run σ Node) (l : List Node) :
    ∀ (front : List Node) (s : σ) (log : List Node),
      rewriteStmtListLoop (observed rw) front l (s, log) =
        match rewriteStmtListLoop rw front l s with
        | .done (res, s1) => .done (res, (s1, log ++ l.filter (fun v => !v.isNil)))
        | .panic p => .panic p
        | .outOfFuel => .outOfFuel := by
  induction l with
  | nil => intro front s log; simp [rewriteStmtListLoop, Run.pure]
  | cons x rest ih =>
    intro front s log
    have hobs := rewriteStmt_observed rw x s log
    cases hrw : rewriteStmt rw x s with
    | done v =>
      obtain ⟨y, s1⟩ := v
      rw [hrw] at hobs
      by_cases hy : y = .typedNil .ExpandedBlockStmt
      · subst hy
        rw [rewriteStmtListLoop_cons_typedNil _ front rest x _ _ hobs,
          rewriteStmtListLoop_cons_typedNil _ front rest x _ _ hrw]
      · rw [rewriteStmtListLoop_cons _ front rest x y _ _ hobs hy,
          rewriteStmtListLoop_cons _ front rest x y _ _ hrw hy, ih]
        cases rewriteStmtListLoop rw (front ++ spliced y) rest s1 with
        | done v => cases hx : x.isNil <;> simp [List.filter, hx]
        | panic p => rfl
        | outOfFuel => rfl
    | panic p =>
      rw [hrw] at hobs
      simp only [rewriteStmtListLoop, Run.bind_eq]
      rw [Run.bind_panic hobs, Run.bind_panic hrw]
    | outOfFuel =>
      rw [hrw] at hobs
      simp only [rewriteStmtListLoop, Run.bind_eq]
      rw [Run.bind_outOfFuel hobs, Run.bind_outOfFuel hrw]

theorem spliced_of_not_expandedType {y : Node} (h : y.isExpandedType = false) :
    spliced y = [y] ∧ y ≠ .typedNil .ExpandedBlockStmt := by
  cases y <;> simp [Node.isExpandedType, Node.hasType, Node.kind, spliced] at h ⊢
  exact h

/-- Splice of a list in which only the element at `k` is a sentinel. -/
theorem flatten_spliced_single (ys : List Node) : ∀ (k : Nat) (a : Attr) (ms : List Node),
    ys[k]? = some (.ExpandedBlockStmt a ms) →
    (∀ i y, i ≠ k → ys[i]? = some y → y.isExpandedType = false) →
    (ys.map spliced).flatten = ys.take k ++ ms ++ ys.drop (k + 1) := by
  induction ys with
  | nil => intro k a ms hk; simp at hk
  | cons y rest ih =>
    intro k a ms hk ho
    cases k with
    | zero =>
      simp only [List.getElem?_cons_zero, Option.some.injEq] at hk
      subst hk
      have hrest : (rest.map spliced).flatten = rest := by
        have : rest.map spliced = rest.map (fun v => [v]) := by
          apply List.map_congr_left
          intro v hv
          obtain ⟨i, hi, hiv⟩ := List.getElem_of_mem hv
          refine (spliced_of_not_expandedType (ho (i + 1) v (by omega) ?_)).1
          simp [List.getElem?_eq_getElem hi, hiv]
        rw [this, flatten_map_singleton]
      simp [spliced, hrest]
    | succ k =>
      simp only [List.getElem?_cons_succ] at hk
      have hy := (spliced_of_not_expandedType (ho 0 y (by omega) (by simp))).1
      have := ih k a ms hk (fun i z hi hz => ho (i + 1) z (by omega) (by simpa using hz))
      simp [hy, this]

/-! ## C4: splice arithmetic -/

/-- C4 (splice arithmetic).  Let `rw` be the recursive call `Rewrite(·, r)` and
let one pass over a statement list `l`, element after element, rewrite its
statements to `ys`, where `ys[k]` is an `ExpandedBlockStmt` of the statements
`ms` and no other `ys[i]` is of type `*ExpandedBlockStmt`.  Then
`rewriteStmtList` returns (rewritten statements before `k`) ++ `ms` ++
(rewritten statements after `k`), in the state of that single pass; the length
of this list is `len(l) - 1 + len(ms)`; and the nodes that `rewriteStmtList`
hands to `Rewrite` are exactly the (non-nil) elements of `l`, each once and in
order: no sibling is skipped or visited twice and no statement of `ms` is
visited.  With `ms` empty the element at `k` is deleted. -/
theorem splice_arithmetic {σ : Type} (rw : Node → Run σ Node) (l ys : List Node) (s s1 : σ)
    (k : Nat) (a : Attr) (ms : List Node)
    (hrun : rewriteEach (rewriteStmt rw) l s = .done (ys, s1))
    (hk : ys[k]? = some (.ExpandedBlockStmt a ms))
    (hothers : ∀ i y, i ≠ k → ys[i]? = some y → y.isExpandedType = false) :
    rewriteStmtList rw l s = .done (ys.take k ++ ms ++ ys.drop (k + 1), s1) ∧
      (ys.take k ++ ms ++ ys.drop (k + 1)).length = l.length - 1 + ms.length ∧
      k < l.length ∧
      ∀ log : List Node, rewriteStmtList (observed rw) l (s, log) =
        .done (ys.take k ++ ms ++ ys.drop (k + 1),
          (s1, log ++ l.filter (fun v => !v.isNil))) := by
  have hlen := rewriteEach_length hrun
  have hklt : k < ys.length := by
    by_contra hcon
    rw [List.getElem?_eq_none (by omega)] at hk
    exact absurd hk (by simp)
  have hne : ∀ y ∈ ys, y ≠ .typedNil .ExpandedBlockStmt := by
    intro y hy
    obtain ⟨i, hi, hiy⟩ := List.getElem_of_mem hy
    by_cases hik : i = k
    · subst hik
      rw [List.getElem?_eq_getElem hi, hiy] at hk
      simp only [Option.some.injEq] at hk
      rw [hk]; simp
    · exact (spliced_of_not_expandedType
        (hothers i y hik (by simp [List.getElem?_eq_getElem hi, hiy]))).2
  have hmain := rewriteStmtListLoop_of_each rw l ys s s1 hrun hne []
  rw [flatten_spliced_single ys k a ms hk hothers] at hmain
  simp only [List.nil_append] at hmain
  refine ⟨hmain, ?_, by omega, fun log => ?_⟩
  · simp only [List.length_append, List.length_take, List.length_drop]
    omega
  · unfold rewriteStmtList
    rw [rewriteStmtListLoop_observed, show rewriteStmtListLoop rw [] l s = _ from hmain]

/-- Witness of C4: a block of three statements whose middle statement is
answered with an empty sentinel; the first and the third remain. -/
theorem splice_arithmetic_witness :
    rewriteStmtList (Rewrite (emptyToNothing : Rewriter Unit) 3)
        [.ExprStmt {} (.Ident { text := "a" }), .EmptyStmt {}, .ExprStmt {} (.Ident { text := "b" })]
        () =
      .done ([Node.ExprStmt {} (.Ident { text := "a" }), .ExpandedBlockStmt {} [],
          .ExprStmt {} (.Ident { text := "b" })].take 1 ++ [] ++
        [Node.ExprStmt {} (.Ident { text := "a" }), .ExpandedBlockStmt {} [],
          .ExprStmt {} (.Ident { text := "b" })].drop (1 + 1), ()) ∧
    ([Node.ExprStmt {} (.Ident { text := "a" }), .ExpandedBlockStmt {} [],
          .ExprStmt {} (.Ident { text := "b" })].take 1 ++ [] ++
        [Node.ExprStmt {} (.Ident { text := "a" }), .ExpandedBlockStmt {} [],
          .ExprStmt {} (.Ident { text := "b" })].drop (1 + 1)).length =
      [Node.ExprStmt {} (.Ident { text := "a" }), .EmptyStmt {},
        .ExprStmt {} (.Ident { text := "b" })].length - 1 + ([] : List Node).length ∧
    1 < [Node.ExprStmt {} (.Ident { text := "a" }), .EmptyStmt {},
        .ExprStmt {} (.Ident { text := "b" })].length ∧
    ∀ log : List Node, rewriteStmtList (observed (Rewrite (emptyToNothing : Rewriter Unit) 3))
        [.ExprStmt {} (.Ident { text := "a" }), .EmptyStmt {}, .ExprStmt {} (.Ident { text := "b" })]
        ((), log) =
      .done ([Node.ExprStmt {} (.Ident { text := "a" }), .ExpandedBlockStmt {} [],
          .ExprStmt {} (.Ident { text := "b" })].take 1 ++ [] ++
        [Node.ExprStmt {} (.Ident { text := "a" }), .ExpandedBlockStmt {} [],
          .ExprStmt {} (.Ident { text := "b" })].drop (1 + 1),
        ((), log ++ [Node.ExprStmt {} (.Ident { text := "a" }), .EmptyStmt {},
          .ExprStmt {} (.Ident { text := "b" })].filter (fun v => !v.isNil))) :=
  splice_arithmetic (Rewrite (emptyToNothing : Rewriter Unit) 3)
    [.ExprStmt {} (.Ident { text := "a" }), .EmptyStmt {}, .ExprStmt {} (.Ident { text := "b" })]
    [.ExprStmt {} (.Ident { text := "a" }), .ExpandedBlockStmt {} [],
      .ExprStmt {} (.Ident { text := "b" })]
    () () 1 {} [] rfl rfl
    (by
      intro i y hi hy
      match i, hi, hy with
      | 0, _, hy => simp at hy; subst hy; rfl
      | 1, hi, _ => exact absurd rfl hi
      | 2, _, hy => simp at hy; subst hy; rfl
      | n + 3, _, hy => simp at hy)

/-! ## A statement returned by `Rewrite` for an element of a list -/

theorem rewriteStmt_of_done {σ : Type} {rw : Node → Run σ Node} {x y : Node} {s s1 : σ}
    (hx : x.isNil = false) (h : rw x s = .done (y, s1)) (hy : y.implements .Stmt = true) :
    rewriteStmt rw x s = .done (y, s1) := by
  simp [rewriteStmt, rewriteIface, hx, Run.bind_eq, Run.bind_done h, assertIface, hy, Run.pure]

/-! ## C6: termination -/

/-- Counterexample to C6 as stated.  The callback that wraps every node in
parentheses and continues is total, and `Rewrite` under it on the identifier
`x` does not terminate: it descends into the node it has just built without
end, so every budget is exhausted. -/
theorem wrapRewriter_diverges :
    Diverges (wrapRewriter : Rewriter Unit) (.Ident { text := "x" }) () := by
  have h : ∀ (fuel : Nat) (t : Node), t.isNil = false →
      Rewrite (wrapRewriter : Rewriter Unit) fuel t () = .outOfFuel := by
    intro fuel
    induction fuel with
    | zero => intro t _; rfl
    | succ fuel ih =>
      intro t ht
      have hr : (wrapRewriter : Rewriter Unit) t () = ((.ParenExpr {} t, true), ()) := rfl
      rw [Rewrite_cont fuel hr]
      apply Run.bind_outOfFuel
      simp only [rewriteChildren, rewriteExpr, rewriteIface, ht, Run.bind_eq]
      apply Run.bind_outOfFuel
      simp only [Bool.false_eq_true, if_false]
      apply Run.bind_outOfFuel
      exact ih t ht
  intro fuel
  exact h fuel _ rfl

/-- The runs that do not exhaust the budget are closed under sequencing. -/
theorem closed_terminates (σ : Type) :
    Run.Closed (fun (α : Type) (m : Run σ α) => ∀ s, m s ≠ .outOfFuel) where
  pure := by intro α a s h; simp [Run.pure] at h
  fail := by intro α p s h; simp [Run.fail] at h
  bind := by
    intro α β x f hx hf s
    unfold Run.bind
    cases h : x s with
    | done v => exact hf v.1 v.2
    | panic p => simp
    | outOfFuel => exact absurd h (hx s)

/-- C6 as amended (termination).  Let `μ` be a measure on nodes such that,
whenever the callback answers a node `n` with `continue = true`, every child of
its answer has a smaller measure than `n`.  Then `Rewrite(t, r)` terminates on
every tree `t`, by returning or by a panic: a budget above `μ t` is never
exhausted. -/
theorem rewrite_terminates {σ : Type} (r : Rewriter σ) (μ : Node → Nat)
    (hμ : ∀ n s, (r n s).1.2 = true → ∀ c ∈ (r n s).1.1.children, μ c < μ n) :
    ∀ (fuel : Nat) (t : Node) (s : σ), μ t < fuel → Rewrite r fuel t s ≠ .outOfFuel := by
  intro fuel
  induction fuel with
  | zero => intro t s h; omega
  | succ fuel ih =>
    intro t s hf
    cases hb : (r t s).1.2 with
    | false =>
      have hr : r t s = (((r t s).1.1, false), (r t s).2) := by rw [← hb]
      rw [Rewrite_stop fuel hr]; simp
    | true =>
      have hr : r t s = (((r t s).1.1, true), (r t s).2) := by rw [← hb]
      rw [Rewrite_cont fuel hr]
      refine (closed_terminates σ).bind _ _ _ _ ?_ ?_ _
      · exact closed_rewriteChildren (closed_terminates σ) _ _
          (fun c hc st => ih c st (by have := hμ t s hb c hc; omega))
      · intro n st h
        simp [Run.bind, Rewriter.call, Run.pure] at h

theorem size_pos_of_kind {n : Node} (h : n.kind.isSome = true) : 0 < n.size := by
  unfold Node.size
  rw [subnodes_eq_slots n h]
  simp

theorem kind_of_mem_slots {n : Node} {x : Slot} (hx : x ∈ n.slots) : n.kind.isSome = true := by
  cases n <;> first
    | rfl
    | simp [Node.slots] at hx

/-- Every child has a smaller `depthBound` than its parent. -/
theorem children_depthBound {n c : Node} (hc : c ∈ n.children) : depthBound c < depthBound n := by
  obtain ⟨x, hx, hcx⟩ := mem_children.1 hc
  obtain ⟨⟨sh, v⟩, he, ha⟩ := mem_args.1 hcx
  have hk := kind_of_mem_slots hx
  have hlt := size_lt_of_elem hk hx he
  have hn : depthBound n = 2 * n.size + 1 := by
    cases n <;> first
      | rfl
      | simp [Node.kind] at hk
  have hle : ∀ m : Node, depthBound m ≤ 2 * m.size + 1 := by
    intro m; unfold depthBound; split <;> omega
  have hv : depthBound v < depthBound n := by have := hle v; omega
  cases sh with
  | ptr k =>
    simp only [Shape.arg] at ha
    by_cases hnil : v.isNil = true
    · simp [hnil] at ha
    · simp only [hnil] at ha
      simp only [Bool.false_eq_true, if_false, Option.some.injEq] at ha
      exact ha ▸ hv
  | iface i =>
    simp only [Shape.arg] at ha
    by_cases hnil : v.isNil = true
    · simp [hnil] at ha
    · simp only [hnil] at ha
      simp only [Bool.false_eq_true, if_false, Option.some.injEq] at ha
      exact ha ▸ hv
  | reqPtr k =>
    simp only [Shape.arg, Option.some.injEq] at ha
    by_cases hnil : v.isNil = true
    · rw [isNil_iff.1 hnil] at ha
      subst ha
      have hpos := size_pos_of_kind hk
      simp only [ptrToNode, depthBound, Node.size, Node.subnodes, List.length_singleton]
        at hn hpos ⊢
      omega
    · rw [ptrToNode_of_not_nil k (by simpa using hnil)] at ha
      exact ha ▸ hv
  | reqIface i =>
    simp only [Shape.arg, Option.some.injEq] at ha
    exact ha ▸ hv

/-- Witness of C6 as amended: the identity callback with the measure
`depthBound`, on the call `f(x)`. -/
theorem rewrite_terminates_witness :
    Rewrite (idRewriter : Rewriter Unit) 8
      (.CallExpr {} (.Ident { text := "f" }) [.Ident { text := "x" }]) () ≠ .outOfFuel :=
  rewrite_terminates (idRewriter : Rewriter Unit) depthBound
    (fun _ _ _ _ hc => children_depthBound hc) 8 _ () (by decide)

/-! ## C7: the call with nil -/

theorem Nested.append {a b : List Call} (ha : Nested a) (hb : Nested b) : Nested (a ++ b) := by
  induction ha with
  | empty => simpa using hb
  | skip c rest hc _ ih => exact Nested.skip c (rest ++ b) hc ih
  | visit c e inner rest hc he hin _ _ ih2 =>
    have := Nested.visit c e inner (rest ++ b) hc he hin ih2
    simpa [List.append_assoc] using this

/-- The runs that extend the log by a well-nested sequence of calls are closed
under sequencing. -/
theorem closed_nested (σ : Type) :
    Run.Closed (fun (α : Type) (m : Run (σ × List Call) α) =>
      ∀ st a st1, m st = .done (a, st1) → ∃ t, st1.2 = st.2 ++ t ∧ Nested t) where
  pure := by
    intro α a st b st1 h
    simp only [Run.pure, Outcome.done.injEq, Prod.mk.injEq] at h
    exact ⟨[], by simp [← h.2], Nested.empty⟩
  fail := by intro α p st a st1 h; simp [Run.fail] at h
  bind := by
    intro α β x f hx hf st b st2 h
    obtain ⟨a, st1, h1, h2⟩ := Run.bind_eq_done.1 h
    obtain ⟨t1, e1, n1⟩ := hx st a st1 h1
    obtain ⟨t2, e2, n2⟩ := hf a st1 b st2 h2
    exact ⟨t1 ++ t2, by rw [e2, e1, List.append_assoc], n1.append n2⟩

theorem recording_call_nil {σ : Type} (r : Rewriter σ) (st st1 : σ × List Call) (v : Node × Bool)
    (h : (recording r).call .nil st = .done (v, st1)) :
    ∃ e : Call, e.arg = .nil ∧ st1.2 = st.2 ++ [e] := by
  simp only [Rewriter.call, recording, Outcome.done.injEq, Prod.mk.injEq] at h
  exact ⟨_, rfl, by rw [← h.2]⟩

theorem nested_rewrite {σ : Type} (r : Rewriter σ) (fuel : Nat) :
    ∀ (X Y : Node) (st st1 : σ × List Call),
      Rewrite (recording r) fuel X st = .done (Y, st1) →
      (∃ t, st1.2 = st.2 ++ t ∧ Nested t) ∧
      ((r X st.1).1.2 = false →
        st1.2 = st.2 ++ [{ arg := X, ret := (r X st.1).1.1, cont := false }]) ∧
      ((r X st.1).1.2 = true → ∃ inner e, Nested inner ∧ e.arg = Node.nil ∧
        st1.2 = st.2 ++ { arg := X, ret := (r X st.1).1.1, cont := true } :: (inner ++ [e])) := by
  induction fuel with
  | zero => intro X Y st st1 h; simp [Rewrite_zero] at h
  | succ fuel ih =>
    intro X Y st st1 h
    cases hb : (r X st.1).1.2 with
    | false =>
      have hr : recording r X st = (((r X st.1).1.1, false),
          ((r X st.1).2, st.2 ++ [{ arg := X, ret := (r X st.1).1.1, cont := false }])) := by
        simp only [recording]; rw [← hb]
      rw [Rewrite_stop fuel hr] at h
      simp only [Outcome.done.injEq, Prod.mk.injEq] at h
      have h2 : st1.2 = st.2 ++ [{ arg := X, ret := (r X st.1).1.1, cont := false }] := by
        rw [← h.2]
      refine ⟨⟨_, h2, Nested.skip _ _ rfl Nested.empty⟩, fun _ => h2, fun hc => by simp at hc⟩
    | true =>
      have hr : recording r X st = (((r X st.1).1.1, true),
          ((r X st.1).2, st.2 ++ [{ arg := X, ret := (r X st.1).1.1, cont := true }])) := by
        simp only [recording]; rw [← hb]
      rw [Rewrite_cont fuel hr] at h
      obtain ⟨n2, st2, h1, h2⟩ := Run.bind_eq_done.1 h
      obtain ⟨v, st3, h3, h4⟩ := Run.bind_eq_done.1 h2
      simp only [Run.pure, Outcome.done.injEq, Prod.mk.injEq] at h4
      obtain ⟨inner, e1, n1⟩ := closed_rewriteChildren (closed_nested σ) _ _
        (fun c _ st a st1 hrun => (ih c a st st1 hrun).1) _ _ _ h1
      obtain ⟨e, he, e2⟩ := recording_call_nil r st2 st3 v h3
      have h5 : st1.2 = st.2 ++
          { arg := X, ret := (r X st.1).1.1, cont := true } :: (inner ++ [e]) := by
        rw [← h4.2, e2, e1]; simp
      refine ⟨⟨_, h5, ?_⟩, fun hc => by simp at hc, fun _ => ⟨inner, e, n1, he, h5⟩⟩
      exact Nested.visit _ e inner [] rfl he n1 Nested.empty

/-- Counterexample to C7 as stated.  Under a callback that answers the empty
statement with `continue = false`, `Rewrite` on the block `{ ; }` hands two
nodes to the callback, the block and the empty statement, and calls it with nil
once, for the block: the empty statement has been handed to the callback and
no call with nil is made for it. -/
theorem nil_call_missing :
    ∃ log : List Call,
      Rewrite (recording (emptyToNothing : Rewriter Unit)) 4
          (.BlockStmt {} [.EmptyStmt {}]) ((), []) =
        .done (.BlockStmt {} [], ((), log)) ∧
      log.map (fun c => c.arg) = [.BlockStmt {} [.EmptyStmt {}], .EmptyStmt {}, .nil] ∧
      log.map (fun c => c.cont) = [true, false, true] ∧
      (log.filter (fun c => c.arg.isNil)).length = 1 ∧
      (log.filter (fun c => !c.arg.isNil)).length = 2 :=
  ⟨_, rfl, rfl, rfl, rfl, rfl⟩

/-- C7 as amended (end-of-children hook).  When `Rewrite(X, r)` returns, the
calls it has made form a well-nested log.  If the callback answered `X` with
`continue = false`, the call on `X` is the only one: no call with nil is made
for `X`.  If it answered with `continue = true`, the call on `X` is followed by
the (well-nested) calls made for the children of its answer, and then by
exactly one call with nil, which is the last call. -/
theorem nil_call_after_children {σ : Type} (r : Rewriter σ) (fuel : Nat) (X Y : Node)
    (s s1 : σ) (log log1 : List Call)
    (h : Rewrite (recording r) fuel X (s, log) = .done (Y, (s1, log1))) :
    (∃ t, log1 = log ++ t ∧ Nested t) ∧
    ((r X s).1.2 = false → log1 = log ++ [{ arg := X, ret := (r X s).1.1, cont := false }]) ∧
    ((r X s).1.2 = true → ∃ inner e, Nested inner ∧ e.arg = Node.nil ∧
      log1 = log ++ { arg := X, ret := (r X s).1.1, cont := true } :: (inner ++ [e])) :=
  nested_rewrite r fuel X Y (s, log) (s1, log1) h

/-- Witness of C7 as amended: the block `{ ; }` under a callback that answers
the empty statement with `continue = false`. -/
theorem nil_call_after_children_witness :
    (∃ t, [({ arg := .BlockStmt {} [.EmptyStmt {}], ret := .BlockStmt {} [.EmptyStmt {}],
              cont := true } : Call),
            { arg := .EmptyStmt {}, ret := .ExpandedBlockStmt {} [], cont := false },
            { arg := .nil, ret := .nil, cont := true }] = [] ++ t ∧ Nested t) ∧
    (((emptyToNothing : Rewriter Unit) (.BlockStmt {} [.EmptyStmt {}]) ()).1.2 = false →
      [({ arg := .BlockStmt {} [.EmptyStmt {}], ret := .BlockStmt {} [.EmptyStmt {}],
              cont := true } : Call),
            { arg := .EmptyStmt {}, ret := .ExpandedBlockStmt {} [], cont := false },
            { arg := .nil, ret := .nil, cont := true }] =
        [] ++ [{ arg := .BlockStmt {} [.EmptyStmt {}],
                 ret := ((emptyToNothing : Rewriter Unit) (.BlockStmt {} [.EmptyStmt {}]) ()).1.1,
                 cont := false }]) ∧
    (((emptyToNothing : Rewriter Unit) (.BlockStmt {} [.EmptyStmt {}]) ()).1.2 = true →
      ∃ inner e, Nested inner ∧ e.arg = Node.nil ∧
        [({ arg := .BlockStmt {} [.EmptyStmt {}], ret := .BlockStmt {} [.EmptyStmt {}],
              cont := true } : Call),
            { arg := .EmptyStmt {}, ret := .ExpandedBlockStmt {} [], cont := false },
            { arg := .nil, ret := .nil, cont := true }] =
          [] ++ { arg := .BlockStmt {} [.EmptyStmt {}],
                  ret := ((emptyToNothing : Rewriter Unit) (.BlockStmt {} [.EmptyStmt {}]) ()).1.1,
                  cont := true } :: (inner ++ [e])) :=
  nil_call_after_children (emptyToNothing : Rewriter Unit) 4 (.BlockStmt {} [.EmptyStmt {}])
    (.BlockStmt {} []) () () [] _ rfl

/-! ## A failed assertion in a slot ends the run -/

theorem arg_of_not_nil (sh : Shape) {v : Node} (hv : v.isNil = false) : sh.arg v = some v := by
  cases sh <;> simp [Shape.arg, hv, ptrToNode_of_not_nil _ hv]

theorem rewriteOne_never {σ : Type} {sh : Shape} {rw : Node → Run σ Node} {v c : Node}
    (hc : sh.arg v = some c)
    (hbad : ∀ s y s1, rw c s = .done (y, s1) → sh.accepts y = false) :
    ∀ s out, rewriteOne sh rw v s ≠ .done out := by
  intro s out h
  obtain ⟨o, s2⟩ := out
  rw [rewriteOne_eq, hc] at h
  obtain ⟨y, s1, h1, h2⟩ := Run.bind_eq_done.1 h
  simp [hbad s y s1 h1, Run.fail] at h2

theorem rewriteEach_never {σ : Type} {f : Node → Run σ Node} {l : List Node} {v : Node}
    (hv : v ∈ l) (hbad : ∀ s out, f v s ≠ .done out) :
    ∀ s out, rewriteEach f l s ≠ .done out := by
  induction l with
  | nil => simp at hv
  | cons x rest ih =>
    intro s out h
    obtain ⟨ys, s2⟩ := out
    obtain ⟨y, s1, ys1, h1, h2, -⟩ := rewriteEach_cons_done h
    rcases List.mem_cons.1 hv with rfl | hr
    · exact hbad s _ h1
    · exact ih hr s1 _ h2

theorem rewriteStmtListLoop_never {σ : Type} {rw : Node → Run σ Node} {l : List Node} {v : Node}
    (hv : v ∈ l) (hbad : ∀ s out, rewriteStmt rw v s ≠ .done out) :
    ∀ front s out, rewriteStmtListLoop rw front l s ≠ .done out := by
  induction l with
  | nil => simp at hv
  | cons x rest ih =>
    intro front s out h
    obtain ⟨o, s2⟩ := out
    simp only [rewriteStmtListLoop, Run.bind_eq] at h
    obtain ⟨y, s1, h1, h2⟩ := Run.bind_eq_done.1 h
    rcases List.mem_cons.1 hv with rfl | hr
    · exact hbad s _ h1
    · split at h2
      · exact ih hr _ s1 _ h2
      · simp [Run.fail] at h2
      · exact ih hr _ s1 _ h2

theorem rewriteSlot_never {σ : Type} {rw : Node → Run σ Node} {x : Slot} {sh : Shape}
    {v c : Node} (he : (sh, v) ∈ x.elems) (hc : sh.arg v = some c)
    (hbad : ∀ s y s1, rw c s = .done (y, s1) → sh.accepts y = false) :
    ∀ s out, rewriteSlot rw x s ≠ .done out := by
  intro s out h
  obtain ⟨o, s2⟩ := out
  cases x with
  | one sh1 v1 =>
    simp only [Slot.elems, List.mem_singleton, Prod.mk.injEq] at he
    obtain ⟨rfl, rfl⟩ := he
    simp only [rewriteSlot, Run.bind_eq] at h
    obtain ⟨y, s1, h1, -⟩ := Run.bind_eq_done.1 h
    exact rewriteOne_never hc hbad s _ h1
  | each sh1 l =>
    simp only [Slot.elems, List.mem_map, Prod.mk.injEq] at he
    obtain ⟨v1, hv1, rfl, rfl⟩ := he
    simp only [rewriteSlot, Run.bind_eq] at h
    obtain ⟨y, s1, h1, -⟩ := Run.bind_eq_done.1 h
    exact rewriteEach_never hv1 (rewriteOne_never hc hbad) s _ h1
  | stmts l =>
    simp only [Slot.elems, List.mem_map, Prod.mk.injEq] at he
    obtain ⟨v1, hv1, rfl, rfl⟩ := he
    simp only [rewriteSlot, Run.bind_eq, rewriteStmtList] at h
    obtain ⟨y, s1, h1, -⟩ := Run.bind_eq_done.1 h
    exact rewriteStmtListLoop_never hv1 (rewriteOne_never hc hbad) [] s _ h1

theorem rewriteSlots_never {σ : Type} {rw : Node → Run σ Node} {sl : List Slot} {x : Slot}
    {sh : Shape} {v c : Node} (hx : x ∈ sl) (he : (sh, v) ∈ x.elems) (hc : sh.arg v = some c)
    (hbad : ∀ s y s1, rw c s = .done (y, s1) → sh.accepts y = false) :
    ∀ s out, rewriteSlots rw sl s ≠ .done out := by
  induction sl with
  | nil => simp at hx
  | cons z rest ih =>
    intro s out h
    obtain ⟨o, s2⟩ := out
    simp only [rewriteSlots, Run.bind_eq] at h
    obtain ⟨y, s1, h1, h2⟩ := Run.bind_eq_done.1 h
    obtain ⟨ys, s2, h3, -⟩ := Run.bind_eq_done.1 h2
    rcases List.mem_cons.1 hx with rfl | hr
    · exact rewriteSlot_never he hc hbad s _ h1
    · exact ih hr s1 _ h3

/-- If the result of `Rewrite` for the content of a slot of the callback's
answer never passes the assertion of the slot, `Rewrite` of the parent does not
return. -/
theorem Rewrite_never_of_slot {σ : Type} {r : Rewriter σ} {fuel : Nat} {parent n1 : Node}
    {s s1 : σ} (hr : r parent s = ((n1, true), s1)) {x : Slot} (hx : x ∈ n1.slots)
    {sh : Shape} {v c : Node} (he : (sh, v) ∈ x.elems) (hc : sh.arg v = some c)
    (hbad : ∀ st y st1, Rewrite r fuel c st = .done (y, st1) → sh.accepts y = false) :
    ∀ out, Rewrite r (fuel + 1) parent s ≠ .done out := by
  intro out h
  obtain ⟨o, s2⟩ := out
  rw [Rewrite_cont fuel hr, rewriteChildren_eq_slots _ _ (kind_of_mem_slots hx),
    Run.bind_assoc] at h
  obtain ⟨sl, s2, h1, -⟩ := Run.bind_eq_done.1 h
  exact rewriteSlots_never hx he hc hbad s1 _ h1

/-! ## C10: slot coercion -/

/-- C10 (slot coercion).  The callback has answered `parent` with `n1` and
`continue = true`, and `v` is the non-nil content of a child slot of `n1` (a
single slot or an element of a list) whose type assertion is that of the shape
`sh`.
(1) If the result of `Rewrite` on `v` is never of the type asserted, `Rewrite`
of the parent returns no tree.
(2) Whenever `Rewrite` returns for `v` a node that is not of the type asserted,
the slot rewriter panics with a failed type assertion.
(3) Whenever `Rewrite` returns for `v` a node `y` of the type asserted, the
slot rewriter returns `y` as the new content of the slot. -/
theorem slot_coercion {σ : Type} (r : Rewriter σ) (fuel : Nat) (parent n1 : Node) (s s1 : σ)
    (hr : r parent s = ((n1, true), s1)) (x : Slot) (hx : x ∈ n1.slots) (sh : Shape) (v : Node)
    (he : (sh, v) ∈ x.elems) (hv : v.isNil = false) :
    ((∀ st y st1, Rewrite r fuel v st = .done (y, st1) → sh.accepts y = false) →
      ∀ out, Rewrite r (fuel + 1) parent s ≠ .done out) ∧
    (∀ st y st1, Rewrite r fuel v st = .done (y, st1) → sh.accepts y = false →
      rewriteOne sh (Rewrite r fuel) v st = .panic .typeAssertion) ∧
    (∀ st y st1, Rewrite r fuel v st = .done (y, st1) → sh.accepts y = true →
      rewriteOne sh (Rewrite r fuel) v st = .done (sh.stored y, st1)) := by
  refine ⟨fun hbad => Rewrite_never_of_slot hr hx he (arg_of_not_nil sh hv) hbad, ?_, ?_⟩
  · intro st y st1 h hacc
    rw [rewriteOne_eq, arg_of_not_nil sh hv]
    simp [Run.bind_done h, hacc, Run.fail]
  · intro st y st1 h hacc
    rw [rewriteOne_eq, arg_of_not_nil sh hv]
    simp [Run.bind_done h, hacc, Run.pure]

/-- Witness of C10: in the expression statement `x` the callback answers the
identifier with an empty statement; the slot `X` asserts `Expr`, and `Rewrite`
of the statement returns no tree. -/
theorem slot_coercion_witness :
    ¬ ∃ out, Rewrite (identToStmt : Rewriter Unit) 2 (.ExprStmt {} (.Ident { text := "x" })) () =
      .done out :=
  fun ⟨out, hout⟩ => (slot_coercion (identToStmt : Rewriter Unit) 1 (.ExprStmt {} (.Ident { text := "x" }))
    (.ExprStmt {} (.Ident { text := "x" })) () () rfl
    (.one (.iface .Expr) (.Ident { text := "x" })) (List.Mem.head _)
    (.iface .Expr) (.Ident { text := "x" }) (List.Mem.head _) rfl).1
    (fun st y st1 h => by
      have h1 : Rewrite (identToStmt : Rewriter Unit) 1 (.Ident { text := "x" }) st =
          .done (.EmptyStmt {}, st) := rfl
      rw [h1] at h
      cases h
      rfl) out hout

/-! ## C9: a sentinel outside a statement list -/

/-- Counterexample to C9 as stated.  The callback answers every empty
statement with a sentinel.  For the `Else` slot of an if statement and for the
statement wrapped by a labeled statement, slots typed `Stmt` that are not
elements of a statement list, `Rewrite` does not fail: it returns the parent
with the sentinel stored in the slot. -/
theorem sentinel_in_stmt_slot :
    Rewrite (emptyToSentinel : Rewriter Unit) 5
        (.IfStmt {} .nil (.Ident { text := "c" }) (.BlockStmt {} []) (.EmptyStmt {})) () =
      .done (.IfStmt {} .nil (.Ident { text := "c" }) (.BlockStmt {} [])
        (.ExpandedBlockStmt {} [.ReturnStmt {} []]), ()) ∧
    Rewrite (emptyToSentinel : Rewriter Unit) 5
        (.LabeledStmt {} (.Ident { text := "L" }) (.EmptyStmt {})) () =
      .done (.LabeledStmt {} (.Ident { text := "L" })
        (.ExpandedBlockStmt {} [.ReturnStmt {} []]), ()) :=
  ⟨rfl, rfl⟩

theorem accepts_expanded {sh : Shape} {y : Node} (hd : sh.declared = true)
    (hs : sh ≠ .iface .Stmt) (hy : y.isExpanded = true) : sh.accepts y = false := by
  cases y <;> simp [Node.isExpanded] at hy
  cases sh with
  | ptr k => cases k <;> simp [Shape.declared, slotKinds] at hd <;> rfl
  | reqPtr k => cases k <;> simp [Shape.declared, slotKinds] at hd <;> rfl
  | iface i => cases i <;> first | rfl | exact absurd rfl hs
  | reqIface i => cases i <;> first | rfl | simp [Shape.declared] at hd

theorem implements_expanded {y : Node} (hy : y.isExpanded = true) :
    y.implements .Stmt = true := by
  cases y <;> simp [Node.isExpanded] at hy
  rfl

/-- When the callback answers a node with a sentinel, what `Rewrite` returns
for the node is a sentinel. -/
theorem Rewrite_expanded {σ : Type} {r : Rewriter σ} {fuel : Nat} {v y : Node} {st st1 : σ}
    (hr : (r v st).1.1.isExpanded = true) (h : Rewrite r fuel v st = .done (y, st1)) :
    y.isExpanded = true := by
  cases fuel with
  | zero => simp [Rewrite_zero] at h
  | succ fuel =>
    cases hb : (r v st).1.2 with
    | false =>
      have hr1 : r v st = (((r v st).1.1, false), (r v st).2) := by rw [← hb]
      rw [Rewrite_stop fuel hr1] at h
      simp only [Outcome.done.injEq, Prod.mk.injEq] at h
      rw [← h.1]; exact hr
    | true =>
      have hr1 : r v st = (((r v st).1.1, true), (r v st).2) := by rw [← hb]
      rw [Rewrite_cont fuel hr1] at h
      obtain ⟨n2, st2, h1, h2⟩ := Run.bind_eq_done.1 h
      obtain ⟨w, st3, -, h4⟩ := Run.bind_eq_done.1 h2
      simp only [Run.pure, Outcome.done.injEq, Prod.mk.injEq] at h4
      rw [← h4.1]
      generalize (r v st).1.1 = n1 at hr h1
      cases n1 <;> simp [Node.isExpanded] at hr
      simp only [rewriteChildren, Run.bind_eq] at h1
      obtain ⟨l, st4, -, h6⟩ := Run.bind_eq_done.1 h1
      simp only [Run.pure, Outcome.done.injEq, Prod.mk.injEq] at h6
      rw [← h6.1]; rfl

/-- C9 as amended.  The callback has answered `parent` with `n1` and
`continue = true`; `v` is the non-nil content of a child slot `x` of `n1` (a
single slot or an element of a list), and in every state the callback answers
`v` with an `ExpandedBlockStmt`.
(1) If the slot is not typed `Stmt` (it is typed `*BlockStmt` like the body of
an if statement, or with another pointer type, or `Expr`, `Decl`, `Spec`), the
type assertion of the slot fails and `Rewrite` of the parent returns no tree.
(2) If `x` is a single slot typed `Stmt` (`Init` and `Else` of an if
statement, the statement of a labeled statement, ...), the assertion succeeds:
when `Rewrite` returns for `v`, what it returns is a sentinel and the slot
rewriter stores it in the slot. -/
theorem sentinel_outside_list {σ : Type} (r : Rewriter σ) (fuel : Nat) (parent n1 : Node)
    (s s1 : σ) (hr : r parent s = ((n1, true), s1)) (x : Slot) (hx : x ∈ n1.slots)
    (sh : Shape) (v : Node) (he : (sh, v) ∈ x.elems)
    (hv : v.isNil = false) (hsent : ∀ st, (r v st).1.1.isExpanded = true) :
    (sh ≠ .iface .Stmt → ∀ out, Rewrite r (fuel + 1) parent s ≠ .done out) ∧
    (x = .one (.iface .Stmt) v → ∀ st y st1, Rewrite r fuel v st = .done (y, st1) →
      y.isExpanded = true ∧
        rewriteSlot (Rewrite r fuel) x st = .done (.one (.iface .Stmt) y, st1)) := by
  refine ⟨fun hs => ?_, fun hs st y st1 h => ?_⟩
  · exact Rewrite_never_of_slot hr hx he (arg_of_not_nil sh hv) (fun st y st1 h =>
      accepts_expanded (slots_declared n1 x hx (sh, v) he) hs (Rewrite_expanded (hsent st) h))
  · have hy := Rewrite_expanded (hsent st) h
    refine ⟨hy, ?_⟩
    subst hs
    have h1 : rewriteOne (.iface .Stmt) (Rewrite r fuel) v st = .done (y, st1) :=
      rewriteStmt_of_done hv h (implements_expanded hy)
    simp only [rewriteSlot, Run.bind_eq, Run.bind_done h1]
    rfl

/-- Witness of C9 as amended: the body of the if statement `if c { } else ;`
is answered with a sentinel; the slot `Body` is typed `*BlockStmt` and
`Rewrite` of the if statement returns no tree. -/
theorem sentinel_outside_list_witness :
    ¬ ∃ out, Rewrite (blockToSentinel : Rewriter Unit) 3
        (.IfStmt {} .nil (.Ident { text := "c" }) (.BlockStmt {} []) (.EmptyStmt {})) () =
      .done out :=
  fun ⟨out, hout⟩ => (sentinel_outside_list (blockToSentinel : Rewriter Unit) 2
    (.IfStmt {} .nil (.Ident { text := "c" }) (.BlockStmt {} []) (.EmptyStmt {}))
    (.IfStmt {} .nil (.Ident { text := "c" }) (.BlockStmt {} []) (.EmptyStmt {})) () () rfl
    (.one (.ptr .BlockStmt) (.BlockStmt {} []))
    (List.Mem.tail _ (List.Mem.tail _ (List.Mem.head _)))
    (.ptr .BlockStmt) (.BlockStmt {} []) (List.Mem.head _) rfl
    (fun _ => rfl)).1 (fun h => by cases h) out hout

/-! ## Slots under a pure callback -/

theorem kind_of_localOK {n : Node} (h : n.localOK = true) : n.kind.isSome = true := by
  simp only [Node.localOK, Bool.and_eq_true] at h; exact h.1

/-- Under a pure callback that respects an invariant, a slot whose content is
in the invariant is rewritten to its content filled with the result. -/
theorem rewriteOne_ofFun {σ : Type} (p : Node → Node × Bool) (Inv : Node → Prop) (μ : Node → Nat)
    (hp : ∀ n, Inv n → (p n).1.localOK = true ∧
      (∀ sh : Shape, sh.declared = true → sh.accepts n = true → sh.accepts (p n).1 = true) ∧
      ((p n).2 = true → ∀ c ∈ (p n).1.children, Inv c ∧ μ c < μ n))
    (fuel : Nat) (sh : Shape) (v : Node) (s : σ) (hd : sh.declared = true)
    (hh : sh.holds v = true) (hI : ∀ c, sh.arg v = some c → Inv c ∧ μ c < fuel) :
    rewriteOne sh (Rewrite (Rewriter.ofFun p) fuel) v s =
        .done (sh.fill (rewriteFun p fuel) v, s) ∧
      (sh.fill (rewriteFun p fuel) v).isNil = v.isNil := by
  constructor
  · apply rewriteOne_fill
    intro c hc
    obtain ⟨hIc, hμ⟩ := hI c hc
    obtain ⟨h1, h2⟩ := rewriteFun_spec p Inv μ hp fuel c s hIc hμ
    obtain ⟨rfl, -, hacc⟩ := arg_of_holds hh hc
    have hk := kind_of_localOK (hp c hIc).1
    refine ⟨h1, ?_⟩
    rw [accepts_congr sh h2 (h2 ▸ hk)]
    exact (hp c hIc).2.1 sh hd hacc
  · unfold Shape.fill
    cases hc : sh.arg v with
    | none =>
      rfl
    | some c =>
      obtain ⟨hIc, hμ⟩ := hI c hc
      obtain ⟨-, h2⟩ := rewriteFun_spec (σ := Unit) p Inv μ hp fuel c () hIc hμ
      obtain ⟨rfl, hkc, -⟩ := arg_of_holds hh hc
      have hk := kind_of_localOK (hp c hIc).1
      simp only []
      rw [stored_of_kind sh (h2 ▸ hk), isNil_of_kind (h2 ▸ hk), isNil_of_kind hkc]

/-! ## C8: blank range cleanup -/

theorem simpleRangeStep_cases (n : Node) :
    simpleRangeStep n = (n, true) ∨
      ∃ a k v x b, n = .RangeStmt a k v x b ∧
        ((v.isNil || isBlank v) && isBlank k) = true ∧
        simpleRangeStep n = (.RangeStmt a .nil .nil x b, true) := by
  unfold simpleRangeStep
  split
  · rename_i a k v x b
    by_cases h : ((v.isNil || isBlank v) && isBlank k) = true
    · exact Or.inr ⟨a, k, v, x, b, rfl, h, by simp [h]⟩
    · exact Or.inl (by simp [h])
  · exact Or.inl rfl

theorem range_children_subset {a : Attr} {k v x b c : Node}
    (hc : c ∈ (Node.RangeStmt a .nil .nil x b).children) :
    c ∈ (Node.RangeStmt a k v x b).children := by
  obtain ⟨slot, hs, hcs⟩ := mem_children.1 hc
  simp only [Node.slots, List.mem_cons, List.mem_singleton, List.mem_nil_iff, or_false] at hs
  rcases hs with rfl | rfl | rfl | rfl
  · simp [Slot.args, Shape.arg, Node.isNil] at hcs
  · simp [Slot.args, Shape.arg, Node.isNil] at hcs
  · exact mem_children.2 ⟨_, by simp [Node.slots], hcs⟩
  · exact mem_children.2 ⟨_, by simp [Node.slots], hcs⟩

theorem range_localOK {a : Attr} {k v x b : Node}
    (h : (Node.RangeStmt a k v x b).localOK = true) :
    (Node.RangeStmt a .nil .nil x b).localOK = true := by
  simp only [Node.localOK, Node.kind, Node.slots, List.all_cons, List.all_nil, Slot.ok,
    Shape.holds, Bool.and_eq_true, Bool.or_eq_true, Option.isSome_some, Node.isNil,
    Bool.and_true, true_and] at h ⊢
  exact ⟨Or.inl trivial, Or.inl trivial, h.2.2.1, h.2.2.2⟩

/-- The rewriter of `simple_range` respects well-typed trees, with the size as
measure. -/
theorem simpleRange_respects (n : Node) (hn : n.wellTyped = true) :
    (simpleRangeStep n).1.localOK = true ∧
      (∀ sh : Shape, sh.declared = true → sh.accepts n = true →
        sh.accepts (simpleRangeStep n).1 = true) ∧
      ((simpleRangeStep n).2 = true →
        ∀ c ∈ (simpleRangeStep n).1.children, c.wellTyped = true ∧ c.size < n.size) := by
  rcases simpleRangeStep_cases n with h | ⟨a, k, v, x, b, rfl, -, h⟩
  · rw [h]
    exact ⟨localOK_root hn, fun _ _ h => h, fun _ c hc => wellTyped_child hn hc⟩
  · rw [h]
    refine ⟨range_localOK (localOK_root hn), fun sh _ hacc => ?_, fun _ c hc => ?_⟩
    · have hcg : sh.accepts (Node.RangeStmt a k v x b) =
          sh.accepts (Node.RangeStmt a .nil .nil x b) := accepts_congr sh rfl rfl
      exact hcg ▸ hacc
    · exact wellTyped_child hn (range_children_subset hc)

theorem rewriteExpr_nil {σ : Type} (rw : Node → Run σ Node) : rewriteExpr rw .nil = Run.pure .nil := by
  simp [rewriteExpr, rewriteIface, Node.isNil]

/-- Every slot of a well-typed node is rewritten without failure by `Rewrite`
under the rewriter of `simple_range`, and a slot is nil afterwards exactly if
it was nil before. -/
theorem simpleRange_slot {σ : Type} {t : Node} (hwt : t.wellTyped = true) {fuel : Nat}
    (hf : t.size ≤ fuel) (x0 : Slot) (hx0 : x0 ∈ t.slots) {sh : Shape} {v : Node}
    (he : (sh, v) ∈ x0.elems) (s : σ) :
    rewriteOne sh (Rewrite (simple_range : Rewriter σ) fuel) v s =
        .done (sh.fill (rewriteFun simpleRangeStep fuel) v, s) ∧
      (sh.fill (rewriteFun simpleRangeStep fuel) v).isNil = v.isNil :=
  rewriteOne_ofFun simpleRangeStep (fun n => n.wellTyped = true) Node.size simpleRange_respects
    fuel sh v s (slots_declared t x0 hx0 (sh, v) he)
    (holds_of_localOK (localOK_root hwt) hx0 he)
    (fun c hc => by
      have := wellTyped_child hwt (mem_children_of_elem hx0 he hc)
      exact ⟨this.1, by omega⟩)

/-- C8 (blank range cleanup).  For a well-typed range statement and a budget
above its size, under the rewriter of `simple_range`:
(1) if `Key` is the blank identifier and `Value` is nil or the blank
identifier, `Rewrite` does not fail and returns the range statement with
`Key = nil`, `Value = nil` and with `X` and `Body` rewritten;
(2) in that case the calls made are the call on the range statement, then the
calls made for `X`, then those made for `Body`, then the call with nil: no call
is made for the nulled slots;
(3) otherwise `Rewrite` does not fail and returns the range statement with its
four slots rewritten: `Key` and `Value` are nil afterwards only if they were
nil before, and a `Key` or `Value` that is an identifier is unchanged. -/
theorem blank_range_cleanup {σ : Type} (a : Attr) (k v x b : Node) (fuel : Nat) (s : σ)
    (hwt : (Node.RangeStmt a k v x b).wellTyped = true)
    (hf : (Node.RangeStmt a k v x b).size ≤ fuel) :
    (isBlank k = true → (v.isNil = true ∨ isBlank v = true) →
      (∃ x1 b1,
        Rewrite (simple_range : Rewriter σ) (fuel + 1) (.RangeStmt a k v x b) s =
          .done (.RangeStmt a .nil .nil x1 b1, s) ∧
        rewriteExpr (Rewrite (simple_range : Rewriter σ) fuel) x s = .done (x1, s) ∧
        rewriteBlockStmt (Rewrite (simple_range : Rewriter σ) fuel) b s = .done (b1, s)) ∧
      (∀ log : List Call,
        Rewrite (recording (simple_range : Rewriter σ)) (fuel + 1) (.RangeStmt a k v x b)
            (s, log) =
          Run.bind (rewriteExpr (Rewrite (recording (simple_range : Rewriter σ)) fuel) x)
            (fun x1 => Run.bind
              (rewriteBlockStmt (Rewrite (recording (simple_range : Rewriter σ)) fuel) b)
              (fun b1 => Run.bind ((recording (simple_range : Rewriter σ)).call .nil)
                (fun _ => Run.pure (.RangeStmt a .nil .nil x1 b1))))
            (s, log ++ [{ arg := .RangeStmt a k v x b, ret := .RangeStmt a .nil .nil x b,
                          cont := true }]))) ∧
    (¬ (isBlank k = true ∧ (v.isNil = true ∨ isBlank v = true)) →
      ∃ k1 v1 x1 b1,
        Rewrite (simple_range : Rewriter σ) (fuel + 1) (.RangeStmt a k v x b) s =
          .done (.RangeStmt a k1 v1 x1 b1, s) ∧
        rewriteExpr (Rewrite (simple_range : Rewriter σ) fuel) k s = .done (k1, s) ∧
        rewriteExpr (Rewrite (simple_range : Rewriter σ) fuel) v s = .done (v1, s) ∧
        rewriteExpr (Rewrite (simple_range : Rewriter σ) fuel) x s = .done (x1, s) ∧
        rewriteBlockStmt (Rewrite (simple_range : Rewriter σ) fuel) b s = .done (b1, s) ∧
        k1.isNil = k.isNil ∧ v1.isNil = v.isNil ∧
        (∀ ak, k = .Ident ak → k1 = k) ∧ (∀ av, v = .Ident av → v1 = v)) := by
  have hk := simpleRange_slot hwt hf (.one (.iface .Expr) k) (by simp [Node.slots])
    (List.Mem.head _) s
  have hv := simpleRange_slot hwt hf (.one (.iface .Expr) v) (by simp [Node.slots])
    (List.Mem.head _) s
  have hx := simpleRange_slot hwt hf (.one (.iface .Expr) x) (by simp [Node.slots])
    (List.Mem.head _) s
  have hb := simpleRange_slot hwt hf (.one (.ptr .BlockStmt) b) (by simp [Node.slots])
    (List.Mem.head _) s
  refine ⟨fun hkb hvb => ?_, fun hno => ?_⟩
  · have hstep : simpleRangeStep (.RangeStmt a k v x b) = (.RangeStmt a .nil .nil x b, true) := by
      have : ((v.isNil || isBlank v) && isBlank k) = true := by
        rcases hvb with h | h <;> simp [h, hkb]
      simp [simpleRangeStep, this]
    refine ⟨⟨_, _, ?_, hx.1, hb.1⟩, fun log => ?_⟩
    · have hr : (simple_range : Rewriter σ) (.RangeStmt a k v x b) s =
          ((.RangeStmt a .nil .nil x b, true), s) := by
        simp [simple_range, Rewriter.ofFun, hstep]
      rw [Rewrite_cont fuel hr]
      simp only [rewriteChildren, rewriteExpr_nil, Run.bind_eq, Run.pure_bind, Run.bind_assoc]
      rw [Run.bind_done (show rewriteExpr _ x s = _ from hx.1),
        Run.bind_done (show rewriteBlockStmt _ b s = _ from hb.1)]
      rfl
    · have hr : recording (simple_range : Rewriter σ) (.RangeStmt a k v x b) (s, log) =
          ((.RangeStmt a .nil .nil x b, true),
            (s, log ++ [{ arg := .RangeStmt a k v x b, ret := .RangeStmt a .nil .nil x b,
                          cont := true }])) := by
        simp [recording, simple_range, Rewriter.ofFun, hstep]
      rw [Rewrite_cont fuel hr]
      simp only [rewriteChildren, rewriteExpr_nil, Run.bind_eq, Run.pure_bind, Run.bind_assoc]
  · have hstep : simpleRangeStep (.RangeStmt a k v x b) = (.RangeStmt a k v x b, true) := by
      have : ((v.isNil || isBlank v) && isBlank k) = false := by
        cases h1 : isBlank k
        · simp
        · cases h2 : v.isNil
          · cases h3 : isBlank v
            · simp
            · exact absurd ⟨h1, Or.inr h3⟩ hno
          · exact absurd ⟨h1, Or.inl h2⟩ hno
      simp [simpleRangeStep, this]
    have hr : (simple_range : Rewriter σ) (.RangeStmt a k v x b) s =
        ((.RangeStmt a k v x b, true), s) := by
      simp [simple_range, Rewriter.ofFun, hstep]
    have hid : ∀ (e e1 : Node) (ae : Attr), e = .Ident ae →
        rewriteExpr (Rewrite (simple_range : Rewriter σ) fuel) e s = .done (e1, s) → e1 = e := by
      intro e e1 ae hae h
      subst hae
      cases fuel with
      | zero =>
        have hpos : 0 < (Node.RangeStmt a k v x b).size :=
          size_pos_of_kind (show (Node.RangeStmt a k v x b).kind.isSome = true from rfl)
        omega
      | succ fuel =>
        have h1 : rewriteExpr (Rewrite (simple_range : Rewriter σ) (fuel + 1)) (.Ident ae) s =
            .done (.Ident ae, s) := rfl
        rw [h1] at h
        simp only [Outcome.done.injEq, Prod.mk.injEq] at h
        exact h.1.symm
    refine ⟨_, _, _, _, ?_, hk.1, hv.1, hx.1, hb.1, hk.2, hv.2,
      fun ak hak => hid k _ ak hak hk.1, fun av hav => hid v _ av hav hv.1⟩
    rw [Rewrite_cont fuel hr]
    simp only [rewriteChildren, Run.bind_eq, Run.pure_bind, Run.bind_assoc]
    rw [Run.bind_done (show rewriteExpr _ k s = _ from hk.1),
      Run.bind_done (show rewriteExpr _ v s = _ from hv.1),
      Run.bind_done (show rewriteExpr _ x s = _ from hx.1),
      Run.bind_done (show rewriteBlockStmt _ b s = _ from hb.1)]
    rfl

/-- Witness of C8: `for _, _ = range xs { }`. -/
theorem blank_range_cleanup_witness :
    ∃ x1 b1,
      Rewrite (simple_range : Rewriter Unit) (5 + 1)
          (.RangeStmt {} (.Ident { text := "_" }) (.Ident { text := "_" })
            (.Ident { text := "xs" }) (.BlockStmt {} [])) () =
        .done (.RangeStmt {} .nil .nil x1 b1, ()) ∧
      rewriteExpr (Rewrite (simple_range : Rewriter Unit) 5) (.Ident { text := "xs" }) () =
        .done (x1, ()) ∧
      rewriteBlockStmt (Rewrite (simple_range : Rewriter Unit) 5) (.BlockStmt {} []) () =
        .done (b1, ()) :=
  ((blank_range_cleanup {} (.Ident { text := "_" }) (.Ident { text := "_" })
    (.Ident { text := "xs" }) (.BlockStmt {} []) 5 () (by decide) (by decide)).1
      (by decide) (Or.inr (by decide))).1

/-! ## C1: the callback of `ExampleRewrite` -/

theorem exampleStep_cases (n : Node) :
    (n.isMultiDefine = false ∧ exampleStep n = (n, true)) ∨
      ∃ a lhs rhs, n = .AssignStmt a lhs rhs ∧ isMultiDefine a lhs rhs = true ∧
        exampleStep n = (.ExpandedBlockStmt {} (expandAssign lhs rhs), true) := by
  unfold exampleStep
  split
  · rename_i a lhs rhs
    by_cases h : isMultiDefine a lhs rhs = true
    · exact Or.inr ⟨a, lhs, rhs, rfl, h, by simp [h]⟩
    · exact Or.inl ⟨by simpa [Node.isMultiDefine] using h, by simp [h]⟩
  · rename_i h
    refine Or.inl ⟨?_, rfl⟩
    cases n <;> first
      | rfl
      | exact absurd rfl (h _ _ _)

theorem mem_expandAssign {lhs rhs : List Node} {c : Node} (hc : c ∈ expandAssign lhs rhs) :
    ∃ l r, l ∈ lhs ∧ r ∈ rhs ∧ c = .AssignStmt { tok := DEFINE } [l] [r] := by
  induction lhs generalizing rhs with
  | nil => simp [expandAssign] at hc
  | cons l lhs ih =>
    cases rhs with
    | nil => simp [expandAssign] at hc
    | cons r rhs =>
      simp only [expandAssign, List.zipWith_cons_cons, List.mem_cons] at hc
      rcases hc with rfl | h
      · exact ⟨l, r, List.mem_cons_self _ _, List.mem_cons_self _ _, rfl⟩
      · obtain ⟨l1, r1, h1, h2, h3⟩ := ih h
        exact ⟨l1, r1, List.mem_cons_of_mem _ h1, List.mem_cons_of_mem _ h2, h3⟩

/-- A single assignment built by the callback from a parser-made assignment is
parser-made, is not expanded again and is not larger than the assignment. -/
theorem single_assign_parsed {a : Attr} {lhs rhs : List Node} {l r : Node}
    (hp : (Node.AssignStmt a lhs rhs).parsed = true) (hl : l ∈ lhs) (hr : r ∈ rhs) :
    (Node.AssignStmt { tok := DEFINE } [l] [r]).parsed = true ∧
      (Node.AssignStmt { tok := DEFINE } [l] [r]).size ≤ (Node.AssignStmt a lhs rhs).size := by
  simp only [Node.parsed, Bool.and_eq_true] at hp
  obtain ⟨hwt, hns⟩ := hp
  have hloc := localOK_root hwt
  have hk : (Node.AssignStmt a lhs rhs).kind.isSome = true := rfl
  have hxl : Slot.each (.iface .Expr) lhs ∈ (Node.AssignStmt a lhs rhs).slots := by
    simp [Node.slots]
  have hxr : Slot.each (.iface .Expr) rhs ∈ (Node.AssignStmt a lhs rhs).slots := by
    simp [Node.slots]
  have hel : (Shape.iface .Expr, l) ∈ (Slot.each (.iface .Expr) lhs).elems := by
    simp only [Slot.elems, List.mem_map]; exact ⟨l, hl, rfl⟩
  have her : (Shape.iface .Expr, r) ∈ (Slot.each (.iface .Expr) rhs).elems := by
    simp only [Slot.elems, List.mem_map]; exact ⟨r, hr, rfl⟩
  simp only [Node.wellTyped, Bool.and_eq_true] at hwt
  have h1 := all_subnodes_of_elem _ hk hwt.2 hxl hel
  have h2 := all_subnodes_of_elem _ hk hwt.2 hxr her
  have h3 := all_subnodes_of_elem _ hk hns hxl hel
  have h4 := all_subnodes_of_elem _ hk hns hxr her
  have h5 := holds_of_localOK hloc hxl hel
  have h6 := holds_of_localOK hloc hxr her
  have h7 := length_subnodes_le_of_mem hl
  have h8 := length_subnodes_le_of_mem hr
  refine ⟨?_, ?_⟩
  · simp only [Node.parsed, Node.wellTyped, Node.noSentinel, Node.subnodes, subnodesList,
      List.append_nil, List.all_cons, List.all_append, Bool.and_eq_true, Node.kind,
      Option.isSome_some, Node.isExpanded, Bool.not_false, true_and]
    refine ⟨⟨?_, h1, h2⟩, h3, h4⟩
    simp only [Node.localOK, Node.kind, Option.isSome_some, Node.slots, List.all_cons,
      List.all_nil, Slot.ok, Bool.and_true, Bool.true_and, Bool.and_eq_true]
    exact ⟨h5, h6⟩
  · simp only [Node.size, Node.subnodes, subnodesList, List.append_nil, List.length_cons,
      List.length_append]
    omega

theorem expanded_localOK (lhs rhs : List Node) :
    (Node.ExpandedBlockStmt {} (expandAssign lhs rhs)).localOK = true := by
  simp only [Node.localOK, Node.kind, Option.isSome_some, Node.slots, List.all_cons,
    List.all_nil, Slot.ok, Bool.and_true, Bool.true_and, List.all_eq_true]
  intro c hc
  obtain ⟨l, r, -, -, rfl⟩ := mem_expandAssign hc
  rfl

theorem mem_of_mem_children_expanded {a : Attr} {l : List Node} {c : Node}
    (hc : c ∈ (Node.ExpandedBlockStmt a l).children) : c ∈ l := by
  obtain ⟨slot, hs, hcs⟩ := mem_children.1 hc
  simp only [Node.slots, List.mem_singleton] at hs
  subst hs
  simp only [Slot.args, List.mem_filterMap, Shape.arg] at hcs
  obtain ⟨v, hv, h⟩ := hcs
  by_cases hn : v.isNil = true
  · simp [hn] at h
  · simp only [hn] at h
    simp only [Bool.false_eq_true, if_false, Option.some.injEq] at h
    exact h ▸ hv

theorem accepts_assign_expanded {sh : Shape} {a b : Attr} {lhs rhs l : List Node}
    (hd : sh.declared = true) (h : sh.accepts (.AssignStmt a lhs rhs) = true) :
    sh.accepts (.ExpandedBlockStmt b l) = true := by
  cases sh with
  | ptr k =>
    cases k <;> simp [Shape.declared, slotKinds] at hd <;>
      exact absurd (show false = true from h) (by decide)
  | reqPtr k =>
    cases k <;> simp [Shape.declared, slotKinds] at hd <;>
      exact absurd (show false = true from h) (by decide)
  | iface i =>
    cases i <;> first
      | rfl
      | exact absurd (show false = true from h) (by decide)
  | reqIface i =>
    cases i <;> first
      | rfl
      | exact absurd (show false = true from h) (by decide)

theorem exampleMeasure_le (n : Node) : exampleMeasure n ≤ 2 * n.size + 1 := by
  unfold exampleMeasure; split <;> omega

/-- The callback of `ExampleRewrite` respects parser-made trees, with the
measure `exampleMeasure`. -/
theorem example_respects (n : Node) (hn : n.parsed = true) :
    (exampleStep n).1.localOK = true ∧
      (∀ sh : Shape, sh.declared = true → sh.accepts n = true →
        sh.accepts (exampleStep n).1 = true) ∧
      ((exampleStep n).2 = true →
        ∀ c ∈ (exampleStep n).1.children, c.parsed = true ∧ exampleMeasure c < exampleMeasure n) := by
  have hwt : n.wellTyped = true := by
    simp only [Node.parsed, Bool.and_eq_true] at hn; exact hn.1
  rcases exampleStep_cases n with ⟨hm, h⟩ | ⟨a, lhs, rhs, rfl, hm, h⟩
  · rw [h]
    refine ⟨localOK_root hwt, fun _ _ h => h, fun _ c hc => ?_⟩
    have := parsed_child hn hc
    refine ⟨this.1, ?_⟩
    have h1 := exampleMeasure_le c
    simp only [exampleMeasure, hm] at h1 ⊢
    simp only [Bool.false_eq_true, if_false]
    omega
  · rw [h]
    refine ⟨expanded_localOK lhs rhs, fun sh hd hacc => accepts_assign_expanded hd hacc,
      fun _ c hc => ?_⟩
    obtain ⟨l, r, hl, hr, rfl⟩ := mem_expandAssign (mem_of_mem_children_expanded hc)
    obtain ⟨h1, h2⟩ := single_assign_parsed hn hl hr
    refine ⟨h1, ?_⟩
    have hm1 : (Node.AssignStmt a lhs rhs).isMultiDefine = true := hm
    have hm2 : (Node.AssignStmt { tok := DEFINE } [l] [r]).isMultiDefine = false := by
      simp [Node.isMultiDefine, isMultiDefine]
    simp only [exampleMeasure, hm1, hm2, if_true]
    simp only [Bool.false_eq_true, if_false]
    omega

theorem example_children (n : Node) (hn : n.parsed = true) :
    (exampleStep n).2 = true →
      ∀ c ∈ (exampleStep n).1.children, c.parsed = true ∧ exampleMeasure c < exampleMeasure n :=
  (example_respects n hn).2.2

/-- What `Rewrite` returns under the callback of `ExampleRewrite`. -/
theorem exampleResult_spec {σ : Type} (t : Node) (ht : t.parsed = true) (fuel : Nat) (s : σ)
    (hf : exampleMeasure t < fuel) :
    Rewrite (exampleRewriter : Rewriter σ) fuel t s = .done (exampleResult t, s) ∧
      (exampleResult t).kind = (exampleStep t).1.kind :=
  rewriteResult_spec exampleStep (fun n => n.parsed = true) exampleMeasure example_respects
    t ht fuel s hf

theorem exampleResult_unfold (t : Node) (ht : t.parsed = true) :
    exampleResult t =
      if (exampleStep t).2 then
        (exampleStep t).1.withSlots ((exampleStep t).1.slots.map (Slot.fill exampleResult))
      else (exampleStep t).1 :=
  rewriteResult_unfold exampleStep (fun n => n.parsed = true) exampleMeasure example_children
    t ht

theorem fill_iface_eq_onSlot (i : Iface) (G : Node → Node) (v : Node) :
    (Shape.iface i).fill G v = onSlot G v := by
  unfold Shape.fill onSlot Shape.arg
  cases v.isNil <;> rfl

theorem isExpanded_eq_kind (y : Node) :
    y.isExpanded = (y.kind == some .ExpandedBlockStmt) := by
  cases y <;> rfl

theorem examplePiece_of_not_multi (G : Node → Node) {v : Node} (hv : v.isNil = false)
    (hm : v.isMultiDefine = false) : examplePiece G v = [G v] := by
  cases v with
  | nil => simp [Node.isNil] at hv
  | AssignStmt a lhs rhs =>
    simp only [Node.isMultiDefine] at hm
    simp [examplePiece, hm]
  | _ => rfl

/-- The result for a single assignment built by the callback. -/
theorem exampleResult_single {a : Attr} {lhs rhs : List Node} {l r : Node}
    (hp : (Node.AssignStmt a lhs rhs).parsed = true) (hl : l ∈ lhs) (hr : r ∈ rhs) :
    exampleResult (.AssignStmt { tok := DEFINE } [l] [r]) =
      .AssignStmt { tok := DEFINE } [onSlot exampleResult l] [onSlot exampleResult r] := by
  rw [exampleResult_unfold _ (single_assign_parsed hp hl hr).1]
  have hs : exampleStep (.AssignStmt { tok := DEFINE } [l] [r]) =
      (.AssignStmt { tok := DEFINE } [l] [r], true) := by
    simp [exampleStep, isMultiDefine]
  rw [hs]
  simp [Node.slots, Node.withSlots, Slot.fill, slotList, Slot.list, fill_iface_eq_onSlot]

theorem flatten_spliced_expandAssign (G : Node → Node) (f : Node → Node → Node) :
    ∀ lhs rhs : List Node,
      (∀ l ∈ lhs, ∀ r ∈ rhs, spliced (onSlot G (.AssignStmt { tok := DEFINE } [l] [r])) =
        [.AssignStmt { tok := DEFINE } [f l l] [f r r]]) →
      ((expandAssign lhs rhs).map (fun c => spliced (onSlot G c))).flatten =
        expandAssign (lhs.map (fun l => f l l)) (rhs.map (fun r => f r r)) := by
  intro lhs
  induction lhs with
  | nil => intro rhs _; simp [expandAssign]
  | cons l lhs ih =>
    intro rhs h
    cases rhs with
    | nil => simp [expandAssign]
    | cons r rhs =>
      have h1 := h l (List.mem_cons_self _ _) r (List.mem_cons_self _ _)
      have h2 := ih rhs (fun l1 hl1 r1 hr1 =>
        h l1 (List.mem_cons_of_mem _ hl1) r1 (List.mem_cons_of_mem _ hr1))
      simp only [expandAssign, List.zipWith_cons_cons, List.map_cons, List.flatten_cons] at h2 ⊢
      rw [h1, h2]
      rfl

/-- The result for an assignment that the callback expands: the sentinel with
the single assignments, both sides rewritten. -/
theorem exampleResult_multi {a : Attr} {lhs rhs : List Node}
    (hp : (Node.AssignStmt a lhs rhs).parsed = true) (hm : isMultiDefine a lhs rhs = true) :
    exampleResult (.AssignStmt a lhs rhs) =
      .ExpandedBlockStmt {}
        (expandAssign (lhs.map (onSlot exampleResult)) (rhs.map (onSlot exampleResult))) := by
  rw [exampleResult_unfold _ hp]
  have hs : exampleStep (.AssignStmt a lhs rhs) =
      (.ExpandedBlockStmt {} (expandAssign lhs rhs), true) := by
    simp [exampleStep, hm]
  rw [hs]
  simp only [if_true, Node.slots, List.map_cons, List.map_nil, Slot.fill, Node.withSlots, slotList,
    List.getElem?_cons_zero, Slot.list, fill_iface_eq_onSlot]
  congr 1
  apply flatten_spliced_expandAssign exampleResult (fun l _ => onSlot exampleResult l)
  intro l hl r hr
  have : onSlot exampleResult (.AssignStmt { tok := DEFINE } [l] [r]) =
      exampleResult (.AssignStmt { tok := DEFINE } [l] [r]) := rfl
  rw [this, exampleResult_single hp hl hr]
  rfl

/-- What an element of a parser-made statement list contributes to the list
after `Rewrite`. -/
theorem spliced_eq_examplePiece {a : Attr} {l : List Node} (hp : (Node.BlockStmt a l).parsed = true)
    {v : Node} (hv : v ∈ l) :
    spliced ((Shape.iface .Stmt).fill exampleResult v) = examplePiece exampleResult v := by
  rw [fill_iface_eq_onSlot]
  unfold onSlot
  cases hn : v.isNil with
  | true => rw [isNil_iff.1 hn]; rfl
  | false =>
    simp only [Bool.false_eq_true, if_false]
    have hx : Slot.stmts l ∈ (Node.BlockStmt a l).slots := by simp [Node.slots]
    have he : (Shape.iface .Stmt, v) ∈ (Slot.stmts l).elems := by
      simp only [Slot.elems, List.mem_map]; exact ⟨v, hv, rfl⟩
    have hc : v ∈ (Node.BlockStmt a l).children :=
      mem_children_of_elem hx he (arg_of_not_nil _ hn)
    have hvp := (parsed_child hp hc).1
    rcases exampleStep_cases v with ⟨hm, hs⟩ | ⟨a1, lhs, rhs, rfl, hm, -⟩
    · rw [examplePiece_of_not_multi _ hn hm]
      apply spliced_of_not_expanded
      have hk := (exampleResult_spec (σ := Unit) v hvp _ () (Nat.lt_succ_self _)).2
      rw [hs] at hk
      have hne : v.isExpanded = false := by
        simp only [Node.parsed, Bool.and_eq_true] at hp
        exact not_expanded_of_elem (show (Node.BlockStmt a l).kind.isSome = true from rfl) hp.2 hx he
      rw [isExpanded_eq_kind] at hne ⊢
      rw [hk]; exact hne
    · rw [exampleResult_multi hvp hm]
      simp [spliced, examplePiece, hm]

theorem length_expandAssign (lhs rhs : List Node) (h : lhs.length = rhs.length) :
    (expandAssign lhs rhs).length = lhs.length := by
  simp [expandAssign, h]

/-- Where the callback of `ExampleRewrite` expands nothing, `Rewrite` changes
nothing. -/
theorem exampleResult_eq_self : ∀ (m : Nat) (t : Node), t.size ≤ m → t.parsed = true →
    t.noMultiDefine = true → exampleResult t = t := by
  intro m
  induction m with
  | zero =>
    intro t hs hp _
    have hwt : t.wellTyped = true := by
      simp only [Node.parsed, Bool.and_eq_true] at hp; exact hp.1
    have := size_pos_of_kind (kind_of_localOK (localOK_root hwt))
    omega
  | succ m ih =>
    intro t hs hp hno
    have hwt : t.wellTyped = true := by
      simp only [Node.parsed, Bool.and_eq_true] at hp; exact hp.1
    have hk := kind_of_localOK (localOK_root hwt)
    have hself : t.isMultiDefine = false := by
      have := List.all_eq_true.1 hno t (self_mem_subnodes hk)
      simpa using this
    have hstep : exampleStep t = (t, true) := by
      rcases exampleStep_cases t with ⟨-, h⟩ | ⟨a, lhs, rhs, rfl, hm, -⟩
      · exact h
      · rw [show (Node.AssignStmt a lhs rhs).isMultiDefine = isMultiDefine a lhs rhs from rfl,
          hm] at hself
        exact absurd hself (by decide)
    rw [exampleResult_unfold t hp, hstep]
    simp only [if_true]
    apply slots_fill_id hp
    intro c hc
    obtain ⟨hcp, hcs⟩ := parsed_child hp hc
    refine ih c (by omega) hcp ?_
    obtain ⟨x, hx, hcx⟩ := mem_children.1 hc
    obtain ⟨⟨sh, v⟩, he, ha⟩ := mem_args.1 hcx
    obtain ⟨rfl, -, -⟩ := arg_of_holds (holds_of_localOK (localOK_root hwt) hx he) ha
    exact all_subnodes_of_elem _ hk hno hx he

theorem flat_of_kind {t : Node} (hk : t.kind.isSome = true) (hf : t.flat = true) :
    (subnodesList ((t.slots.map Slot.contents).flatten)).all (fun n => !n.isMultiDefine) = true := by
  unfold Node.flat at hf
  rw [subnodes_eq_slots t hk] at hf
  simpa using hf

/-- The content of a slot of a flat parser-made node is left as it is. -/
theorem onSlot_eq_self_of_flat {t : Node} (hp : t.parsed = true) (hf : t.flat = true)
    {x : Slot} (hx : x ∈ t.slots) {sh : Shape} {v : Node} (he : (sh, v) ∈ x.elems) :
    onSlot exampleResult v = v := by
  unfold onSlot
  cases hn : v.isNil with
  | true => rfl
  | false =>
    simp only [Bool.false_eq_true, if_false]
    have hwt : t.wellTyped = true := by
      simp only [Node.parsed, Bool.and_eq_true] at hp; exact hp.1
    have hk := kind_of_localOK (localOK_root hwt)
    have hc : v ∈ t.children := mem_children_of_elem hx he (arg_of_not_nil sh hn)
    have hvp := (parsed_child hp hc).1
    refine exampleResult_eq_self v.size v (Nat.le_refl _) hvp ?_
    have h1 := flat_of_kind hk hf
    rw [all_subnodesList] at h1
    exact List.all_eq_true.1 h1 v (mem_contents_of_elem hx he)

theorem map_eq_self {f : Node → Node} {l : List Node} (h : ∀ v ∈ l, f v = v) : l.map f = l := by
  induction l with
  | nil => rfl
  | cons x rest ih =>
    simp only [List.map_cons]
    rw [h x (List.mem_cons_self _ _), ih (fun v hv => h v (List.mem_cons_of_mem _ hv))]

/-- For a flat statement of a parser-made list what the statement contributes
is what it contributes when nothing inside it is rewritten. -/
theorem examplePiece_eq_plainPiece {a : Attr} {l : List Node}
    (hp : (Node.BlockStmt a l).parsed = true) {v : Node} (hv : v ∈ l) (hf : v.flat = true) :
    examplePiece exampleResult v = plainPiece v := by
  cases hn : v.isNil with
  | true => rw [isNil_iff.1 hn]; rfl
  | false =>
    have hx : Slot.stmts l ∈ (Node.BlockStmt a l).slots := by simp [Node.slots]
    have he : (Shape.iface .Stmt, v) ∈ (Slot.stmts l).elems := by
      simp only [Slot.elems, List.mem_map]; exact ⟨v, hv, rfl⟩
    have hc : v ∈ (Node.BlockStmt a l).children :=
      mem_children_of_elem hx he (arg_of_not_nil _ hn)
    have hvp := (parsed_child hp hc).1
    have hwt : v.wellTyped = true := by
      simp only [Node.parsed, Bool.and_eq_true] at hvp; exact hvp.1
    have hk := kind_of_localOK (localOK_root hwt)
    rcases exampleStep_cases v with ⟨hm, -⟩ | ⟨a1, lhs, rhs, rfl, hm, -⟩
    · rw [examplePiece_of_not_multi _ hn hm]
      have hno : v.noMultiDefine = true := by
        unfold Node.noMultiDefine
        unfold Node.flat at hf
        rw [subnodes_eq_slots v hk] at hf ⊢
        simp only [List.tail_cons] at hf
        simp only [List.all_cons, Bool.and_eq_true, Bool.not_eq_true']
        exact ⟨hm, hf⟩
      rw [exampleResult_eq_self v.size v (Nat.le_refl _) hvp hno]
      cases v with
      | AssignStmt a2 lhs rhs =>
        simp only [Node.isMultiDefine] at hm
        simp [plainPiece, hm]
      | _ => rfl
    · have hl : lhs.map (onSlot exampleResult) = lhs :=
        map_eq_self (fun e hel => onSlot_eq_self_of_flat hvp hf
          (show Slot.each (.iface .Expr) lhs ∈ (Node.AssignStmt a1 lhs rhs).slots by
            simp [Node.slots])
          (show (Shape.iface .Expr, e) ∈ (Slot.each (.iface .Expr) lhs).elems by
            simp only [Slot.elems, List.mem_map]; exact ⟨e, hel, rfl⟩))
      have hr : rhs.map (onSlot exampleResult) = rhs :=
        map_eq_self (fun e hel => onSlot_eq_self_of_flat hvp hf
          (show Slot.each (.iface .Expr) rhs ∈ (Node.AssignStmt a1 lhs rhs).slots by
            simp [Node.slots])
          (show (Shape.iface .Expr, e) ∈ (Slot.each (.iface .Expr) rhs).elems by
            simp only [Slot.elems, List.mem_map]; exact ⟨e, hel, rfl⟩))
      simp [examplePiece, plainPiece, hm, hl, hr]

/-- C1 (expansion in a statement list).  For a block as a parser produces it
and a budget above `exampleMeasure`, `Rewrite` under the callback of
`ExampleRewrite` does not fail and returns the block whose statement list is
the in-order concatenation of, for each original statement, its `n` single
assignments `lhs[i] := rhs[i]` if it is a multi-assign, and the statement
itself otherwise.  `Rewrite` works in place, so the statement itself is the
statement with its children rewritten, `exampleResult st`, the value that
`Rewrite` returns for it (second part), and likewise for `lhs[i]` and
`rhs[i]`.  A multi-assign with `n` targets contributes `n` statements (third
part).  Where no multi-assign lies inside the statements of the list, the list
is literally the concatenation of the single assignments `lhs[i] := rhs[i]` and
of the unchanged other statements (fourth part). -/
theorem example_expansion {σ : Type} (a : Attr) (l : List Node) (fuel : Nat) (s : σ)
    (hp : (Node.BlockStmt a l).parsed = true) (hf : exampleMeasure (.BlockStmt a l) < fuel) :
    Rewrite (exampleRewriter : Rewriter σ) fuel (.BlockStmt a l) s =
        .done (.BlockStmt a ((l.map (examplePiece exampleResult)).flatten), s) ∧
      (∀ (x : Node) (fuel1 : Nat) (s1 : σ), x.parsed = true → exampleMeasure x < fuel1 →
        Rewrite (exampleRewriter : Rewriter σ) fuel1 x s1 = .done (exampleResult x, s1)) ∧
      (∀ (a1 : Attr) (lhs rhs : List Node), isMultiDefine a1 lhs rhs = true →
        (examplePiece exampleResult (.AssignStmt a1 lhs rhs)).length = lhs.length) ∧
      ((∀ st ∈ l, st.flat = true) →
        Rewrite (exampleRewriter : Rewriter σ) fuel (.BlockStmt a l) s =
          .done (.BlockStmt a ((l.map plainPiece).flatten), s)) := by
  have hmain : Rewrite (exampleRewriter : Rewriter σ) fuel (.BlockStmt a l) s =
      .done (.BlockStmt a ((l.map (examplePiece exampleResult)).flatten), s) := by
    rw [(exampleResult_spec _ hp fuel s hf).1, exampleResult_unfold _ hp]
    have hs : exampleStep (.BlockStmt a l) = (.BlockStmt a l, true) := rfl
    rw [hs]
    simp only [if_true, Node.slots, List.map_cons, List.map_nil, Slot.fill, Node.withSlots,
      slotList, List.getElem?_cons_zero, Slot.list]
    congr 4
    apply List.map_congr_left
    intro v hv
    exact spliced_eq_examplePiece hp hv
  refine ⟨hmain, fun x fuel1 s1 hx hf1 => (exampleResult_spec x hx fuel1 s1 hf1).1, ?_, ?_⟩
  · intro a1 lhs rhs hm
    have hlen : lhs.length = rhs.length := by
      simp only [isMultiDefine, Bool.and_eq_true, decide_eq_true_eq] at hm
      exact hm.2
    simp [examplePiece, hm, length_expandAssign, hlen]
  · intro hflat
    rw [hmain]
    congr 4
    apply List.map_congr_left
    intro v hv
    exact examplePiece_eq_plainPiece hp hv (hflat v hv)

/-- Witness of C1: the body of `func() { x, y := 0, 1 }` becomes
`{ x := 0; y := 1 }`. -/
theorem example_expansion_witness :
    Rewrite (exampleRewriter : Rewriter Unit) 14
        (.BlockStmt {} [.AssignStmt { tok := DEFINE }
          [.Ident { text := "x" }, .Ident { text := "y" }]
          [.BasicLit { text := "0" }, .BasicLit { text := "1" }]]) () =
      .done (.BlockStmt {} [
          .AssignStmt { tok := DEFINE } [.Ident { text := "x" }] [.BasicLit { text := "0" }],
          .AssignStmt { tok := DEFINE } [.Ident { text := "y" }] [.BasicLit { text := "1" }]],
        ()) :=
  (example_expansion {} [.AssignStmt { tok := DEFINE }
          [.Ident { text := "x" }, .Ident { text := "y" }]
          [.BasicLit { text := "0" }, .BasicLit { text := "1" }]] 14 () (by decide) (by decide)).2.2.2
    (by decide)

/-! ## Properties that the slot rewriters cannot break by their own panics -/

theorem slotClosed_rewriteOne {σ : Type} {Φ : (α : Type) → Run σ α → Prop}
    (hΦ : Run.SlotClosed Φ) (sh : Shape) (rw : Node → Run σ Node) (v : Node)
    (h : ∀ c, sh.arg v = some c → Φ Node (rw c)) : Φ Node (rewriteOne sh rw v) := by
  rw [rewriteOne_eq]
  cases hc : sh.arg v with
  | none => exact hΦ.pure _ _
  | some c =>
    refine hΦ.bind _ _ _ _ (h c hc) (fun y => ?_)
    by_cases hy : sh.accepts y
    · simp only [hy, if_true]; exact hΦ.pure _ _
    · simp only [hy]; exact hΦ.typeAssertion _

theorem slotClosed_rewriteEach {σ : Type} {Φ : (α : Type) → Run σ α → Prop}
    (hΦ : Run.SlotClosed Φ) (f : Node → Run σ Node) (l : List Node)
    (h : ∀ v ∈ l, Φ Node (f v)) : Φ (List Node) (rewriteEach f l) := by
  induction l with
  | nil => exact hΦ.pure _ _
  | cons x rest ih =>
    simp only [rewriteEach, Run.bind_eq]
    refine hΦ.bind _ _ _ _ (h x (List.mem_cons_self _ _)) (fun y => ?_)
    refine hΦ.bind _ _ _ _ (ih (fun v hv => h v (List.mem_cons_of_mem _ hv))) (fun ys => ?_)
    exact hΦ.pure _ _

theorem slotClosed_rewriteStmtListLoop {σ : Type} {Φ : (α : Type) → Run σ α → Prop}
    (hΦ : Run.SlotClosed Φ) (rw : Node → Run σ Node) (l : List Node)
    (h : ∀ v ∈ l, ∀ c, (Shape.iface .Stmt).arg v = some c → Φ Node (rw c)) :
    ∀ front, Φ (List Node) (rewriteStmtListLoop rw front l) := by
  induction l with
  | nil => intro front; exact hΦ.pure _ _
  | cons x rest ih =>
    intro front
    simp only [rewriteStmtListLoop, Run.bind_eq]
    refine hΦ.bind _ _ _ _ ?_ (fun y => ?_)
    · exact slotClosed_rewriteOne hΦ (.iface .Stmt) rw x (h x (List.mem_cons_self _ _))
    · have ih1 := ih (fun v hv => h v (List.mem_cons_of_mem _ hv))
      split
      · exact ih1 _
      · exact hΦ.nilDereference _
      · exact ih1 _

theorem slotClosed_rewriteSlot {σ : Type} {Φ : (α : Type) → Run σ α → Prop}
    (hΦ : Run.SlotClosed Φ) (rw : Node → Run σ Node) (x : Slot)
    (h : ∀ c ∈ x.args, Φ Node (rw c)) : Φ Slot (rewriteSlot rw x) := by
  cases x with
  | one sh v =>
    simp only [rewriteSlot, Run.bind_eq]
    refine hΦ.bind _ _ _ _ ?_ (fun y => hΦ.pure _ _)
    exact slotClosed_rewriteOne hΦ sh rw v (fun c hc => h c (by simp [Slot.args, hc]))
  | each sh l =>
    simp only [rewriteSlot, Run.bind_eq]
    refine hΦ.bind _ _ _ _ ?_ (fun y => hΦ.pure _ _)
    refine slotClosed_rewriteEach hΦ _ l (fun v hv => ?_)
    exact slotClosed_rewriteOne hΦ sh rw v
      (fun c hc => h c (by simp only [Slot.args, List.mem_filterMap]; exact ⟨v, hv, hc⟩))
  | stmts l =>
    simp only [rewriteSlot, Run.bind_eq]
    refine hΦ.bind _ _ _ _ ?_ (fun y => hΦ.pure _ _)
    refine slotClosed_rewriteStmtListLoop hΦ rw l (fun v hv c hc => ?_) []
    exact h c (by simp only [Slot.args, List.mem_filterMap]; exact ⟨v, hv, hc⟩)

theorem slotClosed_rewriteSlots {σ : Type} {Φ : (α : Type) → Run σ α → Prop}
    (hΦ : Run.SlotClosed Φ) (rw : Node → Run σ Node) (sl : List Slot)
    (h : ∀ c ∈ (sl.map Slot.args).flatten, Φ Node (rw c)) :
    Φ (List Slot) (rewriteSlots rw sl) := by
  induction sl with
  | nil => exact hΦ.pure _ _
  | cons x rest ih =>
    simp only [rewriteSlots, Run.bind_eq]
    refine hΦ.bind _ _ _ _ ?_ (fun y => ?_)
    · exact slotClosed_rewriteSlot hΦ rw x (fun c hc => h c (by simp [hc]))
    · refine hΦ.bind _ _ _ _ (ih (fun c hc => h c ?_)) (fun ys => hΦ.pure _ _)
      simp only [List.map_cons, List.flatten_cons, List.mem_append]
      exact Or.inr hc

/-- On a node that the type switch has a case for, the dispatcher is made of
slot rewriters only. -/
theorem slotClosed_rewriteChildren {σ : Type} {Φ : (α : Type) → Run σ α → Prop}
    (hΦ : Run.SlotClosed Φ) (rw : Node → Run σ Node) (n : Node) (hn : n.handled = true)
    (h : ∀ c ∈ n.children, Φ Node (rw c)) : Φ Node (rewriteChildren rw n) := by
  by_cases hk : n.kind.isSome = true
  · rw [rewriteChildren_eq_slots rw n hk]
    exact hΦ.bind _ _ _ _ (slotClosed_rewriteSlots hΦ rw n.slots h) (fun sl => hΦ.pure _ _)
  · cases n <;> first
      | (exfalso; exact hk rfl)
      | (exfalso; simp [Node.handled] at hn; done)
      | (simp only [rewriteChildren]; split
         · exact hΦ.pure _ _
         · exact hΦ.nilDereference _)

theorem rewriteChildren_unhandled {σ : Type} (rw : Node → Run σ Node) (n : Node)
    (hn : n.handled = false) : rewriteChildren rw n = Run.fail .unexpectedNode := by
  cases n <;> first
    | rfl
    | simp [Node.handled] at hn

/-- The runs that do not end in the panic of the default branch. -/
theorem slotClosed_expected (σ : Type) :
    Run.SlotClosed (fun (α : Type) (m : Run σ α) => ∀ s, m s ≠ .panic .unexpectedNode) where
  pure := by intro α a s h; simp [Run.pure] at h
  typeAssertion := by intro α s h; simp [Run.fail] at h
  nilDereference := by intro α s h; simp [Run.fail] at h
  bind := by
    intro α β x f hx hf s
    unfold Run.bind
    cases h : x s with
    | done v => exact hf v.1 v.2
    | panic p => intro h1; simp only [Outcome.panic.injEq] at h1; subst h1; exact hx s h
    | outOfFuel => simp

/-- The runs whose panic of the default branch, if any, is that of one of the
calls `rw c` in some state. -/
theorem slotClosed_origin {σ : Type} (rw : Node → Run σ Node) (cs : List Node) :
    Run.SlotClosed (fun (α : Type) (m : Run σ α) => ∀ s, m s = .panic .unexpectedNode →
      ∃ c ∈ cs, ∃ st, rw c st = .panic .unexpectedNode) where
  pure := by intro α a s h; simp [Run.pure] at h
  typeAssertion := by intro α s h; simp [Run.fail] at h
  nilDereference := by intro α s h; simp [Run.fail] at h
  bind := by
    intro α β x f hx hf s
    unfold Run.bind
    cases h : x s with
    | done v => exact hf v.1 v.2
    | panic p => intro h1; simp only [Outcome.panic.injEq] at h1; subst h1; exact hx s h
    | outOfFuel => simp

/-! ## C11: the default branch -/

theorem handled_of_kind {n : Node} (h : n.kind.isSome = true) : n.handled = true := by
  cases n <;> first
    | rfl
    | simp [Node.kind] at h

/-- C11 (unknown variant).  (1) When the callback answers a node with `n1` and
`continue = true`, and the type switch has no case for `n1` (the nil interface
or a node type outside the list of cases), `Rewrite` ends in the panic of the
default branch, `panic("Rewrite")`, whatever the budget.
(2) When the type switch has a case for `n1`, the call of `Rewrite` on the node
does not reach the default branch: if it ends in that panic, the panic is that
of a recursive call of `Rewrite` on a child of `n1`.
(3) Let `Inv` be a set of nodes on which the callback, when it continues,
answers with a node that has a case and whose children are in `Inv` again.
Then no call of `Rewrite` on a node of `Inv` ends in the panic of the default
branch. -/
theorem unknown_variant_panics {σ : Type} (r : Rewriter σ) :
    (∀ (fuel : Nat) (n n1 : Node) (s s1 : σ), r n s = ((n1, true), s1) → n1.handled = false →
      Rewrite r (fuel + 1) n s = .panic .unexpectedNode) ∧
    (∀ (fuel : Nat) (n n1 : Node) (s s1 : σ), r n s = ((n1, true), s1) → n1.handled = true →
      Rewrite r (fuel + 1) n s = .panic .unexpectedNode →
      ∃ c ∈ n1.children, ∃ st, Rewrite r fuel c st = .panic .unexpectedNode) ∧
    (∀ Inv : Node → Prop,
      (∀ m st, Inv m → (r m st).1.2 = true →
        (r m st).1.1.handled = true ∧ ∀ c ∈ (r m st).1.1.children, Inv c) →
      ∀ (fuel : Nat) (t : Node) (st : σ), Inv t → Rewrite r fuel t st ≠ .panic .unexpectedNode) := by
  refine ⟨?_, ?_, ?_⟩
  · intro fuel n n1 s s1 hr hn
    rw [Rewrite_cont fuel hr, rewriteChildren_unhandled _ _ hn]
    rfl
  · intro fuel n n1 s s1 hr hn hp
    rw [Rewrite_cont fuel hr] at hp
    refine (slotClosed_origin (Rewrite r fuel) n1.children).bind _ _ _ _ ?_ ?_ s1 hp
    · exact slotClosed_rewriteChildren (slotClosed_origin _ _) _ _ hn
        (fun c hc st h => ⟨c, hc, st, h⟩)
    · intro n2 st h
      simp [Run.bind, Rewriter.call, Run.pure] at h
  · intro Inv hall fuel
    induction fuel with
    | zero => intro t st _ h; simp [Rewrite_zero] at h
    | succ fuel ih =>
      intro t st hI
      cases hb : (r t st).1.2 with
      | false =>
        have hr : r t st = (((r t st).1.1, false), (r t st).2) := by rw [← hb]
        rw [Rewrite_stop fuel hr]; simp
      | true =>
        have hr : r t st = (((r t st).1.1, true), (r t st).2) := by rw [← hb]
        obtain ⟨hh, hch⟩ := hall t st hI hb
        rw [Rewrite_cont fuel hr]
        refine (slotClosed_expected σ).bind _ _ _ _ ?_ ?_ _
        · exact slotClosed_rewriteChildren (slotClosed_expected σ) _ _ hh
            (fun c hc s => ih c s (hch c hc))
        · intro n2 s h
          simp [Run.bind, Rewriter.call, Run.pure] at h

/-! ## Runs beside a log of the nodes handed to the recursive call -/

theorem Run.logging_pure {σ α β : Type} (a : α) :
    (Run.pure a : Run σ α).logging ([] : List β) = Run.pure a := by
  funext st
  simp [Run.logging, Run.pure]

theorem Run.logging_fail {σ α β : Type} (p : Panic) (e : List β) :
    (Run.fail p : Run σ α).logging e = Run.fail p := by
  funext st
  simp [Run.logging, Run.fail]

theorem Run.logging_bind {σ α γ β : Type} (x : Run σ α) (f : α → Run σ γ) (e1 e2 : List β) :
    (Run.bind x f).logging (e1 ++ e2) = Run.bind (x.logging e1) (fun a => (f a).logging e2) := by
  funext st
  simp only [Run.logging, Run.bind]
  cases x st.1 with
  | done v =>
    obtain ⟨a, s1⟩ := v
    simp only []
    cases f a s1 <;> simp [List.append_assoc]
  | panic p => rfl
  | outOfFuel => rfl

theorem Run.logging_bind_pure {σ α γ β : Type} (x : Run σ α) (f : α → γ) (e : List β) :
    (Run.bind x (fun a => Run.pure (f a))).logging e =
      Run.bind (x.logging e) (fun a => Run.pure (f a)) := by
  have h := Run.logging_bind x (fun a => Run.pure (f a)) e ([] : List β)
  simp only [List.append_nil, Run.logging_pure] at h
  exact h

theorem observed_eq_logging {σ : Type} (rw : Node → Run σ Node) (c : Node) :
    observed rw c = (rw c).logging [c] := by
  funext st
  simp only [observed, Run.logging]
  cases rw c st.1 <;> rfl

theorem rewriteOne_logging {σ : Type} (sh : Shape) (rw : Node → Run σ Node) (v : Node) :
    rewriteOne sh (observed rw) v = (rewriteOne sh rw v).logging (sh.arg v).toList := by
  rw [rewriteOne_eq, rewriteOne_eq]
  cases hc : sh.arg v with
  | none => exact (Run.logging_pure v).symm
  | some c =>
    have h := Run.logging_bind (rw c) (fun y =>
      if sh.accepts y then Run.pure (sh.stored y) else Run.fail .typeAssertion) [c] ([] : List Node)
    simp only [List.append_nil] at h
    simp only [Option.toList]
    rw [h, observed_eq_logging]
    refine congrArg _ (funext fun y => ?_)
    by_cases hy : sh.accepts y
    · simp only [hy, if_true]; exact (Run.logging_pure _).symm
    · simp only [hy]; exact (Run.logging_fail _ _).symm

theorem filterMap_cons_toList {α β : Type} (f : α → Option β) (x : α) (l : List α) :
    (x :: l).filterMap f = (f x).toList ++ l.filterMap f := by
  cases h : f x <;> simp [List.filterMap_cons, h]

theorem rewriteEach_logging {σ : Type} (sh : Shape) (rw : Node → Run σ Node) (l : List Node) :
    rewriteEach (rewriteOne sh (observed rw)) l =
      (rewriteEach (rewriteOne sh rw) l).logging (l.filterMap sh.arg) := by
  induction l with
  | nil => exact (Run.logging_pure _).symm
  | cons x rest ih =>
    simp only [rewriteEach, Run.bind_eq]
    rw [filterMap_cons_toList, Run.logging_bind, rewriteOne_logging, ih]
    refine congrArg _ (funext fun y => ?_)
    rw [Run.logging_bind_pure]

theorem filter_not_nil (l : List Node) :
    l.filter (fun v => !v.isNil) = l.filterMap (Shape.iface .Stmt).arg := by
  induction l with
  | nil => rfl
  | cons x rest ih =>
    cases hx : x.isNil <;> simp [List.filter_cons, List.filterMap_cons, Shape.arg, hx, ih]

theorem rewriteStmtList_logging {σ : Type} (rw : Node → Run σ Node) (l : List Node) :
    rewriteStmtList (observed rw) l =
      (rewriteStmtList rw l).logging (l.filterMap (Shape.iface .Stmt).arg) := by
  funext st
  obtain ⟨s, log⟩ := st
  unfold rewriteStmtList
  rw [rewriteStmtListLoop_observed, ← filter_not_nil]
  simp only [Run.logging]
  cases rewriteStmtListLoop rw [] l s <;> rfl

theorem rewriteSlot_logging {σ : Type} (rw : Node → Run σ Node) (x : Slot) :
    rewriteSlot (observed rw) x = (rewriteSlot rw x).logging x.args := by
  cases x with
  | one sh v =>
    simp only [rewriteSlot, Run.bind_eq, Slot.args]
    rw [Run.logging_bind_pure, rewriteOne_logging]
  | each sh l =>
    simp only [rewriteSlot, Run.bind_eq, Slot.args]
    rw [Run.logging_bind_pure, rewriteEach_logging]
  | stmts l =>
    simp only [rewriteSlot, Run.bind_eq, Slot.args]
    rw [Run.logging_bind_pure, rewriteStmtList_logging]

theorem rewriteSlots_logging {σ : Type} (rw : Node → Run σ Node) (sl : List Slot) :
    rewriteSlots (observed rw) sl = (rewriteSlots rw sl).logging ((sl.map Slot.args).flatten) := by
  induction sl with
  | nil => exact (Run.logging_pure _).symm
  | cons x rest ih =>
    simp only [rewriteSlots, Run.bind_eq, List.map_cons, List.flatten_cons]
    rw [Run.logging_bind, rewriteSlot_logging, ih]
    refine congrArg _ (funext fun y => ?_)
    rw [Run.logging_bind_pure]

theorem children_of_no_kind {n : Node} (h : ¬ n.kind.isSome = true) : n.children = [] := by
  cases n <;> first
    | rfl
    | (exfalso; exact h rfl)

/-- The nodes that the type switch hands to the recursive call are the
children of the node, in order. -/
theorem rewriteChildren_logging {σ : Type} (rw : Node → Run σ Node) (n : Node) :
    rewriteChildren (observed rw) n = (rewriteChildren rw n).logging n.children := by
  by_cases hk : n.kind.isSome = true
  · rw [rewriteChildren_eq_slots _ n hk, rewriteChildren_eq_slots _ n hk, Run.logging_bind_pure,
      rewriteSlots_logging]
    rfl
  · rw [children_of_no_kind hk]
    cases n <;> first
      | (exfalso; exact hk rfl)
      | exact (Run.logging_fail _ _).symm
      | (simp only [rewriteChildren]; split
         · exact (Run.logging_pure _).symm
         · exact (Run.logging_fail _ _).symm)

/-! ## What a run that returns has done to the slots -/

theorem rewriteEach_iff_pass {σ : Type} {f : Node → Run σ Node} {l ys : List Node} {s s2 : σ} :
    rewriteEach f l s = .done (ys, s2) ↔ Pass f l s ys s2 := by
  constructor
  · intro h
    induction l generalizing s ys with
    | nil =>
      simp only [rewriteEach, Run.pure, Outcome.done.injEq, Prod.mk.injEq] at h
      obtain ⟨rfl, rfl⟩ := h
      exact Pass.nil _
    | cons x rest ih =>
      obtain ⟨y, s1, ys1, h1, h2, rfl⟩ := rewriteEach_cons_done h
      exact Pass.cons h1 (ih h2)
  · intro h
    induction h with
    | nil s => rfl
    | cons h1 _ ih =>
      simp only [rewriteEach, Run.bind_eq]
      rw [Run.bind_done h1, Run.bind_done ih]
      rfl

theorem rewriteSlots_iff_pass {σ : Type} {rw : Node → Run σ Node} {sl sl1 : List Slot}
    {s s2 : σ} : rewriteSlots rw sl s = .done (sl1, s2) ↔ Pass (rewriteSlot rw) sl s sl1 s2 := by
  constructor
  · intro h
    induction sl generalizing s sl1 with
    | nil =>
      simp only [rewriteSlots, Run.pure, Outcome.done.injEq, Prod.mk.injEq] at h
      obtain ⟨rfl, rfl⟩ := h
      exact Pass.nil _
    | cons x rest ih =>
      simp only [rewriteSlots, Run.bind_eq] at h
      obtain ⟨y, s1, h1, h2⟩ := Run.bind_eq_done.1 h
      obtain ⟨ys1, s3, h3, h4⟩ := Run.bind_eq_done.1 h2
      simp only [Run.pure, Outcome.done.injEq, Prod.mk.injEq] at h4
      obtain ⟨rfl, rfl⟩ := h4
      exact Pass.cons h1 (ih h3)
  · intro h
    induction h with
    | nil s => rfl
    | cons h1 _ ih =>
      simp only [rewriteSlots, Run.bind_eq]
      rw [Run.bind_done h1, Run.bind_done ih]
      rfl

theorem Pass.length_eq {σ α : Type} {f : α → Run σ α} {l ys : List α} {s s2 : σ}
    (h : Pass f l s ys s2) : ys.length = l.length := by
  induction h with
  | nil s => rfl
  | cons _ _ ih => simp [ih]

/-- In a pass every element of the result is what `f` returned for the element
at the same position. -/
theorem Pass.forall₂ {σ α : Type} {f : α → Run σ α} {l ys : List α} {s s2 : σ}
    (h : Pass f l s ys s2) :
    List.Forall₂ (fun x y => ∃ si si1, f x si = .done (y, si1)) l ys := by
  induction h with
  | nil s => exact List.Forall₂.nil
  | cons h1 _ ih => exact List.Forall₂.cons ⟨_, _, h1⟩ ih

theorem Pass.get {σ α : Type} {f : α → Run σ α} {l ys : List α} {s s2 : σ}
    (h : Pass f l s ys s2) :
    ∀ (i : Nat) (x : α), l[i]? = some x → ∃ y si si1, ys[i]? = some y ∧ f x si = .done (y, si1) := by
  induction h with
  | nil s => intro i x hx; simp at hx
  | cons h1 _ ih =>
    intro i x hx
    cases i with
    | zero =>
      simp only [List.getElem?_cons_zero, Option.some.injEq] at hx
      subst hx
      exact ⟨_, _, _, by simp, h1⟩
    | succ i =>
      simp only [List.getElem?_cons_succ] at hx ⊢
      exact ih i x hx

theorem rewriteOne_done_iff {σ : Type} {sh : Shape} {rw : Node → Run σ Node} {v v1 : Node}
    {s s1 : σ} :
    rewriteOne sh rw v s = .done (v1, s1) ↔
      (sh.arg v = none ∧ v1 = v ∧ s1 = s) ∨
      ∃ c y, sh.arg v = some c ∧ rw c s = .done (y, s1) ∧ sh.accepts y = true ∧
        v1 = sh.stored y := by
  rw [rewriteOne_eq]
  cases hc : sh.arg v with
  | none =>
    simp only [Run.pure, Outcome.done.injEq, Prod.mk.injEq, true_and]
    constructor
    · rintro ⟨rfl, rfl⟩; exact Or.inl ⟨rfl, rfl⟩
    · rintro (⟨rfl, rfl⟩ | ⟨c, y, h, -⟩)
      · exact ⟨rfl, rfl⟩
      · simp at h
  | some c =>
    constructor
    · intro h
      obtain ⟨y, s2, h1, h2⟩ := Run.bind_eq_done.1 h
      by_cases hy : sh.accepts y = true
      · simp only [hy, if_true, Run.pure, Outcome.done.injEq, Prod.mk.injEq] at h2
        obtain ⟨rfl, rfl⟩ := h2
        exact Or.inr ⟨c, y, rfl, h1, hy, rfl⟩
      · simp [hy, Run.fail] at h2
    · rintro (⟨h, -⟩ | ⟨c1, y, h, h1, hy, rfl⟩)
      · simp at h
      · simp only [Option.some.injEq] at h
        subst h
        show Run.bind (rw c) _ s = _
        rw [Run.bind_done h1]
        simp [hy, Run.pure]

theorem rewriteOne_inv {σ : Type} {sh : Shape} {rw : Node → Run σ Node} {v v1 : Node}
    {s s1 : σ} (h : rewriteOne sh rw v s = .done (v1, s1)) :
    sh.Rel (fun c y => ∃ st st1, rw c st = .done (y, st1)) v v1 := by
  unfold Shape.Rel
  rcases rewriteOne_done_iff.1 h with ⟨hc, rfl, -⟩ | ⟨c, y, hc, h1, hy, rfl⟩
  · simp [hc]
  · simp only [hc]
    exact ⟨y, ⟨_, _, h1⟩, hy, rfl⟩

theorem forall₂_mono {α β : Type} {R S : α → β → Prop} {l : List α} {l1 : List β}
    (h : List.Forall₂ R l l1) (hRS : ∀ a b, R a b → S a b) : List.Forall₂ S l l1 := by
  induction h with
  | nil => exact List.Forall₂.nil
  | cons h1 _ ih => exact List.Forall₂.cons (hRS _ _ h1) ih

/-- The loop of `rewriteStmtList`, when it returns, has made one pass over the
list and returns the splice of what the pass made of the elements. -/
theorem rewriteStmtListLoop_inv {σ : Type} {rw : Node → Run σ Node} {l : List Node} :
    ∀ {front out : List Node} {s s1 : σ}, rewriteStmtListLoop rw front l s = .done (out, s1) →
      ∃ ys, Pass (rewriteStmt rw) l s ys s1 ∧ (∀ y ∈ ys, y ≠ .typedNil .ExpandedBlockStmt) ∧
        out = front ++ (ys.map spliced).flatten := by
  induction l with
  | nil =>
    intro front out s s1 h
    simp only [rewriteStmtListLoop, Run.pure, Outcome.done.injEq, Prod.mk.injEq] at h
    obtain ⟨rfl, rfl⟩ := h
    exact ⟨[], Pass.nil _, by simp, by simp⟩
  | cons x rest ih =>
    intro front out s s1 h
    cases hx : rewriteStmt rw x s with
    | done v =>
      obtain ⟨y, s2⟩ := v
      by_cases hy : y = .typedNil .ExpandedBlockStmt
      · subst hy
        rw [rewriteStmtListLoop_cons_typedNil rw front rest x s s2 hx] at h
        simp at h
      · rw [rewriteStmtListLoop_cons rw front rest x y s s2 hx hy] at h
        obtain ⟨ys, hp, hne, rfl⟩ := ih h
        refine ⟨y :: ys, Pass.cons hx hp, ?_, by simp⟩
        intro z hz
        rcases List.mem_cons.1 hz with rfl | hz1
        · exact hy
        · exact hne z hz1
    | panic p =>
      simp only [rewriteStmtListLoop, Run.bind_eq] at h
      rw [Run.bind_panic hx] at h
      simp at h
    | outOfFuel =>
      simp only [rewriteStmtListLoop, Run.bind_eq] at h
      rw [Run.bind_outOfFuel hx] at h
      simp at h

theorem rewriteSlot_inv {σ : Type} {rw : Node → Run σ Node} {x x1 : Slot} {s s1 : σ}
    (h : rewriteSlot rw x s = .done (x1, s1)) :
    Slot.Rel (fun c y => ∃ st st1, rw c st = .done (y, st1)) x x1 := by
  cases x with
  | one sh v =>
    simp only [rewriteSlot, Run.bind_eq] at h
    obtain ⟨v1, s2, h1, h2⟩ := Run.bind_eq_done.1 h
    simp only [Run.pure, Outcome.done.injEq, Prod.mk.injEq] at h2
    obtain ⟨rfl, rfl⟩ := h2
    exact Slot.Rel.one sh v v1 (rewriteOne_inv h1)
  | each sh l =>
    simp only [rewriteSlot, Run.bind_eq] at h
    obtain ⟨l1, s2, h1, h2⟩ := Run.bind_eq_done.1 h
    simp only [Run.pure, Outcome.done.injEq, Prod.mk.injEq] at h2
    obtain ⟨rfl, rfl⟩ := h2
    refine Slot.Rel.each sh l l1 ?_
    exact forall₂_mono (rewriteEach_iff_pass.1 h1).forall₂
      (fun a b ⟨si, si1, hab⟩ => rewriteOne_inv hab)
  | stmts l =>
    simp only [rewriteSlot, Run.bind_eq, rewriteStmtList] at h
    obtain ⟨l1, s2, h1, h2⟩ := Run.bind_eq_done.1 h
    simp only [Run.pure, Outcome.done.injEq, Prod.mk.injEq] at h2
    obtain ⟨rfl, rfl⟩ := h2
    obtain ⟨ys, hp, hne, rfl⟩ := rewriteStmtListLoop_inv h1
    simp only [List.nil_append]
    refine Slot.Rel.stmts l ys ?_ hne
    exact forall₂_mono hp.forall₂ (fun a b ⟨si, si1, hab⟩ => rewriteOne_inv hab)

theorem rewriteSlots_inv {σ : Type} {rw : Node → Run σ Node} {sl sl1 : List Slot} {s s1 : σ}
    (h : rewriteSlots rw sl s = .done (sl1, s1)) :
    List.Forall₂ (Slot.Rel (fun c y => ∃ st st1, rw c st = .done (y, st1))) sl sl1 :=
  forall₂_mono (rewriteSlots_iff_pass.1 h).forall₂ (fun _ _ ⟨_, _, hab⟩ => rewriteSlot_inv hab)

/-! ## The slots of a node with rewritten slots -/

theorem slots_withSlots_put (n : Node) (sl : List Slot) :
    (n.withSlots sl).slots = putSlots sl 0 n.slots := by
  cases n <;> rfl

theorem getElem?_append_cons {α : Type} (pre rest : List α) (x : α) :
    (pre ++ x :: rest)[pre.length]? = some x := by
  rw [List.getElem?_append_right (le_refl _)]
  simp

theorem put_of_rel {R : Node → Node → Prop} {x x1 : Slot} (h : Slot.Rel R x x1)
    (pre rest : List Slot) : x.put (pre ++ x1 :: rest) pre.length = x1 := by
  cases h <;>
    simp only [Slot.put, slotNode, slotList, getElem?_append_cons, Slot.node, Slot.list]

theorem putSlots_of_rel {R : Node → Node → Prop} {xs sl : List Slot}
    (h : List.Forall₂ (Slot.Rel R) xs sl) :
    ∀ pre : List Slot, putSlots (pre ++ sl) pre.length xs = sl := by
  induction h with
  | nil => intro pre; rfl
  | @cons x x1 xs1 sl1 h1 _ ih =>
    intro pre
    simp only [putSlots, put_of_rel h1 pre sl1, List.cons.injEq, true_and]
    have := ih (pre ++ [x1])
    simpa using this

/-- The slots of a node whose slots have been rewritten are the rewritten
slots. -/
theorem slots_withSlots {R : Node → Node → Prop} {n : Node} {sl : List Slot}
    (h : List.Forall₂ (Slot.Rel R) n.slots sl) : (n.withSlots sl).slots = sl := by
  rw [slots_withSlots_put]
  exact putSlots_of_rel h []

theorem withSlots_attr (n : Node) (sl : List Slot) : (n.withSlots sl).attr = n.attr := by
  cases n <;> rfl

/-- What the type switch returns for a node of a handled type: the node with
its slots rewritten. -/
theorem rewriteChildren_inv {σ : Type} {rw : Node → Run σ Node} {n y : Node} {s s1 : σ}
    (hk : n.kind.isSome = true) (h : rewriteChildren rw n s = .done (y, s1)) :
    ∃ sl, rewriteSlots rw n.slots s = .done (sl, s1) ∧ y = n.withSlots sl ∧ y.slots = sl ∧
      List.Forall₂ (Slot.Rel (fun c y => ∃ st st1, rw c st = .done (y, st1))) n.slots sl := by
  rw [rewriteChildren_eq_slots rw n hk] at h
  obtain ⟨sl, s2, h1, h2⟩ := Run.bind_eq_done.1 h
  simp only [Run.pure, Outcome.done.injEq, Prod.mk.injEq] at h2
  obtain ⟨rfl, rfl⟩ := h2
  exact ⟨sl, h1, rfl, slots_withSlots (rewriteSlots_inv h1), rewriteSlots_inv h1⟩

theorem rewriteChildren_typedNil {σ : Type} {rw : Node → Run σ Node} {k : Kind} {y : Node}
    {s s1 : σ} (h : rewriteChildren rw (.typedNil k) s = .done (y, s1)) :
    y = .typedNil k ∧ s1 = s := by
  simp only [rewriteChildren] at h
  split at h
  · simp only [Run.pure, Outcome.done.injEq, Prod.mk.injEq] at h
    exact ⟨h.1.symm, h.2.symm⟩
  · simp [Run.fail] at h

/-- Witness of C11: the identifier `x` answered with the nil interface and the
literal `1` answered with a node of an unlisted type both end in
`panic("Rewrite")`; under the identity callback no well-typed tree does. -/
theorem unknown_variant_panics_witness :
    Rewrite (toUnhandled : Rewriter Unit) 1 (.Ident { text := "x" }) () =
      .panic .unexpectedNode ∧
    Rewrite (toUnhandled : Rewriter Unit) 1 (.BasicLit { text := "1" }) () =
      .panic .unexpectedNode ∧
    Rewrite (idRewriter : Rewriter Unit) 3
      (.CallExpr {} (.Ident { text := "f" }) [.Ident { text := "x" }]) () ≠
      .panic .unexpectedNode :=
  ⟨(unknown_variant_panics (toUnhandled : Rewriter Unit)).1 0 _ _ () () rfl rfl,
    (unknown_variant_panics (toUnhandled : Rewriter Unit)).1 0 _ _ () () rfl rfl,
    (unknown_variant_panics (idRewriter : Rewriter Unit)).2.2 (fun n => n.wellTyped = true)
      (fun m _ hm _ => ⟨handled_of_kind (kind_of_localOK (localOK_root hm)),
        fun c hc => (wellTyped_child hm hc).1⟩) 3 _ () (by decide)⟩

/-! ## C17: the callback that never descends -/

/-- C17 (non-descent).  Under the callback that answers every node with the
node itself and `continue = false`, `Rewrite` returns the tree it was given,
and the callback has been called exactly once, on the root: the log of the
recording callback grows by that single call (no call for a child, no call
with nil). -/
theorem non_descent {σ : Type} (fuel : Nat) (t : Node) (s : σ) (log : List Call) :
    Rewrite (stopRewriter : Rewriter σ) (fuel + 1) t s = .done (t, s) ∧
    Rewrite (recording (stopRewriter : Rewriter σ)) (fuel + 1) t (s, log) =
      .done (t, (s, log ++ [{ arg := t, ret := t, cont := false }])) ∧
    (log ++ [({ arg := t, ret := t, cont := false } : Call)]).length = log.length + 1 :=
  ⟨Rewrite_stop fuel rfl, Rewrite_stop fuel rfl, by simp⟩

/-- Witness of C17: the function literal `func() { f(g(x)) }`. -/
theorem non_descent_witness :
    ∃ log : List Call,
      Rewrite (recording (stopRewriter : Rewriter Unit)) 1
        (.FuncLit {} (.FuncType {} (.FieldList {} []) .nil)
          (.BlockStmt {} [.ExprStmt {} (.CallExpr {} (.Ident { text := "f" })
            [.CallExpr {} (.Ident { text := "g" }) [.Ident { text := "x" }]])])) ((), []) =
      .done (.FuncLit {} (.FuncType {} (.FieldList {} []) .nil)
          (.BlockStmt {} [.ExprStmt {} (.CallExpr {} (.Ident { text := "f" })
            [.CallExpr {} (.Ident { text := "g" }) [.Ident { text := "x" }]])]), ((), log)) ∧
      log.length = 1 :=
  ⟨_, (non_descent 0 _ () []).2.1, rfl⟩

/-! ## C13: the children of a map type -/

/-- C13, what the code does.  When the callback answers a node with the map
type `map[key]value` and `continue = true`, `Rewrite` rewrites the `Value`
slot first, and the `Key` slot after it in the state that the rewriting of
`Value` left; the nodes that the type switch hands to the recursive call are
`value`, then `key`.  The callback is therefore called on the value expression
and its whole subtree before it is called on the key expression. -/
theorem mapType_value_before_key {σ : Type} (r : Rewriter σ) (fuel : Nat) (n : Node) (a : Attr)
    (key value : Node) (s s1 : σ) (hr : r n s = ((.MapType a key value, true), s1))
    (hk : key.isNil = false) (hv : value.isNil = false) :
    Rewrite r (fuel + 1) n s =
      Run.bind (rewriteExpr (Rewrite r fuel) value) (fun v1 =>
        Run.bind (rewriteExpr (Rewrite r fuel) key) (fun k1 =>
          Run.bind (r.call .nil) (fun _ => Run.pure (.MapType a k1 v1)))) s1 ∧
    ∀ log : List Node,
      rewriteChildren (observed (Rewrite r fuel)) (.MapType a key value) (s1, log) =
        (rewriteChildren (Rewrite r fuel) (.MapType a key value)).logging [value, key]
          (s1, log) := by
  constructor
  · rw [Rewrite_cont fuel hr]
    simp only [rewriteChildren, Run.bind_eq, Run.bind_assoc, Run.pure_bind]
  · intro log
    rw [rewriteChildren_logging]
    simp [Node.children, Node.slots, Slot.args, Shape.arg, hk, hv]

/-- Evaluation of the code for C13 on the type `map[*K][]V` under the
recording identity callback: the nodes handed to the recursive call by the
type switch are `[]V`, then `*K`, and the callback is called on the map type,
on `[]V`, on `V`, on `*K`, on `K`, in this order (calls with nil left out). -/
theorem mapType_value_before_key_witness :
    rewriteChildren (observed (Rewrite (idRewriter : Rewriter Unit) 2))
        (.MapType {} (.StarExpr {} (.Ident { text := "K" }))
          (.ArrayType {} .nil (.Ident { text := "V" }))) ((), []) =
      .done (.MapType {} (.StarExpr {} (.Ident { text := "K" }))
          (.ArrayType {} .nil (.Ident { text := "V" })),
        ((), [.ArrayType {} .nil (.Ident { text := "V" }), .StarExpr {} (.Ident { text := "K" })])) ∧
    ∃ log : List Call,
      Rewrite (recording (idRewriter : Rewriter Unit)) 3
          (.MapType {} (.StarExpr {} (.Ident { text := "K" }))
            (.ArrayType {} .nil (.Ident { text := "V" }))) ((), []) =
        .done (.MapType {} (.StarExpr {} (.Ident { text := "K" }))
            (.ArrayType {} .nil (.Ident { text := "V" })), ((), log)) ∧
      (log.map (fun c => c.arg)).filter (fun v => !v.isNil) =
        [.MapType {} (.StarExpr {} (.Ident { text := "K" }))
            (.ArrayType {} .nil (.Ident { text := "V" })),
          .ArrayType {} .nil (.Ident { text := "V" }), .Ident { text := "V" },
          .StarExpr {} (.Ident { text := "K" }), .Ident { text := "K" }] :=
  ⟨((mapType_value_before_key (idRewriter : Rewriter Unit) 2
      (.MapType {} (.StarExpr {} (.Ident { text := "K" }))
        (.ArrayType {} .nil (.Ident { text := "V" }))) {}
      (.StarExpr {} (.Ident { text := "K" })) (.ArrayType {} .nil (.Ident { text := "V" }))
      () () rfl rfl rfl).2 []).trans rfl,
    _, rfl, rfl⟩

/-! ## C18: descent follows the replacement -/

/-- C18 (descent follows the replacement).  The callback has answered `n` with
`n1` and `continue = true`.
(1) `Rewrite` goes on with the type switch on `n1`, then calls the callback
with nil; the node `n` plays no further part.
(2) The nodes that this type switch hands to the recursive call of `Rewrite`
(each of which starts with a call of the callback on the node) are the
children of `n1`, each once and in order: a child of `n` is visited only if it
is a child of `n1`.
(3) When `Rewrite` returns, `n1` is of a handled type and the value returned is
`n1` with its child slots rewritten: same type, same fields that hold no
child, and every slot related to the slot of `n1` as a rewritten slot
(`Slot.Rel`). -/
theorem descent_follows_replacement {σ : Type} (r : Rewriter σ) (fuel : Nat) (n n1 : Node)
    (s s1 : σ) (hr : r n s = ((n1, true), s1)) :
    Rewrite r (fuel + 1) n s =
      Run.bind (rewriteChildren (Rewrite r fuel) n1)
        (fun n2 => Run.bind (r.call .nil) (fun _ => Run.pure n2)) s1 ∧
    (∀ log : List Node, rewriteChildren (observed (Rewrite r fuel)) n1 (s1, log) =
      (rewriteChildren (Rewrite r fuel) n1).logging n1.children (s1, log)) ∧
    (∀ y s2, Rewrite r (fuel + 1) n s = .done (y, s2) →
      n1.handled = true ∧ y.kind = n1.kind ∧ y.attr = n1.attr ∧
      ∃ sl, y = n1.withSlots sl ∧ y.slots = sl ∧
        List.Forall₂ (Slot.Rel (fun c z => ∃ st st1, Rewrite r fuel c st = .done (z, st1)))
          n1.slots sl) := by
  refine ⟨Rewrite_cont fuel hr, fun log => by rw [rewriteChildren_logging], ?_⟩
  intro y s2 h
  rw [Rewrite_cont fuel hr] at h
  obtain ⟨n2, s3, h1, h2⟩ := Run.bind_eq_done.1 h
  obtain ⟨w, s4, -, h4⟩ := Run.bind_eq_done.1 h2
  simp only [Run.pure, Outcome.done.injEq, Prod.mk.injEq] at h4
  obtain ⟨rfl, -⟩ := h4
  by_cases hk : n1.kind.isSome = true
  · obtain ⟨sl, -, rfl, hsl, hrel⟩ := rewriteChildren_inv hk h1
    exact ⟨handled_of_kind hk, withSlots_kind _ _, withSlots_attr _ _, sl, rfl, hsl, hrel⟩
  · cases n1 <;> first
      | (exfalso; exact hk rfl)
      | (exfalso; simp [rewriteChildren, Run.fail] at h1; done)
      | (obtain ⟨rfl, -⟩ := rewriteChildren_typedNil h1
         exact ⟨rfl, rfl, rfl, [], rfl, rfl, List.Forall₂.nil⟩)

/-- Witness of C18: the literal `1` is answered with `(x)`; `Rewrite` visits
the identifier `x`, the child of the answer, and returns `(x)`. -/
theorem descent_follows_replacement_witness :
    rewriteChildren (observed (Rewrite (litToParen : Rewriter Unit) 1))
        (.ParenExpr {} (.Ident { text := "x" })) ((), []) =
      .done (.ParenExpr {} (.Ident { text := "x" }), ((), [.Ident { text := "x" }])) ∧
    Rewrite (litToParen : Rewriter Unit) 2 (.BasicLit { text := "1" }) () =
      .done (.ParenExpr {} (.Ident { text := "x" }), ()) :=
  ⟨((descent_follows_replacement (litToParen : Rewriter Unit) 1 (.BasicLit { text := "1" })
      (.ParenExpr {} (.Ident { text := "x" })) () () rfl).2.1 []).trans rfl,
    rfl⟩

/-! ## C19: the statements of a sentinel answered with `continue = true` -/

/-- What `Rewrite` does on a node that the callback answers with a sentinel
and `continue = true`. -/
theorem Rewrite_sentinel {σ : Type} {r : Rewriter σ} {x : Node} {a : Attr} {ms : List Node}
    {s s1 : σ} (fuel : Nat) (h : r x s = ((.ExpandedBlockStmt a ms, true), s1)) :
    Rewrite r (fuel + 1) x s =
      Run.bind (rewriteStmtList (Rewrite r fuel) ms)
        (fun ms1 => Run.bind (r.call .nil) (fun _ => Run.pure (.ExpandedBlockStmt a ms1))) s1 := by
  rw [Rewrite_cont fuel h]
  simp only [rewriteChildren, Run.bind_eq, Run.bind_assoc, Run.pure_bind]

/-- C19 (visit count of a sentinel's statements).  The loop of
`rewriteStmtList` is at a non-nil element `x`, `front` being the part of the
list already done and `rest` the elements after `x`.
(1) If the callback answers `x` with a sentinel of statements `ms` and
`continue = true`, the loop does this: `rewriteStmtList` on `ms`, giving `ms1`;
the call of the callback with nil; then the loop goes on with the element
after `x`, the list done so far being `front ++ ms1`.
(2) In that run of `rewriteStmtList` on `ms` the nodes handed to `Rewrite` are
the non-nil statements of `ms`, each once and in order, and when it returns,
`ms1` is the splice of what one pass over `ms` has rewritten its statements to
(a sentinel among them is replaced by its statements).
(3) If the callback answers `x` with the sentinel and `continue = false`, the
only call made is the one on `x`, and the loop goes on with the element after
`x`, the list done so far being `front ++ ms`. -/
theorem sentinel_statements_once {σ : Type} (r : Rewriter σ) (fuel : Nat)
    (front rest : List Node) (x : Node) (a : Attr) (ms : List Node) (s s1 : σ)
    (hx : x.isNil = false) :
    (r x s = ((.ExpandedBlockStmt a ms, true), s1) →
      rewriteStmtListLoop (Rewrite r (fuel + 1)) front (x :: rest) s =
        Run.bind (rewriteStmtList (Rewrite r fuel) ms) (fun ms1 =>
          Run.bind (r.call .nil) (fun _ =>
            rewriteStmtListLoop (Rewrite r (fuel + 1)) (front ++ ms1) rest)) s1) ∧
    ((∀ log : List Node, rewriteStmtList (observed (Rewrite r fuel)) ms (s1, log) =
        (rewriteStmtList (Rewrite r fuel) ms).logging (ms.filter (fun v => !v.isNil)) (s1, log)) ∧
      ∀ ms1 s2, rewriteStmtList (Rewrite r fuel) ms s1 = .done (ms1, s2) →
        ∃ ys, Pass (rewriteStmt (Rewrite r fuel)) ms s1 ys s2 ∧
          ms1 = (ys.map spliced).flatten) ∧
    (r x s = ((.ExpandedBlockStmt a ms, false), s1) →
      ∀ log : List Call,
        rewriteStmtListLoop (Rewrite (recording r) (fuel + 1)) front (x :: rest) (s, log) =
          rewriteStmtListLoop (Rewrite (recording r) (fuel + 1)) (front ++ ms) rest
            (s1, log ++ [{ arg := x, ret := .ExpandedBlockStmt a ms, cont := false }])) := by
  refine ⟨fun h => ?_, ⟨fun log => ?_, fun ms1 s2 h => ?_⟩, fun h log => ?_⟩
  · have hR := Rewrite_sentinel fuel h
    cases hl : rewriteStmtList (Rewrite r fuel) ms s1 with
    | done v =>
      obtain ⟨ms1, s2⟩ := v
      have hR1 : Rewrite r (fuel + 1) x s = .done (.ExpandedBlockStmt a ms1, (r .nil s2).2) := by
        rw [hR, Run.bind_done hl]; rfl
      rw [rewriteStmtListLoop_cons _ front rest x _ s _ (rewriteStmt_of_done hx hR1 rfl)
        (by simp), Run.bind_done hl]
      rfl
    | panic p =>
      have hR1 : Rewrite r (fuel + 1) x s = .panic p := by rw [hR, Run.bind_panic hl]
      have hS : rewriteStmt (Rewrite r (fuel + 1)) x s = .panic p := by
        simp only [rewriteStmt, rewriteIface, hx, Run.bind_eq]
        exact Run.bind_panic hR1
      simp only [rewriteStmtListLoop, Run.bind_eq]
      rw [Run.bind_panic hS, Run.bind_panic hl]
    | outOfFuel =>
      have hR1 : Rewrite r (fuel + 1) x s = .outOfFuel := by rw [hR, Run.bind_outOfFuel hl]
      have hS : rewriteStmt (Rewrite r (fuel + 1)) x s = .outOfFuel := by
        simp only [rewriteStmt, rewriteIface, hx, Run.bind_eq]
        exact Run.bind_outOfFuel hR1
      simp only [rewriteStmtListLoop, Run.bind_eq]
      rw [Run.bind_outOfFuel hS, Run.bind_outOfFuel hl]
  · rw [rewriteStmtList_logging, filter_not_nil]
  · obtain ⟨ys, hp, -, rfl⟩ := rewriteStmtListLoop_inv h
    exact ⟨ys, hp, by simp⟩
  · have hR : Rewrite (recording r) (fuel + 1) x (s, log) =
        .done (.ExpandedBlockStmt a ms,
          (s1, log ++ [{ arg := x, ret := .ExpandedBlockStmt a ms, cont := false }])) := by
      apply Rewrite_stop
      simp [recording, h]
    exact rewriteStmtListLoop_cons _ front rest x _ _ _ (rewriteStmt_of_done hx hR rfl) (by simp)

/-- Witness of C19: in the list `; b` the empty statement is answered with a
sentinel carrying a bad statement and `continue = true`; the bad statement is
visited once (it is answered with a return statement), the list becomes
`return; b`, and `b` is the next statement visited. -/
theorem sentinel_statements_once_witness :
    rewriteStmtListLoop (Rewrite (emptyToSentinel : Rewriter Unit) 4) []
        [.EmptyStmt {}, .ExprStmt {} (.Ident { text := "b" })] () =
      .done ([.ReturnStmt {} [], .ExprStmt {} (.Ident { text := "b" })], ()) ∧
    ∃ log : List Call,
      rewriteStmtListLoop (Rewrite (recording (emptyToSentinel : Rewriter Unit)) 4) []
          [.EmptyStmt {}, .ExprStmt {} (.Ident { text := "b" })] ((), []) =
        .done ([.ReturnStmt {} [], .ExprStmt {} (.Ident { text := "b" })], ((), log)) ∧
      (log.map (fun c => c.arg)).filter (fun v => !v.isNil) =
        [.EmptyStmt {}, .BadStmt {}, .ExprStmt {} (.Ident { text := "b" }),
          .Ident { text := "b" }] :=
  ⟨((sentinel_statements_once (emptyToSentinel : Rewriter Unit) 3 []
      [.ExprStmt {} (.Ident { text := "b" })] (.EmptyStmt {}) {} [.BadStmt {}] () () rfl).1
      rfl).trans rfl,
    _, rfl, rfl⟩

/-! ## The files of a package -/

theorem rewriteFileMap_range_aux {σ : Type} (rw : Node → Run σ Node) (l : List Node) :
    ∀ pre : List Node, rewriteFileMap rw (List.range' pre.length l.length) (pre ++ l) =
      Run.bind (rewriteEach (rewriteReqPtr .File rw) l) (fun ys => Run.pure (pre ++ ys)) := by
  induction l with
  | nil => intro pre; simp [rewriteFileMap, rewriteEach, Run.pure_bind]
  | cons x rest ih =>
    intro pre
    have hget : (pre ++ x :: rest).getD pre.length .nil = x := by
      rw [List.getD_eq_getElem?_getD, getElem?_append_cons]; rfl
    have hset : ∀ y : Node, (pre ++ x :: rest).set pre.length y = (pre ++ [y]) ++ rest := by
      intro y; simp [List.set_append]
    simp only [List.length_cons, List.range'_succ, rewriteFileMap, rewriteEach, Run.bind_eq,
      Run.bind_assoc, Run.pure_bind, hget]
    refine congrArg _ (funext fun y => ?_)
    have := ih (pre ++ [y])
    simp only [List.length_append, List.length_singleton] at this
    rw [hset, this]
    simp

/-- The loop of `rewriteChildren` over the `Files` of a `Node.Package` is the
loop over the map when the entries are listed in the order of the iteration. -/
theorem rewriteFileMap_range {σ : Type} (rw : Node → Run σ Node) (files : List Node) :
    rewriteFileMap rw (List.range files.length) files =
      rewriteEach (rewriteReqPtr .File rw) files := by
  have h := rewriteFileMap_range_aux rw files []
  simp only [List.length_nil, List.nil_append] at h
  rw [List.range_eq_range', h]
  funext s
  unfold Run.bind
  cases rewriteEach (rewriteReqPtr Kind.File rw) files s with
  | done v => rfl
  | panic p => rfl
  | outOfFuel => rfl

theorem getD_set_ne (l : List Node) {i j : Nat} (y : Node) (h : i ≠ j) :
    (l.set i y).getD j .nil = l.getD j .nil := by
  simp [List.getD, List.getElem?_set_ne h]

/-- When the loop over the map returns, the map has the same keys, an entry
whose key the iteration did not yield is unchanged, and an entry whose key it
yielded (once) holds the result for the file that was there. -/
theorem rewriteFileMap_inv {σ : Type} (rw : Node → Run σ Node) (order : List Nat) :
    ∀ (files out : List Node) (s s1 : σ), rewriteFileMap rw order files s = .done (out, s1) →
      out.length = files.length ∧
      (∀ i, i ∉ order → out[i]? = files[i]?) ∧
      (order.Nodup → ∀ i ∈ order, i < files.length → ∃ z st st1, out[i]? = some z ∧
        rewriteReqPtr .File rw (files.getD i .nil) st = .done (z, st1)) := by
  induction order with
  | nil =>
    intro files out s s1 h
    simp only [rewriteFileMap, Run.pure, Outcome.done.injEq, Prod.mk.injEq] at h
    obtain ⟨rfl, rfl⟩ := h
    exact ⟨rfl, fun _ _ => rfl, fun _ i hi => by simp at hi⟩
  | cons k rest ih =>
    intro files out s s1 h
    simp only [rewriteFileMap, Run.bind_eq] at h
    obtain ⟨y, s2, h1, h2⟩ := Run.bind_eq_done.1 h
    obtain ⟨hlen, hout, hin⟩ := ih _ _ _ _ h2
    refine ⟨by simpa using hlen, ?_, ?_⟩
    · intro i hi
      simp only [List.mem_cons, not_or] at hi
      rw [hout i hi.2, List.getElem?_set_ne (Ne.symm hi.1)]
    · intro hnd i hi hlt
      simp only [List.nodup_cons] at hnd
      rcases List.mem_cons.1 hi with rfl | hir
      · refine ⟨y, s, s2, ?_, h1⟩
        rw [hout i hnd.1, List.getElem?_set_self]
        simp [hlt]
      · have hne : k ≠ i := fun hki => hnd.1 (hki ▸ hir)
        obtain ⟨z, st, st1, hz, hrun⟩ := hin hnd.2 i hir (by simpa using hlt)
        rw [getD_set_ne files y hne] at hrun
        exact ⟨z, st, st1, hz, hrun⟩

theorem rewriteReqPtr_logging {σ : Type} (k : Kind) (rw : Node → Run σ Node) (v : Node) :
    rewriteReqPtr k (observed rw) v = (rewriteReqPtr k rw v).logging [ptrToNode k v] := by
  have h := rewriteOne_logging (.reqPtr k) rw v
  simpa [rewriteOne, Shape.arg] using h

/-- The files handed to `Rewrite` by the loop over the map are those of the
keys that the iteration yields, in the order in which it yields them. -/
theorem rewriteFileMap_logging {σ : Type} (rw : Node → Run σ Node) (order : List Nat) :
    ∀ files : List Node, order.Nodup →
      rewriteFileMap (observed rw) order files =
        (rewriteFileMap rw order files).logging
          (order.map (fun i => ptrToNode .File (files.getD i .nil))) := by
  induction order with
  | nil => intro files _; exact (Run.logging_pure _).symm
  | cons k rest ih =>
    intro files hnd
    simp only [List.nodup_cons] at hnd
    simp only [rewriteFileMap, Run.bind_eq, List.map_cons]
    rw [← List.singleton_append, Run.logging_bind, rewriteReqPtr_logging]
    refine congrArg _ (funext fun y => ?_)
    rw [ih _ hnd.2]
    refine congrArg _ (List.map_congr_left ?_)
    intro j hj
    have hne : k ≠ j := fun hkj => hnd.1 (hkj ▸ hj)
    simp only [getD_set_ne files y hne]

theorem forall₂_getElem? {α β : Type} {R : α → β → Prop} {l : List α} {l1 : List β}
    (h : List.Forall₂ R l l1) :
    ∀ (i : Nat) (x : α), l[i]? = some x → ∃ y, l1[i]? = some y ∧ R x y := by
  induction h with
  | nil => intro i x hx; simp at hx
  | cons h1 _ ih =>
    intro i x hx
    cases i with
    | zero =>
      simp only [List.getElem?_cons_zero, Option.some.injEq] at hx
      subst hx
      exact ⟨_, by simp, h1⟩
    | succ i =>
      simp only [List.getElem?_cons_succ] at hx ⊢
      exact ih i x hx

/-! ## C16: lists rewritten element by element -/

theorem rewriteSlot_each_inv {σ : Type} {rw : Node → Run σ Node} {sh : Shape} {l : List Node}
    {x1 : Slot} {s s1 : σ} (h : rewriteSlot rw (.each sh l) s = .done (x1, s1)) :
    ∃ ys, x1 = .each sh ys ∧ Pass (rewriteOne sh rw) l s ys s1 := by
  simp only [rewriteSlot, Run.bind_eq] at h
  obtain ⟨ys, s2, h1, h2⟩ := Run.bind_eq_done.1 h
  simp only [Run.pure, Outcome.done.injEq, Prod.mk.injEq] at h2
  obtain ⟨rfl, rfl⟩ := h2
  exact ⟨ys, rfl, rewriteEach_iff_pass.1 h1⟩

/-- Counterexample to C16 as stated.  (1) A package of two files: `files`
lists the map `Files` by key.  In a run whose `range` statement yields the
second key first, the second file is handed to `Rewrite` before the first:
the files are not rewritten in increasing order.  (2) In the expression list
`[nil, x]` the nil element is not handed to `Rewrite`; it stays nil. -/
theorem package_files_in_map_order :
    rewriteFileMap (observed (Rewrite (idRewriter : Rewriter Unit) 3)) [1, 0]
        [.File { pos := [1] } .nil (.Ident { text := "p" }) [],
          .File { pos := [50] } .nil (.Ident { text := "p" }) []] ((), []) =
      .done ([.File { pos := [1] } .nil (.Ident { text := "p" }) [],
          .File { pos := [50] } .nil (.Ident { text := "p" }) []],
        ((), [.File { pos := [50] } .nil (.Ident { text := "p" }) [],
          .File { pos := [1] } .nil (.Ident { text := "p" }) []])) ∧
    rewriteSlot (observed (Rewrite (idRewriter : Rewriter Unit) 2))
        (.each (.iface .Expr) [.nil, .Ident { text := "x" }]) ((), []) =
      .done (.each (.iface .Expr) [.nil, .Ident { text := "x" }],
        ((), [.Ident { text := "x" }])) :=
  ⟨rfl, rfl⟩

/-- C16 as amended (lists without expansion).  The callback has answered
`parent` with `n1` and `continue = true`, and the slot number `i` of `n1` is a
list `l` rewritten element by element (an expression list, an identifier list,
a declaration list, the fields of a field list, the comments of a comment
group, the specs of a general declaration; also the files of a package, listed
in the order in which the `range` statement yields them).
(1) When `Rewrite` returns, slot `i` of the result is a list `ys` of the same
length, made by one pass over `l` in which every element is rewritten in the
state its predecessor left; its `j`-th element is what the slot rewriter makes
of the `j`-th element of `l`: the result of `Rewrite` for it as the assertion
of the slot stores it, or the element itself if it is a nil expression or
identifier.
(2) The nodes handed to `Rewrite` for the slot are the elements of `l` in
increasing index order (nil expressions and identifiers left out).
(3) The files of a package are held in a map: `files` lists it by key, `order`
is the sequence of keys that the iteration yields, each key once.  When the
loop returns, the map has the same keys, an entry whose key was not yielded is
unchanged, and an entry whose key was yielded holds the result of `Rewrite` for
the file that was there.
(4) The files handed to `Rewrite` are those of the yielded keys, in the order
of the iteration.
(5) When the iteration yields the keys in the order in which `files` lists
them, the loop is the element-by-element loop of (1). -/
theorem list_slots_keep_length {σ : Type} (r : Rewriter σ) (fuel : Nat) (parent n1 : Node)
    (s s1 : σ) (hr : r parent s = ((n1, true), s1)) (i : Nat) (sh : Shape) (l : List Node)
    (hslot : n1.slots[i]? = some (.each sh l))
    (files : List Node) (order : List Nat) (hnd : order.Nodup)
    (hlt : ∀ k ∈ order, k < files.length) :
    (∀ y s2, Rewrite r (fuel + 1) parent s = .done (y, s2) →
      ∃ ys si si1, y.slots[i]? = some (.each sh ys) ∧ ys.length = l.length ∧
        Pass (rewriteOne sh (Rewrite r fuel)) l si ys si1 ∧
        ∀ (j : Nat) (x : Node), l[j]? = some x → ∃ z, ys[j]? = some z ∧
          sh.Rel (fun c w => ∃ st st1, Rewrite r fuel c st = .done (w, st1)) x z) ∧
    (∀ (st : σ) (log : List Node),
      rewriteSlot (observed (Rewrite r fuel)) (.each sh l) (st, log) =
        (rewriteSlot (Rewrite r fuel) (.each sh l)).logging (l.filterMap sh.arg) (st, log)) ∧
    (∀ st out st1, rewriteFileMap (Rewrite r fuel) order files st = .done (out, st1) →
      out.length = files.length ∧ (∀ k : Nat, k ∉ order → out[k]? = files[k]?) ∧
      ∀ k ∈ order, ∃ z st2 st3, out[k]? = some z ∧
        rewriteReqPtr .File (Rewrite r fuel) (files.getD k .nil) st2 = .done (z, st3)) ∧
    (∀ (st : σ) (log : List Node),
      rewriteFileMap (observed (Rewrite r fuel)) order files (st, log) =
        (rewriteFileMap (Rewrite r fuel) order files).logging
          (order.map (fun k => ptrToNode .File (files.getD k .nil))) (st, log)) ∧
    rewriteFileMap (Rewrite r fuel) (List.range files.length) files =
      rewriteEach (rewriteReqPtr .File (Rewrite r fuel)) files := by
  refine ⟨?_, fun st log => by rw [rewriteSlot_logging]; rfl, ?_,
    fun st log => by rw [rewriteFileMap_logging _ _ _ hnd], rewriteFileMap_range _ _⟩
  · intro y s2 h
    rw [Rewrite_cont fuel hr] at h
    obtain ⟨n2, s3, h1, h2⟩ := Run.bind_eq_done.1 h
    obtain ⟨w, s4, -, h4⟩ := Run.bind_eq_done.1 h2
    simp only [Run.pure, Outcome.done.injEq, Prod.mk.injEq] at h4
    obtain ⟨rfl, -⟩ := h4
    have hmem : Slot.each sh l ∈ n1.slots := List.getElem?_mem hslot
    obtain ⟨sl, hsl, -, hslots, -⟩ := rewriteChildren_inv (kind_of_mem_slots hmem) h1
    obtain ⟨x1, si, si1, hx1, hrun⟩ := (rewriteSlots_iff_pass.1 hsl).get i _ hslot
    obtain ⟨ys, rfl, hpass⟩ := rewriteSlot_each_inv hrun
    refine ⟨ys, si, si1, by rw [hslots]; exact hx1, hpass.length_eq, hpass, ?_⟩
    intro j x hx
    obtain ⟨z, sj, sj1, hz, hone⟩ := hpass.get j x hx
    exact ⟨z, hz, rewriteOne_inv hone⟩
  · intro st out st1 h
    obtain ⟨h1, h2, h3⟩ := rewriteFileMap_inv _ order files out st st1 h
    exact ⟨h1, h2, fun k hk => h3 hnd k hk (hlt k hk)⟩

/-- Witness of C16 as amended: the arguments of the call `f(a, b)` under the
identity callback, and a package of two files whose second file is yielded
first. -/
theorem list_slots_keep_length_witness :
    ∃ ys : List Node,
      (Node.CallExpr {} (.Ident { text := "f" })
        [.Ident { text := "a" }, .Ident { text := "b" }]).slots[1]? =
        some (.each (.iface .Expr) ys) ∧
      ys.length = [Node.Ident { text := "a" }, Node.Ident { text := "b" }].length := by
  obtain ⟨ys, _, _, h1, h2, _⟩ :=
    (list_slots_keep_length (idRewriter : Rewriter Unit) 2
      (.CallExpr {} (.Ident { text := "f" }) [.Ident { text := "a" }, .Ident { text := "b" }])
      (.CallExpr {} (.Ident { text := "f" }) [.Ident { text := "a" }, .Ident { text := "b" }])
      () () rfl 1 (.iface .Expr) [.Ident { text := "a" }, .Ident { text := "b" }] rfl
      [.File { pos := [1] } .nil (.Ident { text := "p" }) [],
        .File { pos := [50] } .nil (.Ident { text := "p" }) []] [1, 0]
      (by decide) (by decide)).1
      (.CallExpr {} (.Ident { text := "f" }) [.Ident { text := "a" }, .Ident { text := "b" }])
      () rfl
  exact ⟨ys, h1, h2⟩

/-! ## Pure callbacks: the state plays no part -/

/-- The runs that return in the state they were started in, and return the
same value from every state. -/
theorem closed_stateless (σ : Type) :
    Run.Closed (fun (α : Type) (m : Run σ α) =>
      ∀ s a s1, m s = .done (a, s1) → s1 = s ∧ ∀ s2, m s2 = .done (a, s2)) where
  pure := by
    intro α a s b s1 h
    simp only [Run.pure, Outcome.done.injEq, Prod.mk.injEq] at h
    obtain ⟨rfl, rfl⟩ := h
    exact ⟨rfl, fun _ => rfl⟩
  fail := by intro α p s a s1 h; simp [Run.fail] at h
  bind := by
    intro α β x f hx hf s b s2 h
    obtain ⟨a, s1, h1, h2⟩ := Run.bind_eq_done.1 h
    obtain ⟨rfl, hx2⟩ := hx s a s1 h1
    obtain ⟨rfl, hf2⟩ := hf a s1 b s2 h2
    exact ⟨rfl, fun s3 => by rw [Run.bind_done (hx2 s3)]; exact hf2 s3⟩

theorem Rewrite_stateless {σ : Type} (p : Node → Node × Bool) (fuel : Nat) :
    ∀ (t : Node) (s : σ) (y : Node) (s1 : σ),
      Rewrite (Rewriter.ofFun p) fuel t s = .done (y, s1) →
      s1 = s ∧ ∀ s2 : σ, Rewrite (Rewriter.ofFun p) fuel t s2 = .done (y, s2) := by
  induction fuel with
  | zero => intro t s y s1 h; simp [Rewrite_zero] at h
  | succ fuel ih =>
    intro t s y s1 h
    cases hb : (p t).2 with
    | false =>
      have hr : ∀ s2 : σ, (Rewriter.ofFun p : Rewriter σ) t s2 = (((p t).1, false), s2) := by
        intro s2; simp only [Rewriter.ofFun]; rw [← hb]
      rw [Rewrite_stop fuel (hr s)] at h
      simp only [Outcome.done.injEq, Prod.mk.injEq] at h
      obtain ⟨rfl, rfl⟩ := h
      exact ⟨rfl, fun s2 => Rewrite_stop fuel (hr s2)⟩
    | true =>
      have hr : ∀ s2 : σ, (Rewriter.ofFun p : Rewriter σ) t s2 = (((p t).1, true), s2) := by
        intro s2; simp only [Rewriter.ofFun]; rw [← hb]
      have hΦ := (closed_stateless σ).bind _ _ _ _
        (closed_rewriteChildren (closed_stateless σ) (Rewrite (Rewriter.ofFun p) fuel) (p t).1
          (fun c _ => ih c))
        (fun n2 => (closed_stateless σ).bind _ _
          ((Rewriter.ofFun p : Rewriter σ).call .nil) (fun _ => Run.pure n2)
          (by
            intro s0 a s3 h0
            simp only [Rewriter.call, Rewriter.ofFun, Outcome.done.injEq, Prod.mk.injEq] at h0
            obtain ⟨rfl, rfl⟩ := h0
            exact ⟨rfl, fun _ => rfl⟩)
          (fun _ => (closed_stateless σ).pure _ _))
      rw [Rewrite_cont fuel (hr s)] at h
      obtain ⟨h1, h2⟩ := hΦ s y s1 h
      exact ⟨h1, fun s2 => by rw [Rewrite_cont fuel (hr s2)]; exact h2 s2⟩

/-- Under a pure callback the result for a node is a function of the node. -/
theorem resultAt_of_done {σ : Type} (p : Node → Node × Bool) (fuel : Nat) (s : σ) {c y : Node}
    {st st1 : σ} (h : Rewrite (Rewriter.ofFun p) fuel c st = .done (y, st1)) :
    resultAt (Rewriter.ofFun p) fuel s c = y ∧
      Rewrite (Rewriter.ofFun p) fuel c s = .done (y, s) := by
  have h2 := (Rewrite_stateless p fuel c st y st1 h).2 s
  exact ⟨by simp [resultAt, h2], h2⟩

/-! ## Slots filled with a result function -/

theorem shape_rel_fill {R : Node → Node → Prop} {G : Node → Node}
    (hG : ∀ c y, R c y → y = G c) {sh : Shape} {v v1 : Node} (h : sh.Rel R v v1) :
    v1 = sh.fill G v := by
  unfold Shape.Rel at h
  unfold Shape.fill
  cases hc : sh.arg v with
  | none => simpa [hc] using h
  | some c =>
    simp only [hc] at h
    obtain ⟨y, hy, -, rfl⟩ := h
    simp [hG c y hy]

theorem forall₂_eq_map {α β : Type} {f : α → β} {l : List α} {l1 : List β}
    (h : List.Forall₂ (fun a b => b = f a) l l1) : l1 = l.map f := by
  induction h with
  | nil => rfl
  | cons h1 _ ih => simp [h1, ih]

theorem slot_rel_fill {R : Node → Node → Prop} {G : Node → Node}
    (hG : ∀ c y, R c y → y = G c) {x x1 : Slot} (h : Slot.Rel R x x1) : x1 = x.fill G := by
  cases h with
  | one sh v v1 h1 => simp [Slot.fill, shape_rel_fill hG h1]
  | each sh l l1 h1 =>
    simp only [Slot.fill]
    rw [forall₂_eq_map (forall₂_mono h1 (fun a b hab => shape_rel_fill hG hab))]
  | stmts l ys h1 _ =>
    simp only [Slot.fill]
    rw [forall₂_eq_map (forall₂_mono h1 (fun a b hab => shape_rel_fill hG hab))]
    simp [List.map_map, Function.comp_def]

theorem slots_rel_fill {R : Node → Node → Prop} {G : Node → Node}
    (hG : ∀ c y, R c y → y = G c) {sl sl1 : List Slot}
    (h : List.Forall₂ (Slot.Rel R) sl sl1) : sl1 = sl.map (Slot.fill G) :=
  forall₂_eq_map (forall₂_mono h (fun _ _ hab => slot_rel_fill hG hab))

/-! ## C15: substitution is local -/

theorem shape_rel_arg {R : Node → Node → Prop} {sh : Shape} {v v1 c : Node}
    (h : sh.Rel R v v1) (hc : sh.arg v = some c) : ∃ y, R c y := by
  unfold Shape.Rel at h
  simp only [hc] at h
  obtain ⟨y, hy, -⟩ := h
  exact ⟨y, hy⟩

theorem forall₂_left {α β : Type} {R : α → β → Prop} {l : List α} {l1 : List β}
    (h : List.Forall₂ R l l1) : ∀ a ∈ l, ∃ b, R a b := by
  induction h with
  | nil => intro a ha; simp at ha
  | cons h1 _ ih =>
    intro a ha
    rcases List.mem_cons.1 ha with rfl | ha1
    · exact ⟨_, h1⟩
    · exact ih a ha1

/-- When a slot has been rewritten, `Rewrite` has returned for every node that
the slot hands to it. -/
theorem slot_rel_args {R : Node → Node → Prop} {x x1 : Slot} (h : Slot.Rel R x x1) :
    ∀ c ∈ x.args, ∃ y, R c y := by
  intro c hc
  obtain ⟨e, he, hce⟩ := mem_args.1 hc
  cases h with
  | one sh v v1 h1 =>
    simp only [Slot.elems, List.mem_singleton] at he
    subst he
    exact shape_rel_arg h1 hce
  | each sh l l1 h1 =>
    simp only [Slot.elems, List.mem_map] at he
    obtain ⟨v, hv, rfl⟩ := he
    obtain ⟨v1, hv1⟩ := forall₂_left h1 v hv
    exact shape_rel_arg hv1 hce
  | stmts l ys h1 _ =>
    simp only [Slot.elems, List.mem_map] at he
    obtain ⟨v, hv, rfl⟩ := he
    obtain ⟨v1, hv1⟩ := forall₂_left h1 v hv
    exact shape_rel_arg hv1 hce

theorem slots_rel_children {R : Node → Node → Prop} {n : Node} {sl : List Slot}
    (h : List.Forall₂ (Slot.Rel R) n.slots sl) : ∀ c ∈ n.children, ∃ y, R c y := by
  intro c hc
  obtain ⟨x, hx, hcx⟩ := mem_children.1 hc
  obtain ⟨i, hi, rfl⟩ := List.getElem_of_mem hx
  obtain ⟨x1, -, hrel⟩ := forall₂_getElem? h i _ (List.getElem?_eq_getElem hi)
  exact slot_rel_args hrel c hcx

/-- C15 (substitution is local).  `p` is a pure callback with `p n = (n, true)`
and `G c` names the node that `Rewrite` returns for `c` (`resultAt`).
(1) When `Rewrite` returns for `n`, the state is unchanged and the result is
`n` with every slot filled from its own previous content alone
(`Slot.fill G`): a single slot that held `v` holds `v` if the slot is skipped
(nil stays nil), and otherwise the result `G v` of `Rewrite` for `v` as the
assertion of the slot stores it; the fields that hold no child and the type of
the node are unchanged; and `Rewrite` has returned `G c` for every child `c`.
(2) Conversely, if `n` is of a handled type and `Rewrite` returns for every
child a node that passes the assertion of its slot, `Rewrite` returns for `n`.
(3) For a binary expression with both operands present, the result is the
binary expression with the same operator whose operands are the results for
the operands. -/
theorem substitution_local {σ : Type} (p : Node → Node × Bool) (fuel : Nat) (n : Node) (s : σ)
    (hp : p n = (n, true)) :
    (∀ y s1, Rewrite (Rewriter.ofFun p) (fuel + 1) n s = .done (y, s1) →
      s1 = s ∧
      y = n.withSlots (n.slots.map (Slot.fill (resultAt (Rewriter.ofFun p) fuel s))) ∧
      y.attr = n.attr ∧ y.kind = n.kind ∧
      (∀ (i : Nat) (sh : Shape) (v : Node), n.slots[i]? = some (.one sh v) →
        y.slots[i]? = some (.one sh (sh.fill (resultAt (Rewriter.ofFun p) fuel s) v))) ∧
      (∀ c ∈ n.children, Rewrite (Rewriter.ofFun p) fuel c s =
        .done (resultAt (Rewriter.ofFun p) fuel s c, s))) ∧
    (n.kind.isSome = true →
      (∀ x ∈ n.slots, ∀ e ∈ x.elems, ∀ c, e.1.arg e.2 = some c →
        ∃ z, Rewrite (Rewriter.ofFun p) fuel c s = .done (z, s) ∧ e.1.accepts z = true ∧
          z.kind.isSome = true) →
      Rewrite (Rewriter.ofFun p) (fuel + 1) n s =
        .done (n.withSlots (n.slots.map (Slot.fill (resultAt (Rewriter.ofFun p) fuel s))), s)) ∧
    (∀ (a : Attr) (x y out : Node) (s1 : σ), n = .BinaryExpr a x y → x.isNil = false →
      y.isNil = false → Rewrite (Rewriter.ofFun p) (fuel + 1) n s = .done (out, s1) →
      out = .BinaryExpr a (resultAt (Rewriter.ofFun p) fuel s x)
        (resultAt (Rewriter.ofFun p) fuel s y)) := by
  have hr : (Rewriter.ofFun p : Rewriter σ) n s = ((n, true), s) := by
    simp only [Rewriter.ofFun, hp]
  have hG : ∀ c y, (∃ st st1, Rewrite (Rewriter.ofFun p : Rewriter σ) fuel c st = .done (y, st1)) →
      y = resultAt (Rewriter.ofFun p) fuel s c :=
    fun c y ⟨st, st1, h⟩ => (resultAt_of_done p fuel s h).1.symm
  have h1 : ∀ y s1, Rewrite (Rewriter.ofFun p) (fuel + 1) n s = .done (y, s1) →
      s1 = s ∧
      y = n.withSlots (n.slots.map (Slot.fill (resultAt (Rewriter.ofFun p) fuel s))) ∧
      y.attr = n.attr ∧ y.kind = n.kind ∧
      (∀ (i : Nat) (sh : Shape) (v : Node), n.slots[i]? = some (.one sh v) →
        y.slots[i]? = some (.one sh (sh.fill (resultAt (Rewriter.ofFun p) fuel s) v))) ∧
      (∀ c ∈ n.children, Rewrite (Rewriter.ofFun p) fuel c s =
        .done (resultAt (Rewriter.ofFun p) fuel s c, s)) := by
    intro y s1 h
    have hs := (Rewrite_stateless p (fuel + 1) n s y s1 h).1
    rw [Rewrite_cont fuel hr] at h
    obtain ⟨n2, s3, h2, h3⟩ := Run.bind_eq_done.1 h
    obtain ⟨w, s4, -, h4⟩ := Run.bind_eq_done.1 h3
    simp only [Run.pure, Outcome.done.injEq, Prod.mk.injEq] at h4
    obtain ⟨rfl, -⟩ := h4
    by_cases hk : n.kind.isSome = true
    · obtain ⟨sl, -, rfl, hsl, hrel⟩ := rewriteChildren_inv hk h2
      have hfill := slots_rel_fill hG hrel
      refine ⟨hs, by rw [hfill], withSlots_attr _ _, withSlots_kind _ _, ?_, ?_⟩
      · intro i sh v hi
        rw [hsl, hfill, List.getElem?_map, hi]
        rfl
      · intro c hc
        obtain ⟨y, st, st1, hy⟩ := slots_rel_children hrel c hc
        rw [(resultAt_of_done p fuel s hy).1]
        exact (resultAt_of_done p fuel s hy).2
    · cases n <;> first
        | (exfalso; exact hk rfl)
        | (exfalso; simp [rewriteChildren, Run.fail] at h2; done)
        | (obtain ⟨rfl, -⟩ := rewriteChildren_typedNil h2
           exact ⟨hs, rfl, rfl, rfl, fun i sh v hi => by simp [Node.slots] at hi,
             fun c hc => by simp [Node.children, Node.slots] at hc⟩)
  refine ⟨h1, ?_, ?_⟩
  · intro hk hall
    have hsl := rewriteSlots_fill (Rewrite (Rewriter.ofFun p) fuel)
      (resultAt (Rewriter.ofFun p) fuel s) n.slots s (by
        intro x hx e he c hc
        obtain ⟨z, hz, hacc, hkz⟩ := hall x hx e he c hc
        have hGz : resultAt (Rewriter.ofFun p) fuel s c = z := by simp [resultAt, hz]
        rw [hGz]
        exact ⟨hz, hacc, hkz⟩)
    rw [Rewrite_cont fuel hr, rewriteChildren_eq_slots _ _ hk, Run.bind_assoc, Run.bind_done hsl]
    simp [Run.pure_bind, Run.bind, Rewriter.call, Rewriter.ofFun, Run.pure]
  · intro a x y out s1 hn hx hy h
    obtain ⟨-, hout, -⟩ := h1 out s1 h
    rw [hout, hn]
    simp [Node.withSlots, Node.slots, Slot.fill, slotNode, Slot.node, Shape.fill, Shape.arg, hx, hy,
      Shape.stored]

/-- Witness of C15: in `1 + 2` the callback answers each literal with `(x)`;
the result is `(x) + (x)`, with the operator kept. -/
theorem substitution_local_witness :
    Rewrite (litToParen : Rewriter Unit) 3
        (.BinaryExpr { tok := 12 } (.BasicLit { text := "1" }) (.BasicLit { text := "2" })) () =
      .done (.BinaryExpr { tok := 12 } (.ParenExpr {} (.Ident { text := "x" }))
        (.ParenExpr {} (.Ident { text := "x" })), ()) :=
  ((substitution_local litToParenStep 2
    (.BinaryExpr { tok := 12 } (.BasicLit { text := "1" }) (.BasicLit { text := "2" })) ()
    rfl).2.1 rfl (by
      intro x hx e he c hc
      simp only [Node.slots, List.mem_cons, List.mem_singleton, List.not_mem_nil, or_false] at hx
      rcases hx with rfl | rfl <;>
        (simp only [Slot.elems, List.mem_singleton] at he
         subst he
         simp only [Shape.arg, Node.isNil, Bool.false_eq_true, if_false, Option.some.injEq] at hc
         subst hc
         exact ⟨_, rfl, rfl, rfl⟩))).trans rfl

/-! ## C14: no sentinel stays in the tree -/

theorem subnodes_cons (t : Node) (h : t.isNil = false) : t.subnodes = t :: t.subnodes.tail := by
  cases t <;> first
    | (exfalso; simp [Node.isNil] at h; done)
    | rfl

theorem noSentinel_iff (t : Node) :
    t.noSentinel = true ↔ t.isExpanded = false ∧ t.noSentinelBelow = true := by
  cases hn : t.isNil with
  | true =>
    rw [isNil_iff.1 hn]
    exact ⟨fun _ => ⟨rfl, rfl⟩, fun _ => rfl⟩
  | false =>
    unfold Node.noSentinel Node.noSentinelBelow
    rw [subnodes_cons t hn]
    simp

theorem noSentinel_ptrValue {y : Node} (h : y.noSentinel = true) : y.ptrValue.noSentinel = true := by
  cases y <;> first
    | rfl
    | exact h

theorem noSentinel_stored (sh : Shape) {y : Node} (h : y.noSentinel = true) :
    (sh.stored y).noSentinel = true := by
  cases sh <;> first
    | exact noSentinel_ptrValue h
    | exact h

theorem eq_nil_of_arg_none {sh : Shape} {v : Node} (h : sh.arg v = none) : v = .nil := by
  cases sh <;> simp only [Shape.arg] at h
  · by_cases hn : v.isNil = true
    · exact isNil_iff.1 hn
    · simp [hn] at h
  · by_cases hn : v.isNil = true
    · exact isNil_iff.1 hn
    · simp [hn] at h
  · simp at h
  · simp at h

/-- The elements of the list that a rewritten statement is spliced to carry no
sentinel, if the statement carries none below its top. -/
theorem noSentinel_spliced {y : Node} (h : y.noSentinelBelow = true) :
    ∀ v ∈ spliced y, v.noSentinel = true := by
  cases hy : y.isExpanded with
  | false =>
    rw [spliced_of_not_expanded hy]
    intro v hv
    simp only [List.mem_singleton] at hv
    subst hv
    exact (noSentinel_iff _).2 ⟨hy, h⟩
  | true =>
    cases y <;> simp [Node.isExpanded] at hy
    rename_i a sub
    intro v hv
    simp only [spliced] at hv
    simp only [Node.noSentinelBelow, Node.subnodes, List.tail_cons, all_subnodesList] at h
    exact List.all_eq_true.1 h v hv

theorem shape_rel_noSentinel {R : Node → Node → Prop} {sh : Shape} {v v1 : Node}
    (P : Node → Prop) (hnil : P .nil) (h : sh.Rel R v v1)
    (hR : ∀ c, sh.arg v = some c → ∀ y, R c y → P (sh.stored y)) : P v1 := by
  unfold Shape.Rel at h
  cases hc : sh.arg v with
  | none =>
    simp only [hc] at h
    rw [h, eq_nil_of_arg_none hc]
    exact hnil
  | some c =>
    simp only [hc] at h
    obtain ⟨y, hy, -, rfl⟩ := h
    exact hR c hc y hy

theorem forall₂_right {α β : Type} {R : α → β → Prop} {l : List α} {l1 : List β}
    (h : List.Forall₂ R l l1) : ∀ b ∈ l1, ∃ a ∈ l, R a b := by
  induction h with
  | nil => intro b hb; simp at hb
  | cons h1 _ ih =>
    intro b hb
    rcases List.mem_cons.1 hb with rfl | hb1
    · exact ⟨_, List.mem_cons_self _ _, h1⟩
    · obtain ⟨a, ha, hab⟩ := ih b hb1
      exact ⟨a, List.mem_cons_of_mem _ ha, hab⟩

/-- The content of a rewritten slot carries no sentinel, if the results for
the nodes of a statement list carry none below their top and the results for
the nodes of the other slots carry none at all. -/
theorem slot_rel_noSentinel {R : Node → Node → Prop} {x x1 : Slot} (h : Slot.Rel R x x1)
    (hL : x.isStmts = true → ∀ c ∈ x.args, ∀ y, R c y → y.noSentinelBelow = true)
    (hS : x.isStmts = false → ∀ c ∈ x.args, ∀ y, R c y → y.noSentinel = true) :
    ∀ v ∈ x1.contents, v.noSentinel = true := by
  cases h with
  | one sh v v1 h1 =>
    intro w hw
    simp only [Slot.contents, List.mem_singleton] at hw
    subst hw
    exact shape_rel_noSentinel (fun z => z.noSentinel = true) rfl h1
      (fun c hc y hy => noSentinel_stored sh (hS rfl c (by simp [Slot.args, hc]) y hy))
  | each sh l l1 h1 =>
    intro w hw
    simp only [Slot.contents] at hw
    obtain ⟨v, hv, hrel⟩ := forall₂_right h1 w hw
    exact shape_rel_noSentinel (fun z => z.noSentinel = true) rfl hrel
      (fun c hc y hy => noSentinel_stored sh
        (hS rfl c (by simp only [Slot.args, List.mem_filterMap]; exact ⟨v, hv, hc⟩) y hy))
  | stmts l ys h1 _ =>
    intro w hw
    simp only [Slot.contents, List.mem_flatten, List.mem_map] at hw
    obtain ⟨piece, ⟨y1, hy1, rfl⟩, hwp⟩ := hw
    obtain ⟨v, hv, hrel⟩ := forall₂_right h1 y1 hy1
    refine noSentinel_spliced ?_ w hwp
    exact shape_rel_noSentinel (fun z => z.noSentinelBelow = true) rfl hrel
      (fun c hc y hy => by
        simpa [Shape.stored] using
          hL rfl c (by simp only [Slot.args, List.mem_filterMap]; exact ⟨v, hv, hc⟩) y hy)

/-- A node of a handled type carries no sentinel below its top if the contents
of its slots carry none. -/
theorem noSentinelBelow_of_slots {n : Node} (hk : n.kind.isSome = true)
    (h : ∀ x ∈ n.slots, ∀ v ∈ x.contents, v.noSentinel = true) : n.noSentinelBelow = true := by
  unfold Node.noSentinelBelow
  rw [subnodes_eq_slots n hk]
  simp only [List.tail_cons, all_subnodesList, List.all_eq_true, List.mem_flatten, List.mem_map]
  rintro v ⟨cs, ⟨x, hx, rfl⟩, hv⟩
  exact List.all_eq_true.1 (h x hx v hv)

/-- The invariant argument behind C14. -/
theorem noSentinel_of_invariants {σ : Type} (r : Rewriter σ) (InvS InvL : Node → Prop)
    (hS : ∀ n s, InvS n → (r n s).1.1.isExpanded = false)
    (hB : ∀ n s, InvS n ∨ InvL n → (r n s).1.2 = false → (r n s).1.1.noSentinelBelow = true)
    (hStep : ∀ n s, InvS n ∨ InvL n → (r n s).1.2 = true → ∀ x ∈ (r n s).1.1.slots,
      ∀ c ∈ x.args, (x.isStmts = true → InvL c) ∧ (x.isStmts = false → InvS c))
    (fuel : Nat) (t : Node) (s : σ) (y : Node) (s1 : σ)
    (h : Rewrite r fuel t s = .done (y, s1)) :
    (InvS t → y.noSentinel = true) ∧ (InvL t → y.noSentinelBelow = true) := by
  induction fuel generalizing t s y s1 with
  | zero => simp [Rewrite_zero] at h
  | succ fuel ih =>
    have hboth : InvS t ∨ InvL t → y.noSentinelBelow = true ∧ y.isExpanded = (r t s).1.1.isExpanded := by
      intro hI
      cases hb : (r t s).1.2 with
      | false =>
        have hr : r t s = (((r t s).1.1, false), (r t s).2) := by rw [← hb]
        rw [Rewrite_stop fuel hr] at h
        simp only [Outcome.done.injEq, Prod.mk.injEq] at h
        rw [← h.1]
        exact ⟨hB t s hI hb, rfl⟩
      | true =>
        have hr : r t s = (((r t s).1.1, true), (r t s).2) := by rw [← hb]
        rw [Rewrite_cont fuel hr] at h
        obtain ⟨n2, s3, h2, h3⟩ := Run.bind_eq_done.1 h
        obtain ⟨w, s4, -, h4⟩ := Run.bind_eq_done.1 h3
        simp only [Run.pure, Outcome.done.injEq, Prod.mk.injEq] at h4
        obtain ⟨rfl, -⟩ := h4
        by_cases hk : (r t s).1.1.kind.isSome = true
        · obtain ⟨sl, -, rfl, hsl, hrel⟩ := rewriteChildren_inv hk h2
          have hk2 : ((r t s).1.1.withSlots sl).kind.isSome = true := by
            rw [withSlots_kind]; exact hk
          refine ⟨noSentinelBelow_of_slots hk2 ?_, ?_⟩
          · intro x1 hx1 v hv
            rw [hsl] at hx1
            obtain ⟨x, hx, hxrel⟩ := forall₂_right hrel x1 hx1
            refine slot_rel_noSentinel hxrel ?_ ?_ v hv
            · intro hst c hc z ⟨st, st1, hz⟩
              exact (ih c st z st1 hz).2 ((hStep t s hI hb x hx c hc).1 hst)
            · intro hst c hc z ⟨st, st1, hz⟩
              exact (ih c st z st1 hz).1 ((hStep t s hI hb x hx c hc).2 hst)
          · rw [isExpanded_eq_kind, isExpanded_eq_kind, withSlots_kind]
        · generalize (r t s).1.1 = n1 at h2 hk
          cases n1 <;> first
            | (exfalso; exact hk rfl)
            | (exfalso; simp [rewriteChildren, Run.fail] at h2; done)
            | (obtain ⟨rfl, -⟩ := rewriteChildren_typedNil h2
               exact ⟨rfl, rfl⟩)
    refine ⟨fun hI => ?_, fun hI => (hboth (Or.inr hI)).1⟩
    obtain ⟨h1, h2⟩ := hboth (Or.inl hI)
    exact (noSentinel_iff y).2 ⟨by rw [h2]; exact hS t s hI, h1⟩

/-! ## The callback of `ExampleRewrite` leaves no sentinel -/

theorem expandsInLists_elem {n v : Node} {x : Slot} {sh : Shape} (hk : n.kind.isSome = true)
    (h : n.expandsInLists = true) (hx : x ∈ n.slots) (he : (sh, v) ∈ x.elems) :
    v.expandsInLists = true :=
  all_subnodes_of_elem _ hk h hx he

theorem not_multi_of_nonlist {n c : Node} {x : Slot} (hk : n.kind.isSome = true)
    (h : n.expandsInLists = true) (hx : x ∈ n.slots) (hst : x.isStmts = false)
    (hc : c ∈ x.args) : c.isMultiDefine = false := by
  have h1 := List.all_eq_true.1 h n (self_mem_subnodes hk)
  have h2 := List.all_eq_true.1 h1 x hx
  simp only [hst, Bool.false_or] at h2
  simpa using List.all_eq_true.1 h2 c hc

theorem parsed_kind {n : Node} (h : n.parsed = true) : n.kind.isSome = true := by
  simp only [Node.parsed, Bool.and_eq_true] at h
  exact kind_of_localOK (localOK_root h.1)

theorem parsed_holds {n v : Node} {x : Slot} {sh : Shape} (h : n.parsed = true)
    (hx : x ∈ n.slots) (he : (sh, v) ∈ x.elems) : sh.holds v = true := by
  simp only [Node.parsed, Bool.and_eq_true] at h
  exact holds_of_localOK (localOK_root h.1) hx he

/-- The single assignments made from an expanded assignment keep the
invariant. -/
theorem single_assign_expandsInLists {a : Attr} {lhs rhs : List Node} {l r : Node}
    (h : (Node.AssignStmt a lhs rhs).expandsInLists = true) (hl : l ∈ lhs) (hr : r ∈ rhs) :
    (Node.AssignStmt { tok := DEFINE } [l] [r]).expandsInLists = true := by
  have hk : (Node.AssignStmt a lhs rhs).kind.isSome = true := rfl
  have hxl : Slot.each (.iface .Expr) lhs ∈ (Node.AssignStmt a lhs rhs).slots := by
    simp [Node.slots]
  have hxr : Slot.each (.iface .Expr) rhs ∈ (Node.AssignStmt a lhs rhs).slots := by
    simp [Node.slots]
  have hel : (Shape.iface .Expr, l) ∈ (Slot.each (.iface .Expr) lhs).elems := by
    simp only [Slot.elems, List.mem_map]; exact ⟨l, hl, rfl⟩
  have her : (Shape.iface .Expr, r) ∈ (Slot.each (.iface .Expr) rhs).elems := by
    simp only [Slot.elems, List.mem_map]; exact ⟨r, hr, rfl⟩
  have hl1 : l.expandsInLists = true := expandsInLists_elem hk h hxl hel
  have hr1 : r.expandsInLists = true := expandsInLists_elem hk h hxr her
  have hlm : ∀ c, (Shape.iface .Expr).arg l = some c → c.isMultiDefine = false := fun c hc =>
    not_multi_of_nonlist hk h hxl rfl
      (by simp only [Slot.args, List.mem_filterMap]; exact ⟨l, hl, hc⟩)
  have hrm : ∀ c, (Shape.iface .Expr).arg r = some c → c.isMultiDefine = false := fun c hc =>
    not_multi_of_nonlist hk h hxr rfl
      (by simp only [Slot.args, List.mem_filterMap]; exact ⟨r, hr, hc⟩)
  have hsub : (Node.AssignStmt { tok := DEFINE } [l] [r]).subnodes =
      Node.AssignStmt { tok := DEFINE } [l] [r] :: (l.subnodes ++ r.subnodes) := by
    simp [Node.subnodes, subnodesList]
  unfold Node.expandsInLists
  rw [hsub, List.all_cons, List.all_append]
  simp only [Bool.and_eq_true]
  refine ⟨?_, hl1, hr1⟩
  simp only [Node.slots, List.all_cons, List.all_nil, Slot.isStmts, Bool.false_or, Bool.and_true,
    Slot.args, Bool.and_eq_true, List.all_eq_true, List.mem_filterMap, List.mem_singleton]
  constructor
  · rintro c ⟨v, rfl, hc⟩
    simp [hlm c hc]
  · rintro c ⟨v, rfl, hc⟩
    simp [hrm c hc]

/-- The callback of `ExampleRewrite` meets the conditions of the invariant
argument on the trees of a parser in which the assignments it expands stand
only in statement lists. -/
theorem example_invariants {σ : Type} :
    (∀ (n : Node) (s : σ),
      ((n.parsed = true ∧ n.expandsInLists = true) ∧ n.isMultiDefine = false) →
      ((exampleRewriter : Rewriter σ) n s).1.1.isExpanded = false) ∧
    (∀ (n : Node) (s : σ),
      ((n.parsed = true ∧ n.expandsInLists = true) ∧ n.isMultiDefine = false) ∨
        (n.parsed = true ∧ n.expandsInLists = true) →
      ((exampleRewriter : Rewriter σ) n s).1.2 = false →
      ((exampleRewriter : Rewriter σ) n s).1.1.noSentinelBelow = true) ∧
    (∀ (n : Node) (s : σ),
      ((n.parsed = true ∧ n.expandsInLists = true) ∧ n.isMultiDefine = false) ∨
        (n.parsed = true ∧ n.expandsInLists = true) →
      ((exampleRewriter : Rewriter σ) n s).1.2 = true →
      ∀ x ∈ ((exampleRewriter : Rewriter σ) n s).1.1.slots, ∀ c ∈ x.args,
        (x.isStmts = true → c.parsed = true ∧ c.expandsInLists = true) ∧
        (x.isStmts = false →
          (c.parsed = true ∧ c.expandsInLists = true) ∧ c.isMultiDefine = false)) := by
  have hval : ∀ (n : Node) (s : σ), ((exampleRewriter : Rewriter σ) n s).1 = exampleStep n :=
    fun _ _ => rfl
  refine ⟨?_, ?_, ?_⟩
  · rintro n s ⟨⟨hp, -⟩, hm⟩
    rw [hval]
    rcases exampleStep_cases n with ⟨-, h⟩ | ⟨a, lhs, rhs, rfl, hmd, -⟩
    · rw [h]
      simp only [Node.parsed, Bool.and_eq_true] at hp
      have := List.all_eq_true.1 hp.2 n (self_mem_subnodes (kind_of_localOK (localOK_root hp.1)))
      simpa using this
    · simp [Node.isMultiDefine, hmd] at hm
  · intro n s _ hb
    rw [hval] at hb
    rcases exampleStep_cases n with ⟨-, h⟩ | ⟨a, lhs, rhs, rfl, -, h⟩ <;> simp [h] at hb
  · intro n s hI _ x hx c hc
    have hpq : n.parsed = true ∧ n.expandsInLists = true := by
      rcases hI with h | h
      · exact h.1
      · exact h
    obtain ⟨hp, hq⟩ := hpq
    rw [hval] at hx
    rcases exampleStep_cases n with ⟨-, h⟩ | ⟨a, lhs, rhs, rfl, -, h⟩
    · rw [h] at hx
      obtain ⟨⟨sh, v⟩, he, harg⟩ := mem_args.1 hc
      obtain ⟨rfl, -, -⟩ := arg_of_holds (parsed_holds hp hx he) harg
      have hcp : c.parsed = true ∧ c.expandsInLists = true :=
        ⟨(parsed_child hp (mem_children.2 ⟨x, hx, hc⟩)).1,
          expandsInLists_elem (parsed_kind hp) hq hx he⟩
      exact ⟨fun _ => hcp, fun hst => ⟨hcp, not_multi_of_nonlist (parsed_kind hp) hq hx hst hc⟩⟩
    · rw [h] at hx
      simp only [Node.slots, List.mem_singleton] at hx
      subst hx
      simp only [Slot.args, List.mem_filterMap] at hc
      obtain ⟨v, hv, harg⟩ := hc
      obtain ⟨l, r, hl, hr, rfl⟩ := mem_expandAssign hv
      simp only [Shape.arg, Node.isNil, Bool.false_eq_true, if_false, Option.some.injEq] at harg
      subst harg
      refine ⟨fun _ => ⟨(single_assign_parsed hp hl hr).1,
        single_assign_expandsInLists hq hl hr⟩, fun hst => by simp [Slot.isStmts] at hst⟩

/-! ## C14, the statement -/

/-- C14 (the sentinel is not durable).  Let `InvS` hold of the nodes that are
handed to `Rewrite` from a place that is not a statement list (the root, the
single slots, the elements of the other lists) and `InvL` of those handed from
a statement list, so that:
the callback does not answer a node of `InvS` with a sentinel;
an answer with `continue = false` carries no sentinel below its top;
when the callback continues, the nodes of each statement list of its answer are
in `InvL` and the nodes of the other slots are in `InvS`.
Then whenever `Rewrite` returns for a node of `InvS`, the tree it returns has
no `ExpandedBlockStmt` anywhere; and what it returns for a node of `InvL` has
none below its top (the splice then removes the top one). -/
theorem sentinel_not_durable {σ : Type} (r : Rewriter σ) (InvS InvL : Node → Prop)
    (hS : ∀ n s, InvS n → (r n s).1.1.isExpanded = false)
    (hB : ∀ n s, InvS n ∨ InvL n → (r n s).1.2 = false → (r n s).1.1.noSentinelBelow = true)
    (hStep : ∀ n s, InvS n ∨ InvL n → (r n s).1.2 = true → ∀ x ∈ (r n s).1.1.slots,
      ∀ c ∈ x.args, (x.isStmts = true → InvL c) ∧ (x.isStmts = false → InvS c))
    (fuel : Nat) (t : Node) (s : σ) (y : Node) (s1 : σ)
    (h : Rewrite r fuel t s = .done (y, s1)) :
    (InvS t → y.noSentinel = true) ∧ (InvL t → y.noSentinelBelow = true) :=
  noSentinel_of_invariants r InvS InvL hS hB hStep fuel t s y s1 h

/-- Under the callback of `ExampleRewrite`, on a tree of a parser in which the
assignments it expands stand only in statement lists, `Rewrite` returns and the
tree it returns has no `ExpandedBlockStmt`. -/
theorem exampleResult_noSentinel {σ : Type} (t : Node) (fuel : Nat) (s : σ)
    (hp : t.parsed = true) (hq : t.expandsInLists = true) (hm : t.isMultiDefine = false)
    (hf : exampleMeasure t < fuel) :
    Rewrite (exampleRewriter : Rewriter σ) fuel t s = .done (exampleResult t, s) ∧
      (exampleResult t).noSentinel = true := by
  have hrun := (exampleResult_spec t hp fuel s hf).1
  exact ⟨hrun, (noSentinel_of_invariants (exampleRewriter : Rewriter σ) _ _
    example_invariants.1 example_invariants.2.1 example_invariants.2.2
    fuel t s _ s hrun).1 ⟨⟨hp, hq⟩, hm⟩⟩

/-- Witness of C14: the function literal `func() { x, y := 0, 1 }` under the
callback of `ExampleRewrite`; the tree returned, `func() { x := 0; y := 1 }`,
has no `ExpandedBlockStmt`. -/
theorem sentinel_not_durable_witness :
    Rewrite (exampleRewriter : Rewriter Unit) 20
        (.FuncLit {} (.FuncType {} (.FieldList {} []) .nil)
          (.BlockStmt {} [.AssignStmt { tok := DEFINE }
            [.Ident { text := "x" }, .Ident { text := "y" }]
            [.BasicLit { text := "0" }, .BasicLit { text := "1" }]])) () =
      .done (.FuncLit {} (.FuncType {} (.FieldList {} []) .nil)
          (.BlockStmt {} [
            .AssignStmt { tok := DEFINE } [.Ident { text := "x" }] [.BasicLit { text := "0" }],
            .AssignStmt { tok := DEFINE } [.Ident { text := "y" }] [.BasicLit { text := "1" }]]),
        ()) ∧
    (Node.FuncLit {} (.FuncType {} (.FieldList {} []) .nil)
          (.BlockStmt {} [
            .AssignStmt { tok := DEFINE } [.Ident { text := "x" }] [.BasicLit { text := "0" }],
            .AssignStmt { tok := DEFINE } [.Ident { text := "y" }]
              [.BasicLit { text := "1" }]])).noSentinel = true :=
  ⟨rfl, (sentinel_not_durable (exampleRewriter : Rewriter Unit) _ _
    example_invariants.1 example_invariants.2.1 example_invariants.2.2
    20
    (.FuncLit {} (.FuncType {} (.FieldList {} []) .nil)
      (.BlockStmt {} [.AssignStmt { tok := DEFINE }
        [.Ident { text := "x" }, .Ident { text := "y" }]
        [.BasicLit { text := "0" }, .BasicLit { text := "1" }]])) ()
    (.FuncLit {} (.FuncType {} (.FieldList {} []) .nil)
      (.BlockStmt {} [
        .AssignStmt { tok := DEFINE } [.Ident { text := "x" }] [.BasicLit { text := "0" }],
        .AssignStmt { tok := DEFINE } [.Ident { text := "y" }] [.BasicLit { text := "1" }]]))
    () rfl).1 ⟨⟨by decide, by decide⟩, by decide⟩⟩

/-! ## Runs beside a log of the calls of a pure callback -/

theorem rewriteOne_traced {σ β : Type} (sh : Shape) (rw : Node → Run σ Node)
    (T : Node → List β) (v : Node) :
    rewriteOne sh (traced rw T) v =
      (rewriteOne sh rw v).logging (((sh.arg v).toList.map T).flatten) := by
  rw [rewriteOne_eq, rewriteOne_eq]
  cases hc : sh.arg v with
  | none => exact (Run.logging_pure v).symm
  | some c =>
    have h := Run.logging_bind (rw c) (fun y =>
      if sh.accepts y then Run.pure (sh.stored y) else Run.fail .typeAssertion) (T c)
      ([] : List β)
    simp only [List.append_nil] at h
    simp only [Option.toList, List.map_cons, List.map_nil, List.flatten_cons, List.flatten_nil,
      List.append_nil]
    rw [h]
    refine congrArg _ (funext fun y => ?_)
    by_cases hy : sh.accepts y
    · simp only [hy, if_true]; exact (Run.logging_pure _).symm
    · simp only [hy]; exact (Run.logging_fail _ _).symm

theorem rewriteEach_traced {σ β : Type} (sh : Shape) (rw : Node → Run σ Node)
    (T : Node → List β) (l : List Node) :
    rewriteEach (rewriteOne sh (traced rw T)) l =
      (rewriteEach (rewriteOne sh rw) l).logging (((l.filterMap sh.arg).map T).flatten) := by
  induction l with
  | nil => exact (Run.logging_pure _).symm
  | cons x rest ih =>
    simp only [rewriteEach, Run.bind_eq]
    rw [filterMap_cons_toList, List.map_append, List.flatten_append, Run.logging_bind,
      rewriteOne_traced, ih]
    refine congrArg _ (funext fun y => ?_)
    rw [Run.logging_bind_pure]

theorem rewriteStmtListLoop_traced {σ β : Type} (rw : Node → Run σ Node) (T : Node → List β)
    (l : List Node) :
    ∀ front, rewriteStmtListLoop (traced rw T) front l =
      (rewriteStmtListLoop rw front l).logging
        (((l.filterMap (Shape.iface .Stmt).arg).map T).flatten) := by
  induction l with
  | nil => intro front; exact (Run.logging_pure _).symm
  | cons x rest ih =>
    intro front
    simp only [rewriteStmtListLoop, Run.bind_eq]
    rw [filterMap_cons_toList, List.map_append, List.flatten_append, Run.logging_bind]
    have h1 := rewriteOne_traced (.iface .Stmt) rw T x
    simp only [rewriteOne] at h1
    simp only [rewriteStmt]
    rw [h1]
    refine congrArg _ (funext fun y => ?_)
    split
    · exact ih _
    · exact (Run.logging_fail _ _).symm
    · exact ih _

theorem rewriteSlot_traced {σ β : Type} (rw : Node → Run σ Node) (T : Node → List β)
    (x : Slot) :
    rewriteSlot (traced rw T) x = (rewriteSlot rw x).logging ((x.args.map T).flatten) := by
  cases x with
  | one sh v =>
    simp only [rewriteSlot, Run.bind_eq, Slot.args]
    rw [Run.logging_bind_pure, rewriteOne_traced]
  | each sh l =>
    simp only [rewriteSlot, Run.bind_eq, Slot.args]
    rw [Run.logging_bind_pure, rewriteEach_traced]
  | stmts l =>
    simp only [rewriteSlot, Run.bind_eq, Slot.args, rewriteStmtList]
    rw [Run.logging_bind_pure, rewriteStmtListLoop_traced]

theorem rewriteSlots_traced {σ β : Type} (rw : Node → Run σ Node) (T : Node → List β)
    (sl : List Slot) :
    rewriteSlots (traced rw T) sl =
      (rewriteSlots rw sl).logging ((((sl.map Slot.args).flatten).map T).flatten) := by
  induction sl with
  | nil => exact (Run.logging_pure _).symm
  | cons x rest ih =>
    simp only [rewriteSlots, Run.bind_eq, List.map_cons, List.flatten_cons, List.map_append,
      List.flatten_append]
    rw [Run.logging_bind, rewriteSlot_traced, ih]
    refine congrArg _ (funext fun y => ?_)
    rw [Run.logging_bind_pure]

/-- The log of the type switch is made of the logs of the recursive calls on
the children of the node, in order. -/
theorem rewriteChildren_traced {σ β : Type} (rw : Node → Run σ Node) (T : Node → List β)
    (n : Node) :
    rewriteChildren (traced rw T) n =
      (rewriteChildren rw n).logging ((n.children.map T).flatten) := by
  by_cases hk : n.kind.isSome = true
  · rw [rewriteChildren_eq_slots _ n hk, rewriteChildren_eq_slots _ n hk, Run.logging_bind_pure,
      rewriteSlots_traced]
    rfl
  · rw [children_of_no_kind hk]
    cases n <;> first
      | (exfalso; exact hk rfl)
      | exact (Run.logging_fail _ _).symm
      | (simp only [rewriteChildren]; split
         · exact (Run.logging_pure _).symm
         · exact (Run.logging_fail _ _).symm)

/-- Under a pure callback, `Rewrite` with the recording callback is `Rewrite`
with the callback itself, and when it returns the log has grown by the calls
that `traceFun` lists. -/
theorem Rewrite_recording_pure {σ : Type} (p : Node → Node × Bool) (fuel : Nat) :
    Rewrite (recording (Rewriter.ofFun p : Rewriter σ)) fuel =
      traced (Rewrite (Rewriter.ofFun p : Rewriter σ) fuel) (traceFun p fuel) := by
  induction fuel with
  | zero => funext t st; rfl
  | succ fuel ih =>
    funext t st
    obtain ⟨s, log⟩ := st
    cases hb : (p t).2 with
    | false =>
      have hr : (Rewriter.ofFun p : Rewriter σ) t s = (((p t).1, false), s) := by
        simp only [Rewriter.ofFun]; rw [← hb]
      have hrr : recording (Rewriter.ofFun p : Rewriter σ) t (s, log) =
          (((p t).1, false), (s, log ++ [{ arg := t, ret := (p t).1, cont := false }])) := by
        simp only [recording, hr]
      simp only [traced, Run.logging, Rewrite_stop fuel hr, Rewrite_stop fuel hrr, traceFun, hb,
        Bool.false_eq_true, if_false]
    | true =>
      have hr : (Rewriter.ofFun p : Rewriter σ) t s = (((p t).1, true), s) := by
        simp only [Rewriter.ofFun]; rw [← hb]
      have hrr : recording (Rewriter.ofFun p : Rewriter σ) t (s, log) =
          (((p t).1, true), (s, log ++ [{ arg := t, ret := (p t).1, cont := true }])) := by
        simp only [recording, hr]
      rw [Rewrite_cont fuel hrr, ih, rewriteChildren_traced]
      simp only [traced, Run.logging, Rewrite_cont fuel hr, traceFun, hb, if_true, Run.bind]
      cases rewriteChildren (Rewrite (Rewriter.ofFun p) fuel) (p t).1 s with
      | done v =>
        obtain ⟨n2, s2⟩ := v
        simp [Rewriter.call, recording, Rewriter.ofFun, Run.pure]
      | panic q => rfl
      | outOfFuel => rfl

/-! ## The pre-order listing and the children -/

theorem subnodesList_filterMap (sh : Shape) (l : List Node) (h : ∀ v ∈ l, sh.holds v = true) :
    subnodesList l = ((l.filterMap sh.arg).map Node.subnodes).flatten := by
  induction l with
  | nil => rfl
  | cons x rest ih =>
    rw [filterMap_cons_toList, subnodesList, ih (fun v hv => h v (List.mem_cons_of_mem _ hv))]
    cases hc : sh.arg x with
    | none =>
      rw [eq_nil_of_arg_none hc]
      simp [Node.subnodes]
    | some c =>
      obtain ⟨rfl, -, -⟩ := arg_of_holds (h x (List.mem_cons_self _ _)) hc
      simp

theorem slot_subnodes {x : Slot} (h : x.ok = true) :
    subnodesList x.contents = (x.args.map Node.subnodes).flatten := by
  cases x with
  | one sh v =>
    have := subnodesList_filterMap sh [v] (by simpa [Slot.ok] using h)
    simpa [Slot.contents, Slot.args, filterMap_cons_toList] using this
  | each sh l =>
    exact subnodesList_filterMap sh l (by simpa [Slot.ok, List.all_eq_true] using h)
  | stmts l =>
    exact subnodesList_filterMap (.iface .Stmt) l (by simpa [Slot.ok, List.all_eq_true] using h)

theorem slots_subnodes (sl : List Slot) (h : ∀ x ∈ sl, x.ok = true) :
    subnodesList ((sl.map Slot.contents).flatten) =
      (((sl.map Slot.args).flatten).map Node.subnodes).flatten := by
  induction sl with
  | nil => rfl
  | cons x rest ih =>
    simp only [List.map_cons, List.flatten_cons, subnodesList_append, List.map_append,
      List.flatten_append]
    rw [slot_subnodes (h x (List.mem_cons_self _ _)),
      ih (fun y hy => h y (List.mem_cons_of_mem _ hy))]

/-- The listing of a node with well-filled slots: the node, then the listings
of its children, child after child. -/
theorem subnodes_eq_children {n : Node} (h : n.localOK = true) :
    n.subnodes = n :: (n.children.map Node.subnodes).flatten := by
  have hk := kind_of_localOK h
  simp only [Node.localOK, Bool.and_eq_true, List.all_eq_true] at h
  rw [subnodes_eq_slots n hk, slots_subnodes n.slots h.2]
  rfl

/-- Under the identity callback the nodes on which the callback is called are
the nodes of the tree in the order of `Node.subnodes`. -/
theorem trace_id (fuel : Nat) : ∀ t : Node, t.wellTyped = true → t.size < fuel →
    ((traceFun (fun n => (n, true)) fuel t).map (fun c => c.arg)).filter (fun v => !v.isNil) =
      t.subnodes := by
  induction fuel with
  | zero => intro t _ h; omega
  | succ fuel ih =>
    intro t ht hs
    have hloc := localOK_root ht
    have hnil : t.isNil = false := isNil_of_kind (kind_of_localOK hloc)
    have hn0 : Node.nil.isNil = true := rfl
    rw [subnodes_eq_children hloc]
    simp only [traceFun, if_true, List.map_cons, List.map_append, List.map_nil, List.filter_cons,
      hnil, Bool.not_false, List.filter_append, hn0, Bool.not_true, Bool.false_eq_true,
      if_false, List.filter_nil, List.append_nil, List.cons.injEq, true_and, List.map_flatten,
      List.filter_flatten, List.map_map]
    congr 1
    apply List.map_congr_left
    intro c hc
    have hch := wellTyped_child ht hc
    exact ih c hch.1 (by omega)

/-! ## The order of the type switch and the declared order -/

theorem preorderList_append (l1 l2 : List Node) :
    preorderList (l1 ++ l2) = preorderList l1 ++ preorderList l2 := by
  induction l1 with
  | nil => simp [preorderList]
  | cons x rest ih => simp [preorderList, ih]

set_option maxHeartbeats 4000000 in
/-- Away from map types the two listings are built in the same way. -/
theorem preorder_eq_slots (n : Node) (h : n.kind.isSome = true)
    (hm : ∀ a key value, n = .MapType a key value → key.isNil = true ∨ value.isNil = true) :
    n.preorder = n :: preorderList ((n.slots.map Slot.contents).flatten) := by
  cases n with
  | MapType a key value =>
    rcases hm a key value rfl with hk | hv
    · rw [isNil_iff.1 hk]
      simp [Node.preorder, Node.slots, Slot.contents, preorderList]
    · rw [isNil_iff.1 hv]
      simp [Node.preorder, Node.slots, Slot.contents, preorderList]
  | _ =>
    first
      | (simp [Node.kind] at h; done)
      | simp [Node.preorder, Node.slots, Slot.contents, preorderList_append, preorderList]

theorem preorderList_eq {l : List Node} (h : ∀ v ∈ l, v.preorder = v.subnodes) :
    preorderList l = subnodesList l := by
  induction l with
  | nil => rfl
  | cons x rest ih =>
    simp only [preorderList, subnodesList]
    rw [h x (List.mem_cons_self _ _), ih (fun v hv => h v (List.mem_cons_of_mem _ hv))]

theorem mem_contents_iff {n v : Node} :
    v ∈ (n.slots.map Slot.contents).flatten ↔ ∃ x ∈ n.slots, ∃ sh, (sh, v) ∈ x.elems := by
  simp only [List.mem_flatten, List.mem_map]
  constructor
  · rintro ⟨cs, ⟨x, hx, rfl⟩, hv⟩
    rw [contents_eq_elems] at hv
    obtain ⟨⟨sh, v1⟩, he, rfl⟩ := List.mem_map.1 hv
    exact ⟨x, hx, sh, he⟩
  · rintro ⟨x, hx, sh, he⟩
    exact ⟨x.contents, ⟨x, hx, rfl⟩, by rw [contents_eq_elems]; exact List.mem_map.2 ⟨_, he, rfl⟩⟩

/-- In a tree without a map type that has both a key and a value, the order of
the type switch of `Rewrite` is the order in which `go/ast` declares the
children. -/
theorem preorder_eq_subnodes : ∀ (m : Nat) (t : Node), t.size ≤ m → t.noMapType = true →
    t.preorder = t.subnodes := by
  intro m
  induction m with
  | zero =>
    intro t hs _
    by_cases hk : t.kind.isSome = true
    · have := size_pos_of_kind hk; omega
    · cases t <;> first
        | rfl
        | (exfalso; exact hk rfl)
  | succ m ih =>
    intro t hs hm
    by_cases hk : t.kind.isSome = true
    · have hroot := List.all_eq_true.1 hm t (self_mem_subnodes hk)
      rw [preorder_eq_slots t hk (fun a key value ht => by
        subst ht
        simpa using hroot), subnodes_eq_slots t hk]
      congr 1
      apply preorderList_eq
      intro v hv
      obtain ⟨x, hx, sh, he⟩ := mem_contents_iff.1 hv
      have hlt := size_lt_of_elem hk hx he
      exact ih v (by omega) (all_subnodes_of_elem _ hk hm hx he)
    · cases t <;> first
        | rfl
        | (exfalso; exact hk rfl)

/-! ## C12: the order of the visits -/

/-- C12, what the code does.  On a tree as a parser produces it, `Rewrite` with
the recording identity callback returns the tree, and:
(1) the log grows by the calls that `traceFun` lists;
(2) the non-nil arguments of these calls are the nodes of the tree in the order
of `Node.subnodes`, every node once;
(3) that order is pre-order and depth-first: the node comes first, then the
whole listing of its first child, then that of the next child, the children
being taken in the order of the type switch of `Rewrite`;
(4) in a tree without a map type that has a key and a value, this is the order
in which `go/ast` declares the children (`Node.preorder`, for an if statement
`Init`, `Cond`, `Body`, `Else`).
For a map type the type switch takes `Value` before `Key`, so that (4) does not
extend to every tree. -/
theorem preorder_visit {σ : Type} (t : Node) (fuel : Nat) (s : σ) (log : List Call)
    (hp : t.parsed = true) (hf : t.size < fuel) :
    Rewrite (recording (idRewriter : Rewriter σ)) fuel t (s, log) =
      .done (t, (s, log ++ traceFun (fun n => (n, true)) fuel t)) ∧
    ((traceFun (fun n => (n, true)) fuel t).map (fun c => c.arg)).filter (fun v => !v.isNil) =
      t.subnodes ∧
    t.subnodes = t :: (t.children.map Node.subnodes).flatten ∧
    (t.noMapType = true → t.subnodes = t.preorder) := by
  have hwt : t.wellTyped = true := by
    simp only [Node.parsed, Bool.and_eq_true] at hp; exact hp.1
  refine ⟨?_, trace_id fuel t hwt hf, subnodes_eq_children (localOK_root hwt),
    fun hm => (preorder_eq_subnodes t.size t (le_refl _) hm).symm⟩
  have h := (rewriteFun_spec (σ := σ) (fun node => (node, true))
    (fun n => n.wellTyped = true) Node.size id_respects fuel t s hwt hf).1
  rw [rewriteFun_id fuel t hp hf] at h
  have hrec := congrFun (congrFun (Rewrite_recording_pure (σ := σ) (fun n => (n, true)) fuel) t)
    (s, log)
  have hid : (idRewriter : Rewriter σ) = Rewriter.ofFun (fun n => (n, true)) := rfl
  rw [hid, hrec]
  simp only [traced, Run.logging, h]

/-- Evaluation of the code for C12 on the composite literal `map[string]int{}`
under the recording identity callback: `Rewrite` returns the literal; the
callback is called on the literal, on the map type, on `int`, on `string`, in
this order (calls with nil left out), while the declared order of the children
puts `string` before `int`. -/
theorem preorder_visit_witness :
    ∃ calls : List Call,
      Rewrite (recording (idRewriter : Rewriter Unit)) 5
          (.CompositeLit {} (.MapType {} (.Ident { text := "string" })
            (.Ident { text := "int" })) []) ((), []) =
        .done (.CompositeLit {} (.MapType {} (.Ident { text := "string" })
            (.Ident { text := "int" })) [], ((), [] ++ calls)) ∧
      (calls.map (fun c => c.arg)).filter (fun v => !v.isNil) =
        [.CompositeLit {} (.MapType {} (.Ident { text := "string" })
            (.Ident { text := "int" })) [],
          .MapType {} (.Ident { text := "string" }) (.Ident { text := "int" }),
          .Ident { text := "int" }, .Ident { text := "string" }] ∧
      (Node.CompositeLit {} (.MapType {} (.Ident { text := "string" })
            (.Ident { text := "int" })) []).preorder =
        [.CompositeLit {} (.MapType {} (.Ident { text := "string" })
            (.Ident { text := "int" })) [],
          .MapType {} (.Ident { text := "string" }) (.Ident { text := "int" }),
          .Ident { text := "string" }, .Ident { text := "int" }] :=
  ⟨_, (preorder_visit (.CompositeLit {} (.MapType {} (.Ident { text := "string" })
      (.Ident { text := "int" })) []) 5 () [] (by decide) (by decide)).1,
    (preorder_visit (.CompositeLit {} (.MapType {} (.Ident { text := "string" })
      (.Ident { text := "int" })) []) 5 () [] (by decide) (by decide)).2.1.trans rfl,
    rfl⟩

/-! ## C5: the statements of a sentinel -/

/-- The part of the list that the loop of `rewriteStmtList` has behind its
cursor plays no part in what it does: started behind `front` instead of at
the head of the list, it makes the same run and returns `front` followed by
the same statements. -/
theorem rewriteStmtListLoop_front {σ : Type} {rw : Node → Run σ Node} {l out : List Node}
    {s s1 : σ} (h : rewriteStmtListLoop rw [] l s = .done (out, s1)) (front : List Node) :
    rewriteStmtListLoop rw front l s = .done (front ++ out, s1) := by
  obtain ⟨ys, hp, hne, rfl⟩ := rewriteStmtListLoop_inv h
  rw [rewriteStmtListLoop_of_each rw l ys s s1 (rewriteEach_iff_pass.2 hp) hne front]
  simp

/-- The loop of `rewriteStmtList` over `l1 ++ l2` is the loop over `l1`
followed by the loop over `l2`, started behind what the first has returned. -/
theorem rewriteStmtListLoop_append {σ : Type} (rw : Node → Run σ Node) (l1 l2 : List Node) :
    ∀ (front : List Node) (s : σ), rewriteStmtListLoop rw front (l1 ++ l2) s =
      Run.bind (rewriteStmtListLoop rw front l1) (fun f => rewriteStmtListLoop rw f l2) s := by
  induction l1 with
  | nil => intro front s; rfl
  | cons x rest ih =>
    intro front s
    rw [List.cons_append]
    cases hx : rewriteStmt rw x s with
    | done v =>
      obtain ⟨y, s1⟩ := v
      by_cases hy : y = .typedNil .ExpandedBlockStmt
      · subst hy
        rw [rewriteStmtListLoop_cons_typedNil rw front _ x s s1 hx,
          Run.bind_panic (rewriteStmtListLoop_cons_typedNil rw front rest x s s1 hx)]
      · rw [rewriteStmtListLoop_cons rw front _ x y s s1 hx hy, ih]
        have h := rewriteStmtListLoop_cons rw front rest x y s s1 hx hy
        unfold Run.bind
        rw [h]
    | panic p =>
      have h1 : ∀ l, rewriteStmtListLoop rw front (x :: l) s = .panic p := by
        intro l
        simp only [rewriteStmtListLoop, Run.bind_eq]
        exact Run.bind_panic hx
      rw [h1, Run.bind_panic (h1 rest)]
    | outOfFuel =>
      have h1 : ∀ l, rewriteStmtListLoop rw front (x :: l) s = .outOfFuel := by
        intro l
        simp only [rewriteStmtListLoop, Run.bind_eq]
        exact Run.bind_outOfFuel hx
      rw [h1, Run.bind_outOfFuel (h1 rest)]

/-- Counterexample to C5 as stated.  The callback answers the empty statement
of the block `{ ; }` with a sentinel carrying a bad statement and
`continue = true`.  `Rewrite` then hands the carried bad statement to the
callback (third call of the log), and what is spliced into the block is the
callback's answer to it, a return statement, not the bad statement that the
sentinel carried. -/
theorem spliced_statements_revisited :
    ∃ log : List Call,
      Rewrite (recording (emptyToSentinel : Rewriter Unit)) 4
          (.BlockStmt {} [.EmptyStmt {}]) ((), []) =
        .done (.BlockStmt {} [.ReturnStmt {} []], ((), log)) ∧
      log.map (fun c => c.arg) =
        [.BlockStmt {} [.EmptyStmt {}], .EmptyStmt {}, .BadStmt {}, .nil, .nil, .nil] ∧
      log.map (fun c => c.ret) =
        [.BlockStmt {} [.EmptyStmt {}], .ExpandedBlockStmt {} [.BadStmt {}], .ReturnStmt {} [],
          .nil, .nil, .nil] :=
  ⟨_, rfl, rfl, rfl⟩

/-- C5 as amended.  In a statement list, `x` is a non-nil element, `rest` the
elements after it, and `front` what the elements before it have become.
(1) If the callback answers `x` with a sentinel of statements `ms` and
`continue = false`, the only call made for `x` is the one on `x`: `ms` goes to
the list as the callback returned it and the loop goes on with the element
after `x`.
(2) Whatever the flag, once `Rewrite` has returned a sentinel for `x`, the
loop puts its statements behind `front` as they are and goes on with the
element after `x`.
(3) If the callback answers `x` with a sentinel and `continue = true`,
`Rewrite` rewrites the statement list of the sentinel as it rewrites the list
of a block, calls the callback with nil and returns the sentinel with the
rewritten list.
(4) The whole list, `continue = false`.  Let `rewriteStmtList` on the elements
`pre` before `x` return `front`, with the calls of the callback recorded in
`log`, and let it return `back` on `rest`, started after the call on `x`, the
record then being `log2`.  Then `rewriteStmtList` on `pre ++ x :: rest` returns
`front ++ ms ++ back` and the record is `log2`: between the calls made for the
elements before `x` and those made for the elements after it there is the call
on `x` and no other, none after the last element either, and `ms` is in the
result as the callback returned it.
(5) The whole list, whatever the flag.  Let `Rewrite` return the sentinel for
`x`, `rewriteStmtList` return `front` on `pre` and `back` on `rest`.  Then
`rewriteStmtList` on `pre ++ x :: rest` returns `front ++ ms ++ back`, and the
nodes it has handed to `Rewrite` are the non-nil elements of
`pre ++ x :: rest`, each once and in order: no statement of `ms` is among them
unless it is one of these elements.
(6) From any position of the cursor, `fr` being the list behind it and `l` the
elements from it on, the nodes that the loop hands to `Rewrite` are the
non-nil elements of `l`: nothing of `fr`, where the spliced statements are.
(7) When the loop returns, it returns `fr` as it was, followed by the splice of
what one pass over `l` has rewritten the elements of `l` to, in the state in
which that pass has ended. -/
theorem spliced_statements_final {σ : Type} (r : Rewriter σ) (fuel : Nat)
    (front rest : List Node) (x : Node) (a : Attr) (ms : List Node) (s s1 : σ)
    (hx : x.isNil = false) :
    (r x s = ((.ExpandedBlockStmt a ms, false), s1) →
      ∀ log : List Call,
        rewriteStmtListLoop (Rewrite (recording r) (fuel + 1)) front (x :: rest) (s, log) =
          rewriteStmtListLoop (Rewrite (recording r) (fuel + 1)) (front ++ ms) rest
            (s1, log ++ [{ arg := x, ret := .ExpandedBlockStmt a ms, cont := false }])) ∧
    (Rewrite r (fuel + 1) x s = .done (.ExpandedBlockStmt a ms, s1) →
      rewriteStmtListLoop (Rewrite r (fuel + 1)) front (x :: rest) s =
        rewriteStmtListLoop (Rewrite r (fuel + 1)) (front ++ ms) rest s1) ∧
    (r x s = ((.ExpandedBlockStmt a ms, true), s1) →
      Rewrite r (fuel + 1) x s =
        Run.bind (rewriteStmtList (Rewrite r fuel) ms)
          (fun ms1 => Run.bind (r.call .nil) (fun _ => Run.pure (.ExpandedBlockStmt a ms1)))
          s1) ∧
    (r x s = ((.ExpandedBlockStmt a ms, false), s1) →
      ∀ (pre back : List Node) (s0 s2 : σ) (log0 log log2 : List Call),
        rewriteStmtList (Rewrite (recording r) (fuel + 1)) pre (s0, log0) =
          .done (front, (s, log)) →
        rewriteStmtList (Rewrite (recording r) (fuel + 1)) rest
            (s1, log ++ [{ arg := x, ret := .ExpandedBlockStmt a ms, cont := false }]) =
          .done (back, (s2, log2)) →
        rewriteStmtList (Rewrite (recording r) (fuel + 1)) (pre ++ x :: rest) (s0, log0) =
          .done (front ++ ms ++ back, (s2, log2))) ∧
    (Rewrite r (fuel + 1) x s = .done (.ExpandedBlockStmt a ms, s1) →
      ∀ (pre back : List Node) (s0 s2 : σ),
        rewriteStmtList (Rewrite r (fuel + 1)) pre s0 = .done (front, s) →
        rewriteStmtList (Rewrite r (fuel + 1)) rest s1 = .done (back, s2) →
        rewriteStmtList (Rewrite r (fuel + 1)) (pre ++ x :: rest) s0 =
            .done (front ++ ms ++ back, s2) ∧
          ∀ log : List Node,
            rewriteStmtList (observed (Rewrite r (fuel + 1))) (pre ++ x :: rest) (s0, log) =
              .done (front ++ ms ++ back,
                (s2, log ++ (pre ++ x :: rest).filter (fun v => !v.isNil)))) ∧
    (∀ (fr l : List Node) (t : σ) (log : List Node),
      rewriteStmtListLoop (observed (Rewrite r fuel)) fr l (t, log) =
        (rewriteStmtListLoop (Rewrite r fuel) fr l).logging
          (l.filter (fun v => !v.isNil)) (t, log)) ∧
    (∀ (fr l out : List Node) (t t1 : σ),
      rewriteStmtListLoop (Rewrite r fuel) fr l t = .done (out, t1) →
        ∃ ys, Pass (rewriteStmt (Rewrite r fuel)) l t ys t1 ∧
          out = fr ++ (ys.map spliced).flatten) := by
  have hsplice : ∀ {τ : Type} (rw : Node → Run τ Node) (t t1 : τ),
      rw x t = .done (.ExpandedBlockStmt a ms, t1) →
      rewriteStmtListLoop rw front (x :: rest) t = rewriteStmtListLoop rw (front ++ ms) rest t1 := by
    intro τ rw t t1 h
    exact rewriteStmtListLoop_cons rw front rest x _ t t1 (rewriteStmt_of_done hx h rfl)
      (by simp)
  have hwhole : ∀ {τ : Type} (rw : Node → Run τ Node) (pre back : List Node) (t0 t t1 t2 : τ),
      rw x t = .done (.ExpandedBlockStmt a ms, t1) →
      rewriteStmtList rw pre t0 = .done (front, t) →
      rewriteStmtList rw rest t1 = .done (back, t2) →
      rewriteStmtList rw (pre ++ x :: rest) t0 = .done (front ++ ms ++ back, t2) := by
    intro τ rw pre back t0 t t1 t2 h hpre hpost
    have hpre1 : rewriteStmtListLoop rw [] pre t0 = .done (front, t) := hpre
    have hpost1 : rewriteStmtListLoop rw [] rest t1 = .done (back, t2) := hpost
    unfold rewriteStmtList
    rw [rewriteStmtListLoop_append, Run.bind_done hpre1, hsplice rw t t1 h,
      rewriteStmtListLoop_front hpost1]
  have hstop : r x s = ((.ExpandedBlockStmt a ms, false), s1) → ∀ log : List Call,
      Rewrite (recording r) (fuel + 1) x (s, log) =
        .done (.ExpandedBlockStmt a ms,
          (s1, log ++ [{ arg := x, ret := .ExpandedBlockStmt a ms, cont := false }])) := by
    intro h log
    apply Rewrite_stop
    simp [recording, h]
  refine ⟨fun h log => hsplice _ _ _ (hstop h log), fun h => hsplice _ s s1 h, fun h => ?_,
    fun h pre back s0 s2 log0 log log2 hpre hpost =>
      hwhole _ pre back _ _ _ _ (hstop h log) hpre hpost,
    fun h pre back s0 s2 hpre hpost => ?_, fun fr l t log => ?_, fun fr l out t t1 h => ?_⟩
  · rw [Rewrite_cont fuel h]
    simp only [rewriteChildren, Run.bind_eq, Run.bind_assoc, Run.pure_bind]
  · have hw := hwhole _ pre back s0 s s1 s2 h hpre hpost
    refine ⟨hw, fun log => ?_⟩
    have hw1 : rewriteStmtListLoop (Rewrite r (fuel + 1)) [] (pre ++ x :: rest) s0 =
        .done (front ++ ms ++ back, s2) := hw
    unfold rewriteStmtList
    rw [rewriteStmtListLoop_observed, hw1]
  · rw [rewriteStmtListLoop_observed]
    simp only [Run.logging]
    cases rewriteStmtListLoop (Rewrite r fuel) fr l t <;> rfl
  · obtain ⟨ys, hp, -, rfl⟩ := rewriteStmtListLoop_inv h
    exact ⟨ys, hp, rfl⟩

/-- Witness of C5 as amended: in the list `a; ; b` the empty statement is
answered with a sentinel carrying a bad statement and `continue = false`, by a
callback that would answer the bad statement with a return statement.  The
list becomes `a; <bad>; b`: the bad statement is in it as the callback
returned it, and the callback has been called on `a`, the empty statement and
`b` (and below `a` and `b`), never on the bad statement. -/
theorem spliced_statements_final_witness :
    ∃ log : List Call,
      rewriteStmtList (Rewrite (recording (emptyToBad : Rewriter Unit)) 3)
          ([.ExprStmt {} (.Ident { text := "a" })] ++
            .EmptyStmt {} :: [.ExprStmt {} (.Ident { text := "b" })]) ((), []) =
        .done ([.ExprStmt {} (.Ident { text := "a" })] ++ [.BadStmt {}] ++
          [.ExprStmt {} (.Ident { text := "b" })], ((), log)) ∧
      log.map (fun c => c.arg) =
        [.ExprStmt {} (.Ident { text := "a" }), .Ident { text := "a" }, .nil, .nil,
          .EmptyStmt {},
          .ExprStmt {} (.Ident { text := "b" }), .Ident { text := "b" }, .nil, .nil] ∧
      (emptyToBad : Rewriter Unit) (.BadStmt {}) () = ((.ReturnStmt {} [], true), ()) :=
  ⟨_, (spliced_statements_final (emptyToBad : Rewriter Unit) 2
      [.ExprStmt {} (.Ident { text := "a" })] [.ExprStmt {} (.Ident { text := "b" })]
      (.EmptyStmt {}) {} [.BadStmt {}] () () rfl).2.2.2.1 rfl
      [.ExprStmt {} (.Ident { text := "a" })] [.ExprStmt {} (.Ident { text := "b" })] () ()
      [] _ _ rfl rfl,
    rfl, rfl⟩

end AstRewrite
